import Mathlib

/-! Memory pools of `MemoryPool.hpp` / `MemoryPool.cpp`, and `ThreadPool`.

A shallow embedding of the two allocators of the repository, read in single-threaded
executions (a compare-and-swap that is repeated in a loop is read at the attempt that
succeeds; the weak exchange of `LockFreeStack::pop`, which is made once, has its outcome as an
argument):

* `LockFreeMultiSizePool` : size classes, `align_of`, `get_size_class_index`, chunk carving,
  per-class cache and free list;
* `LockFreeFixedSizePool<T, N>` : one free list, one cache of 32 slots, with the handles
  `PoolPtr` of `PoolAllocator`;
* `LockFreeStack<T>`.

Where a statement is about several threads, the threads take turns: a schedule is a list of
steps, each made by one thread on the shared memory.  `ThreadPool` is read in this way.

Machine integers: `size_t` is a natural number taken modulo `2^64` wherever the source
arithmetic can wrap; `int` is `Int`.  Undefined behaviour (null dereference, array index out
of range) is the value `none`.
-/

namespace MemoryPool

/-! ## Size arithmetic of the multi-size pool -/

/-- Number of values of `size_t` (64-bit platform). -/
def SIZE_T_RANGE : Nat := 2 ^ 64

/-- Unsigned subtraction `a - b` of two `size_t` values. -/
def size_t_sub (a b : Nat) : Nat := if b ≤ a then a - b else a + SIZE_T_RANGE - b

/-- Models `constexpr size_t align_of(size_t size, size_t allignment)`:
`(size + allignment - 1) & ~(allignment - 1)`, every operation on 64-bit unsigned values. -/
def align_of (size allignment : Nat) : Nat :=
  Nat.land (size_t_sub ((size + allignment) % SIZE_T_RANGE) 1)
    ((SIZE_T_RANGE - 1) - size_t_sub allignment 1)

/-- Models `static constexpr std::array<size_t, 16> SIZE_CALSSES`. -/
def SIZE_CALSSES : List Nat :=
  [8, 16, 24, 32, 48, 64, 96, 128, 192, 256, 384, 512, 768, 1024, 1536, 2048]

/-- Models `ALIGNMENT = alignof(std::max_align_t)`, 16 on the 64-bit platforms the pool targets. -/
def ALIGNMENT : Nat := 16

/-- Models `CHUNK_SIZE = 64 * 1024`. -/
def CHUNK_SIZE : Nat := 64 * 1024

/-- Models `sizeof(FreeBlock)`: a `size_t` followed by an atomic pointer. -/
def SIZEOF_FREEBLOCK : Nat := 16

/-- The `while (left <= right)` loop of `get_size_class_index`.  The first argument bounds the
number of iterations; `none` is returned when it is used up or when the table is indexed out
of range.  The result `some (Sum.inl mid)` is the `return mid` inside the loop, and
`some (Sum.inr left)` is the exit of the loop with the final `left`. -/
def get_size_class_index_loop (size : Nat) : Nat → Nat → Nat → Option (Nat ⊕ Nat)
  | 0, _, _ => none
  | fuel + 1, left, right =>
    if left ≤ right then
      let mid := left + (right - left) / 2
      match SIZE_CALSSES[mid]? with
      | none => none
      | some c =>
        if c < size then get_size_class_index_loop size fuel (mid + 1) right
        else if c > size ∧ mid > 0 then get_size_class_index_loop size fuel left (mid - 1)
        else some (Sum.inl mid)
    else some (Sum.inr left)

/-- Models `size_t LockFreeMultiSizePool::get_size_class_index(size_t size)`. -/
def get_size_class_index (size : Nat) : Option Nat :=
  match get_size_class_index_loop size (SIZE_CALSSES.length + 1) 0 (SIZE_CALSSES.length - 1) with
  | none => none
  | some (Sum.inl mid) => some mid
  | some (Sum.inr left) => some (if left < SIZE_CALSSES.length then left else SIZE_CALSSES.length)

/-- Entry `i` of the table, `0` outside of it. -/
def sizeClass (i : Nat) : Nat := SIZE_CALSSES.getD i 0

/-! ## Memory shared by the two pools

A block pointer is `none` (the null pointer) or the pair of the identity of the array the
system allocator returned and a position inside that array (an element index for the
fixed-size pool, a byte offset for the multi-size pool).  Two arrays returned by the system
allocator never overlap, so distinct pairs are distinct addresses. -/

/-- A non-null `Block*` / `FreeBlock*`. -/
abbrev Block := Nat × Nat

/-- The values of `Block*`: `none` is `nullptr`. -/
abbrev BlockPtr := Option Block

/-- The `next` field of every block of the memory. -/
abbrev NextMap := Block → BlockPtr

/-- The contents of a `blocks[...]` array of a thread cache, indexed by `int`. -/
abbrev Slots := Int → BlockPtr

/-- Assignment to one cell of a map. -/
def upd {α β : Type} [DecidableEq α] (f : α → β) (a : α) (v : β) : α → β :=
  fun x => if x = a then v else f x

/-- The loop `for (i = start; i < start + n; ++i) body(i)`, stopped by the first undefined
step. -/
def forLoop {σ : Type} (body : Nat → σ → Option σ) : Nat → Nat → σ → Option σ
  | 0, _, s => some s
  | n + 1, i, s =>
    match body i s with
    | none => none
    | some s' => forLoop body n (i + 1) s'

/-- Read of `blocks[i]` of an array of `cap` cells. -/
def slot (cap : Int) (blocks : Slots) (i : Int) : Option BlockPtr :=
  if 0 ≤ i ∧ i < cap then some (blocks i) else none

/-- Write `blocks[i] = v` into an array of `cap` cells. -/
def setSlot (cap : Int) (blocks : Slots) (i : Int) (v : BlockPtr) : Option Slots :=
  if 0 ≤ i ∧ i < cap then some (upd blocks i v) else none

/-- The loop `for (int i = 0; i < n - 1; ++i) blocks[i]->next.store(blocks[i + 1]);` found in
`return_thread_cache`, `~MultiSizeThreadCache` and both `deallocate` functions. -/
def link_blocks (cap : Int) (blocks : Slots) (n : Int) (next : NextMap) : Option NextMap :=
  forLoop (fun i nx =>
    match slot cap blocks (i : Int), slot cap blocks ((i : Int) + 1) with
    | some (some b), some v => some (upd nx b v)
    | _, _ => none) (n - 1).toNat 0 next

/-- The loop `for (int i = 0; i < count - half_count; ++i) blocks[i] = blocks[i + half_count];`
of both `deallocate` functions. -/
def compact_blocks (cap : Int) (count half_count : Int) (blocks : Slots) : Option Slots :=
  forLoop (fun i bl =>
    match slot cap bl ((i : Int) + half_count) with
    | some v => setSlot cap bl (i : Int) v
    | none => none) (count - half_count).toNat 0 blocks

/-- The loop `while (count < batch_size - 1 && current->next) { current = current->next;
++count; }` of the two refill functions; the first argument is the number of iterations still
allowed by the counter. -/
def walk_batch (next : NextMap) : Nat → Block → Block
  | 0, current => current
  | n + 1, current =>
    match next current with
    | none => current
    | some nx => walk_batch next n nx

/-- The loop `while (current != new_head) { blocks[i++] = current; current = current->next; }`
of the two refill functions, from index `i`.  Every iteration writes the next cell of an array
of `cap` cells, so `cap + 1` iterations cannot all be defined: the first argument, which bounds
the number of iterations, is set to `cap + 1` by the callers.  The result is the array and the
final `i`. -/
def store_batch (cap : Int) (next : NextMap) (new_head : BlockPtr) :
    Nat → BlockPtr → Int → Slots → Option (Slots × Int)
  | 0, _, _, _ => none
  | fuel + 1, current, i, blocks =>
    if current = new_head then some (blocks, i)
    else
      match current, setSlot cap blocks i current with
      | some b, some blocks' => store_batch cap next new_head fuel (next b) (i + 1) blocks'
      | _, _ => none

/-- The list without the first occurrence of `b`. -/
def removeBlock (b : Block) : List Block → List Block
  | [] => []
  | x :: l => if x = b then l else x :: removeBlock b l

/-! ## `LockFreeFixedSizePool<T, N>` -/

namespace Fixed

/-- Models `struct Chunk`: the array `blocks` (its identity) and `count`. -/
structure Chunk where
  blocks : Nat
  count : Nat

/-- Models `struct ThreadCache`: `Block* blocks[32]`, `int count`, `pool_instance` (the address of a
pool, `none` for `nullptr`). -/
structure ThreadCache where
  blocks : Slots
  count : Int
  pool_instance : Option Nat

/-- Number of cells of `ThreadCache::blocks`. -/
def CACHE_CAPACITY : Int := 32

/-- Models `ThreadCache::BATCH_SIZE`. -/
def BATCH_SIZE : Nat := 16

/-- The data members of a pool: `free_list`, `chunks` (top of the stack first),
`allocate_count`, `deallocated_count`. -/
structure Pool where
  free_list : BlockPtr
  chunks : List Chunk
  allocate_count : Nat
  deallocated_count : Nat

/-- The memory seen by the pools of one instantiation `LockFreeFixedSizePool<T, N>`: the
`next` field of every block, the number of arrays obtained from the system allocator so far,
the `static inline ThreadCache local_cache`, and the pool objects alive, by address. -/
structure World where
  next : NextMap
  arrays : Nat
  local_cache : ThreadCache
  pools : Nat → Option Pool

/-- The memory at program start: `local_cache` is zero-initialised, no pool exists. -/
def World.init : World :=
  { next := fun _ => none
    arrays := 0
    local_cache := { blocks := fun _ => none, count := 0, pool_instance := none }
    pools := fun _ => none }

/-- Models `BLOCK_PER_CHUNK = N / sizeof(Block)`. -/
def BLOCK_PER_CHUNK (N sizeofBlock : Nat) : Nat := N / sizeofBlock

/-- Models `void allocate_new_chunk()` of the pool at address `this`; `B` is `BLOCK_PER_CHUNK`.
`std::make_unique<Chunk>(B)` returns a new array whose blocks have `next{nullptr}`. -/
def allocate_new_chunk (B this : Nat) (w : World) : Option World :=
  match w.pools this with
  | none => none
  | some pool =>
    let chunk : Chunk := { blocks := w.arrays, count := B }
    let next0 : NextMap := fun b => if b.1 = chunk.blocks then none else w.next b
    let first_block : Block := (chunk.blocks, 0)
    match forLoop (fun i nx =>
        if i < chunk.count then some (upd nx (chunk.blocks, i) (some (chunk.blocks, i + 1)))
        else none) (size_t_sub chunk.count 1) 0 next0 with
    | none => none
    | some next1 =>
      let old_head := pool.free_list
      if size_t_sub chunk.count 1 < chunk.count then
        some { w with
          next := upd next1 (chunk.blocks, size_t_sub chunk.count 1) old_head
          arrays := w.arrays + 1
          pools := (upd w.pools this
            (some { pool with free_list := some first_block, chunks := chunk :: pool.chunks })) }
      else none

/-- The constructor `LockFreeFixedSizePool()` run at address `this`. -/
def construct (B this : Nat) (w : World) : Option World :=
  allocate_new_chunk B this
    { w with pools := (upd w.pools this
        (some { free_list := none, chunks := [], allocate_count := 0, deallocated_count := 0 })) }

/-- The part of `fill_local_cache` after `old_head` is known to be non-null: the walk over at
most `batch_size - 1` links, the exchange of `free_list`, the copy into the cache. -/
def fill_from (this : Nat) (w : World) (pool : Pool) (old_head : Block) : Option World :=
  let tail := walk_batch w.next (BATCH_SIZE - 1) old_head
  let new_head := w.next tail
  match store_batch CACHE_CAPACITY w.next new_head (CACHE_CAPACITY.toNat + 1) (some old_head) 0
      w.local_cache.blocks with
  | none => none
  | some (blocks, i) =>
    some { w with
      pools := upd w.pools this (some { pool with free_list := new_head })
      local_cache := { w.local_cache with blocks := blocks, count := i } }

/-- Models `void fill_local_cache(ThreadCache& cache)` called on `local_cache`. -/
def fill_local_cache (B this : Nat) (w : World) : Option World :=
  let w := { w with local_cache := { w.local_cache with pool_instance := some this } }
  if w.local_cache.count > 0 then some w
  else
    match w.pools this with
    | none => none
    | some pool =>
      match pool.free_list with
      | some old_head => fill_from this w pool old_head
      | none =>
        match allocate_new_chunk B this w with
        | none => none
        | some w' =>
          match w'.pools this with
          | none => none
          | some pool' =>
            match pool'.free_list with
            | none => some w'
            | some old_head => fill_from this w' pool' old_head

/-- The loop `while (old_block) { if (free_list.compare_exchange_weak(old_block,
old_block->next)) { block = old_block; break; } }` of `allocate`: the head of the free list
is detached when there is one. -/
def pop_one (this : Nat) (w : World) : Option (World × BlockPtr) :=
  match w.pools this with
  | none => none
  | some pool =>
    match pool.free_list with
    | none => some (w, none)
    | some old_block =>
      some ({ w with pools := upd w.pools this (some { pool with free_list := w.next old_block }) },
        some old_block)

/-- The statement `allocate_count.fetch_add(1)`. -/
def count_allocation (this : Nat) (w : World) : Option World :=
  match w.pools this with
  | none => none
  | some pool =>
    some { w with pools := (upd w.pools this
      (some { pool with allocate_count := (pool.allocate_count + 1) % SIZE_T_RANGE })) }

/-- Models `T* allocate(Args&&...)` of the pool at address `this`.  The result is the block whose
`data` holds the new object (`T*` and `Block*` are the same address), or `none`. -/
def allocate (B this : Nat) (w : World) : Option (World × BlockPtr) :=
  match (if w.local_cache.count = 0 then fill_local_cache B this w else some w) with
  | none => none
  | some w1 =>
    match
      (if w1.local_cache.count > 0 then
        match slot CACHE_CAPACITY w1.local_cache.blocks (w1.local_cache.count - 1) with
        | none => none
        | some block =>
          some ({ w1 with local_cache :=
            { w1.local_cache with count := w1.local_cache.count - 1 } }, block)
      else
        match pop_one this w1 with
        | none => none
        | some (w2, some block) => some (w2, some block)
        | some (w2, none) =>
          match allocate_new_chunk B this w2 with
          | none => none
          | some w3 => pop_one this w3) with
    | none => none
    | some (w4, block) =>
      match count_allocation this w4 with
      | none => none
      | some w5 => some (w5, block)

/-- The branch of `deallocate` taken when `local_cache.count >= cache_capacity * 0.8`: half
of the cache is linked, pushed in front of `free_list`, and the rest is moved down. -/
def return_half (this : Nat) (w : World) : Option World :=
  let cache := w.local_cache
  let half_count := Int.tdiv cache.count 2
  match link_blocks CACHE_CAPACITY cache.blocks half_count w.next, w.pools this with
  | some next1, some pool =>
    let old_head := pool.free_list
    match slot CACHE_CAPACITY cache.blocks 0, slot CACHE_CAPACITY cache.blocks (half_count - 1) with
    | some cache_head, some (some cache_tail) =>
      match compact_blocks CACHE_CAPACITY cache.count half_count cache.blocks with
      | none => none
      | some blocks' =>
        some { w with
          next := upd next1 cache_tail old_head
          pools := upd w.pools this (some { pool with free_list := cache_head })
          local_cache := { cache with blocks := blocks', count := cache.count - half_count } }
    | _, _ => none
  | _, _ => none

/-- Models `void deallocate(T* ptr)` of the pool at address `this`.  The comparison
`count >= cache_capacity * 0.8` between an `int` and the `double` 25.6 holds exactly when
`5 * count >= 4 * cache_capacity`. -/
def deallocate (this : Nat) (w : World) (ptr : BlockPtr) : Option World :=
  match ptr with
  | none => some w
  | some block =>
    let w0 := { w with local_cache := { w.local_cache with pool_instance := some this } }
    match (if 5 * w0.local_cache.count ≥ 4 * CACHE_CAPACITY then return_half this w0
           else some w0) with
    | none => none
    | some w1 =>
      match setSlot CACHE_CAPACITY w1.local_cache.blocks w1.local_cache.count (some block),
          w1.pools this with
      | some blocks', some pool =>
        some { w1 with
          local_cache := { w1.local_cache with blocks := blocks', count := w1.local_cache.count + 1 }
          pools := (upd w1.pools this
            (some { pool with deallocated_count := (pool.deallocated_count + 1) % SIZE_T_RANGE })) }
      | _, _ => none

/-- Models `void ThreadCache::return_thread_cache()` run on `local_cache`. -/
def return_thread_cache (w : World) : Option World :=
  let cache := w.local_cache
  match cache.pool_instance with
  | none => some w
  | some inst =>
    if cache.count = 0 then some w
    else
      match link_blocks CACHE_CAPACITY cache.blocks cache.count w.next, w.pools inst with
      | some next1, some pool =>
        let old_head := pool.free_list
        match slot CACHE_CAPACITY cache.blocks 0,
            slot CACHE_CAPACITY cache.blocks (cache.count - 1) with
        | some new_head, some (some new_tail) =>
          some { w with
            next := upd next1 new_tail old_head
            pools := upd w.pools inst (some { pool with free_list := new_head })
            local_cache := { cache with count := 0 } }
        | _, _ => none
      | _, _ => none

/-- Models `size_t get_allocated_count() const`. -/
def get_allocated_count (pool : Pool) : Nat := pool.allocate_count

/-- Models `size_t get_deallocated_count() const`. -/
def get_deallocated_count (pool : Pool) : Nat := pool.deallocated_count

/-- Models `size_t get_active_objects() const`: an unsigned subtraction. -/
def get_active_objects (pool : Pool) : Nat :=
  size_t_sub (get_allocated_count pool) (get_deallocated_count pool)

/-! ### Single-threaded runs of one fixed-size pool -/

/-- A call made by the thread. -/
inductive Op where
  | allocate
  | deallocate (ptr : BlockPtr)
  | return_thread_cache

/-- The memory during a run, with two records kept for the statements only: the blocks handed
out and not yet given back (`live`), and every value returned by `allocate`, the most recent
first (`returned`). -/
structure Run where
  world : World
  live : List Block
  returned : List BlockPtr

/-- One call on the pool at address `this`. -/
def step (B this : Nat) (s : Run) : Op → Option Run
  | Op.allocate =>
    match allocate B this s.world with
    | none => none
    | some (w, none) => some { world := w, live := s.live, returned := none :: s.returned }
    | some (w, some b) => some { world := w, live := b :: s.live, returned := some b :: s.returned }
  | Op.deallocate none =>
    match deallocate this s.world none with
    | none => none
    | some w => some { s with world := w }
  | Op.deallocate (some b) =>
    match deallocate this s.world (some b) with
    | none => none
    | some w => some { s with world := w, live := removeBlock b s.live }
  | Op.return_thread_cache =>
    match return_thread_cache s.world with
    | none => none
    | some w => some { s with world := w }

/-- The calls of a list, in order. -/
def runOps (B this : Nat) : Run → List Op → Option Run
  | s, [] => some s
  | s, op :: ops =>
    match step B this s op with
    | none => none
    | some s' => runOps B this s' ops

/-- The precondition of a call: `deallocate` receives the null pointer or a pointer handed out
and not yet given back. -/
def opValid (s : Run) : Op → Bool
  | Op.deallocate (some b) => decide (b ∈ s.live)
  | _ => true

/-- Every call of the list meets its precondition in the state in which it is made. -/
def validOps (B this : Nat) : Run → List Op → Bool
  | _, [] => true
  | s, op :: ops =>
    opValid s op &&
      match step B this s op with
      | none => true
      | some s' => validOps B this s' ops

/-- The state right after the construction of the pool at address `this` in a fresh program. -/
def start (B this : Nat) : Option Run :=
  match construct B this World.init with
  | none => none
  | some w => some { world := w, live := [], returned := [] }

/-- A run of the program: construction of the pool, then the calls of `ops`. -/
def run (B this : Nat) (ops : List Op) : Option Run :=
  match start B this with
  | none => none
  | some s => runOps B this s ops

/-- The calls of `ops`, made after the construction, all meet their precondition. -/
def valid (B this : Nat) (ops : List Op) : Bool :=
  match start B this with
  | none => true
  | some s => validOps B this s ops

end Fixed

/-! ## `LockFreeMultiSizePool` -/

namespace Multi

/-- Models `FreeBlock::data()`: the address `sizeof(FreeBlock)` bytes after the block. -/
def data (block : Block) : Block := (block.1, block.2 + SIZEOF_FREEBLOCK)

/-- Models `FreeBlock::from_data(ptr)`: the address `sizeof(FreeBlock)` bytes before `ptr`; there
is none inside the array when `ptr` is less than `sizeof(FreeBlock)` bytes after its start. -/
def from_data (ptr : Block) : Option Block :=
  if SIZEOF_FREEBLOCK ≤ ptr.2 then some (ptr.1, ptr.2 - SIZEOF_FREEBLOCK) else none

/-- Models `struct ClassCache`: `FreeBlock* blocks[16]` and `int count`. -/
structure ClassCache where
  blocks : Slots
  count : Int

/-- Number of cells of `ClassCache::blocks`. -/
def CLASS_CACHE_CAPACITY : Int := 16

/-- Models `BATCH_SIZE` of `fill_class_cache`. -/
def BATCH_SIZE : Nat := 8

/-- Models `struct MultiSizeThreadCache`: `caches[SIZE_CALSSES.size()]` and `pool_ptr`. -/
structure MultiSizeThreadCache where
  caches : Nat → ClassCache
  pool_ptr : Option Nat

/-- Models `struct ChunkClass`. -/
structure ChunkClass where
  free_list : BlockPtr
  block_size : Nat
  allocated_count : Nat
  deallocated_count : Nat

/-- The data members of a multi-size pool: `chunk_classes` and the stack `allocated_chunks`
(top first), each chunk being the identity of its byte array and its size in bytes. -/
structure Pool where
  chunk_classes : Nat → ChunkClass
  allocated_chunks : List (Nat × Nat)

/-- The memory seen by the multi-size pools from one thread: the fields `next` and `size` of
every `FreeBlock`, the number of arrays obtained so far from the system (by `new[]` or
`aligned_alloc`), the arrays obtained by `std::aligned_alloc` and not yet freed (identity and
size in bytes), the requests that `std::aligned_alloc` cannot satisfy (`system_full n` tells
that a request of `n` bytes gets `nullptr`), the `thread_local` cache of the thread, and the
pool objects alive, by address. -/
structure World where
  next : NextMap
  size : Block → Nat
  arrays : Nat
  system : List (Nat × Nat)
  system_full : Nat → Bool
  thread_cache : MultiSizeThreadCache
  pools : Nat → Option Pool

/-- The memory at thread start: `thread_cache` is zero-initialised, no pool exists, and the
system has room for the requests of the runs considered. -/
def World.init : World :=
  { next := fun _ => none
    size := fun _ => 0
    arrays := 0
    system := []
    system_full := fun _ => false
    thread_cache := { caches := fun _ => { blocks := fun _ => none, count := 0 }, pool_ptr := none }
    pools := fun _ => none }

/-- The constructor `LockFreeMultiSizePool()` run at address `this`: every class gets
`ChunkClass(SIZE_CALSSES[i])` (empty free list, counters value-initialised to `0`), and
`thread_cache.pool_ptr = this`. -/
def construct (this : Nat) (w : World) : World :=
  { w with
    thread_cache := { w.thread_cache with pool_ptr := some this }
    pools := (upd w.pools this (some
      { chunk_classes := fun i =>
          { free_list := none, block_size := sizeClass i, allocated_count := 0,
            deallocated_count := 0 }
        allocated_chunks := [] })) }

/-- Models `total_block_size = align_of(sizeof(FreeBlock) + block_size, ALIGNMENT)`. -/
def total_block_size (block_size : Nat) : Nat :=
  align_of ((SIZEOF_FREEBLOCK + block_size) % SIZE_T_RANGE) ALIGNMENT

/-- Models `block_count = CHUNK_SIZE / total_block_size; if (block_count == 0) block_count = 1;`. -/
def block_count (block_size : Nat) : Nat :=
  if CHUNK_SIZE / total_block_size block_size = 0 then 1
  else CHUNK_SIZE / total_block_size block_size

/-- The variables changed by the loop of `allocate_chunk_for_size_class`. -/
structure Carve where
  next : NextMap
  size : Block → Nat
  free_list : BlockPtr

/-- Models `void allocate_chunk_for_size_class(size_t index)` of the pool at address `this`.  The
block `i` of the new array is at byte offset `i * total_block_size`; constructing it needs
`sizeof(FreeBlock)` bytes of the array from there. -/
def allocate_chunk_for_size_class (this index : Nat) (w : World) : Option World :=
  if index ≥ SIZE_CALSSES.length then some w
  else
    match SIZE_CALSSES[index]?, w.pools this with
    | some block_size, some pool =>
      if total_block_size block_size = 0 then none
      else
        let actual_chunk_size :=
          (total_block_size block_size * block_count block_size) % SIZE_T_RANGE
        let chunk := w.arrays
        let chunk_class := pool.chunk_classes index
        match forLoop (fun i (st : Carve) =>
            if i * total_block_size block_size + SIZEOF_FREEBLOCK ≤ actual_chunk_size then
              let block : Block := (chunk, i * total_block_size block_size)
              some { next := upd st.next block st.free_list
                     size := upd st.size block block_size
                     free_list := some block }
            else none) (block_count block_size) 0
            { next := w.next, size := w.size, free_list := chunk_class.free_list } with
        | none => none
        | some st =>
          some { w with
            next := st.next
            size := st.size
            arrays := w.arrays + 1
            pools := (upd w.pools this (some
              { chunk_classes := upd pool.chunk_classes index
                  { chunk_class with free_list := st.free_list }
                allocated_chunks := (chunk, actual_chunk_size) :: pool.allocated_chunks })) }
    | _, _ => none

/-- The part of `fill_class_cache` after `old_head` is known to be non-null: the walk over at
most `BATCH_SIZE - 1` links, the exchange of `free_list` (which succeeds), the copy into the
cache from index `class_cache.count`. -/
def fill_class_from (this index : Nat) (w : World) (pool : Pool) (old_head : Block) :
    Option (World × Bool) :=
  let class_cache := w.thread_cache.caches index
  let current := walk_batch w.next (BATCH_SIZE - 1) old_head
  let new_head := w.next current
  match store_batch CLASS_CACHE_CAPACITY w.next new_head (CLASS_CACHE_CAPACITY.toNat + 1)
      (some old_head) class_cache.count class_cache.blocks with
  | none => none
  | some (blocks, count) =>
    some ({ w with
      pools := (upd w.pools this (some { pool with
        chunk_classes := upd pool.chunk_classes index
          { pool.chunk_classes index with free_list := new_head } }))
      thread_cache := { w.thread_cache with
        caches := upd w.thread_cache.caches index { blocks := blocks, count := count } } }, true)

/-- Models `bool fill_class_cache(size_t index)` of the pool at address `this`. -/
def fill_class_cache (this index : Nat) (w : World) : Option (World × Bool) :=
  if index ≥ SIZE_CALSSES.length then some (w, false)
  else
    match w.pools this with
    | none => none
    | some pool =>
      if (w.thread_cache.caches index).count > 0 then some (w, true)
      else
        match (pool.chunk_classes index).free_list with
        | some old_head => fill_class_from this index w pool old_head
        | none =>
          match allocate_chunk_for_size_class this index w with
          | none => none
          | some w' =>
            match w'.pools this with
            | none => none
            | some pool' =>
              match (pool'.chunk_classes index).free_list with
              | none => some (w', false)
              | some old_head => fill_class_from this index w' pool' old_head

/-- The statements `FreeBlock* block = class_cache.blocks[--class_cache.count];
chunk_class.allocated_count.fetch_add(1); return block->data();` of `allocate`. -/
def take_from_cache (this index : Nat) (w : World) : Option (World × BlockPtr) :=
  let class_cache := w.thread_cache.caches index
  match slot CLASS_CACHE_CAPACITY class_cache.blocks (class_cache.count - 1), w.pools this with
  | some (some block), some pool =>
    some ({ w with
      thread_cache := { w.thread_cache with
        caches := upd w.thread_cache.caches index
          { class_cache with count := class_cache.count - 1 } }
      pools := (upd w.pools this (some { pool with
        chunk_classes := upd pool.chunk_classes index
          { pool.chunk_classes index with
            allocated_count := ((pool.chunk_classes index).allocated_count + 1) % SIZE_T_RANGE } })) },
      some (data block))
  | _, _ => none

/-- The loop `while (old_block) { if (free_list.compare_exchange_weak(old_block,
old_block->next)) { block = old_block; break; } }` of `allocate`, entered with a value
`old_block` read earlier: a failed exchange reloads `old_block` from `free_list`, so the
current head is detached when `old_block` and `free_list` are both non-null. -/
def pop_one (this index : Nat) (w : World) (old_block : BlockPtr) : Option (World × BlockPtr) :=
  match w.pools this, old_block with
  | none, _ => none
  | some _, none => some (w, none)
  | some pool, some _ =>
    match (pool.chunk_classes index).free_list with
    | none => some (w, none)
    | some head =>
      some ({ w with pools := (upd w.pools this (some { pool with
          chunk_classes := upd pool.chunk_classes index
            { pool.chunk_classes index with free_list := w.next head } })) }, some head)

/-- The end of `allocate`: `if (block) { allocated_count.fetch_add(1); return block->data(); }
return nullptr;`. -/
def return_block (this index : Nat) (w : World) (block : BlockPtr) : Option (World × BlockPtr) :=
  match block, w.pools this with
  | none, _ => some (w, none)
  | some _, none => none
  | some b, some pool =>
    some ({ w with pools := (upd w.pools this (some { pool with
        chunk_classes := upd pool.chunk_classes index
          { pool.chunk_classes index with
            allocated_count := ((pool.chunk_classes index).allocated_count + 1) % SIZE_T_RANGE } })) },
      some (data b))

/-- Models `std::aligned_alloc(ALIGNMENT, size)`: the null pointer when the system cannot satisfy
the request, the start of a new array of `size` bytes otherwise. -/
def aligned_alloc (size : Nat) (w : World) : World × BlockPtr :=
  if w.system_full size then (w, none)
  else ({ w with arrays := w.arrays + 1, system := (w.arrays, size) :: w.system },
    some (w.arrays, 0))

/-- Models `void* allocate(size_t size)` of the pool at address `this`. -/
def allocate (this size : Nat) (w : World) : Option (World × BlockPtr) :=
  if size = 0 then some (w, none)
  else
    let w := { w with thread_cache := { w.thread_cache with pool_ptr := some this } }
    let aligned_size := align_of size ALIGNMENT
    match get_size_class_index aligned_size with
    | none => none
    | some index =>
      if index ≥ SIZE_CALSSES.length then some (aligned_alloc aligned_size w)
      else
        match w.pools this with
        | none => none
        | some pool =>
          let old_block := (pool.chunk_classes index).free_list
          if (w.thread_cache.caches index).count > 0 then take_from_cache this index w
          else
            match fill_class_cache this index w with
            | none => none
            | some (w1, true) => take_from_cache this index w1
            | some (w1, false) =>
              match pop_one this index w1 old_block with
              | none => none
              | some (w2, some block) => return_block this index w2 (some block)
              | some (w2, none) =>
                match allocate_chunk_for_size_class this index w2 with
                | none => none
                | some w3 =>
                  match w3.pools this with
                  | none => none
                  | some pool3 =>
                    match pop_one this index w3 (pool3.chunk_classes index).free_list with
                    | none => none
                    | some (w4, block) => return_block this index w4 block

/-- The branch of `deallocate` taken when the class cache is full: half of the cache, then
the freed block, are linked in front of the free list, and the rest is moved down. -/
def return_half (this index : Nat) (w : World) (block_ptr : Block) : Option World :=
  let class_cache := w.thread_cache.caches index
  let half_count := Int.tdiv class_cache.count 2
  match link_blocks CLASS_CACHE_CAPACITY class_cache.blocks half_count w.next, w.pools this with
  | some next1, some pool =>
    match slot CLASS_CACHE_CAPACITY class_cache.blocks (half_count - 1),
        slot CLASS_CACHE_CAPACITY class_cache.blocks 0 with
    | some (some last), some head =>
      let next2 := upd next1 last (some block_ptr)
      let old_block := (pool.chunk_classes index).free_list
      let next3 := upd next2 block_ptr old_block
      match compact_blocks CLASS_CACHE_CAPACITY class_cache.count half_count
          class_cache.blocks with
      | none => none
      | some blocks' =>
        some { w with
          next := next3
          pools := (upd w.pools this (some { pool with
            chunk_classes := upd pool.chunk_classes index
              { pool.chunk_classes index with free_list := head } }))
          thread_cache := { w.thread_cache with
            caches := upd w.thread_cache.caches index
              { blocks := blocks', count := class_cache.count - half_count } } }
    | _, _ => none
  | _, _ => none

/-- The statement `chunk_class.deallocated_count.fetch_add(1)`. -/
def count_deallocation (this index : Nat) (w : World) : Option World :=
  match w.pools this with
  | none => none
  | some pool =>
    some { w with pools := (upd w.pools this (some { pool with
      chunk_classes := upd pool.chunk_classes index
        { pool.chunk_classes index with
          deallocated_count :=
            ((pool.chunk_classes index).deallocated_count + 1) % SIZE_T_RANGE } })) }

/-- Models `std::free(ptr)`: defined on the start of an array obtained from `std::aligned_alloc` and
not yet freed. -/
def free_system (w : World) (p : Block) : Option World :=
  if p.2 = 0 ∧ p.1 ∈ w.system.map Prod.fst then
    some { w with system := w.system.filter (fun a => a.1 ≠ p.1) }
  else none

/-- The statement `if (class_cache.count < 16) { class_cache.blocks[class_cache.count++] =
block_ptr; } else { ... }` of `deallocate`. -/
def store_freed (this index : Nat) (w : World) (block_ptr : Block) : Option World :=
  let class_cache := w.thread_cache.caches index
  if class_cache.count < CLASS_CACHE_CAPACITY then
    match setSlot CLASS_CACHE_CAPACITY class_cache.blocks class_cache.count (some block_ptr) with
    | none => none
    | some blocks' =>
      some { w with thread_cache := { w.thread_cache with
        caches := upd w.thread_cache.caches index
          { blocks := blocks', count := class_cache.count + 1 } } }
  else return_half this index w block_ptr

/-- Models `void deallocate(void* ptr, size_t size)` of the pool at address `this`. -/
def deallocate (this : Nat) (ptr : BlockPtr) (size : Nat) (w : World) : Option World :=
  match ptr with
  | none => some w
  | some p =>
    match get_size_class_index (align_of size ALIGNMENT) with
    | none => none
    | some index =>
      if index ≥ SIZE_CALSSES.length then free_system w p
      else
        match from_data p with
        | none => none
        | some block_ptr =>
          match store_freed this index w block_ptr with
          | none => none
          | some w1 => count_deallocation this index w1

/-! ### Single-threaded runs of one multi-size pool -/

/-- A call made by the thread. -/
inductive Op where
  | allocate (size : Nat)
  | deallocate (ptr : BlockPtr) (size : Nat)

/-- The class index computed by `allocate` and `deallocate` for a request of `size` bytes. -/
def classOf (size : Nat) : Option Nat := get_size_class_index (align_of size ALIGNMENT)

/-- The memory during a run, with a record kept for the statements only: for every class index
(`SIZE_CALSSES.size()` standing for the oversized requests) the pointers returned by
`allocate` for that class and not yet given back. -/
structure Run where
  world : World
  live : Nat → List Block

/-- One call on the pool at address `this`. -/
def step (this : Nat) (s : Run) : Op → Option Run
  | Op.allocate size =>
    match allocate this size s.world, classOf size with
    | some (w, some p), some index =>
      some { world := w, live := upd s.live index (p :: s.live index) }
    | some (w, _), _ => some { world := w, live := s.live }
    | none, _ => none
  | Op.deallocate none size =>
    match deallocate this none size s.world with
    | none => none
    | some w => some { s with world := w }
  | Op.deallocate (some p) size =>
    match deallocate this (some p) size s.world, classOf size with
    | some w, some index =>
      some { world := w, live := upd s.live index (removeBlock p (s.live index)) }
    | some w, none => some { s with world := w }
    | none, _ => none

/-- The calls of a list, in order. -/
def runOps (this : Nat) : Run → List Op → Option Run
  | s, [] => some s
  | s, op :: ops =>
    match step this s op with
    | none => none
    | some s' => runOps this s' ops

/-- The precondition of a call: `deallocate(p, n)` receives the null pointer, or a pointer
handed out and not yet given back together with a size of the class it was allocated from. -/
def opValid (s : Run) : Op → Bool
  | Op.deallocate (some p) size =>
    match classOf size with
    | none => false
    | some index => decide (p ∈ s.live index)
  | _ => true

/-- Every call of the list meets its precondition in the state in which it is made. -/
def validOps (this : Nat) : Run → List Op → Bool
  | _, [] => true
  | s, op :: ops =>
    opValid s op &&
      match step this s op with
      | none => true
      | some s' => validOps this s' ops

/-- The state right after the construction of the pool at address `this` by a fresh thread. -/
def start (this : Nat) : Run :=
  { world := construct this World.init, live := fun _ => [] }

/-- A run of the thread: construction of the pool, then the calls of `ops`. -/
def run (this : Nat) (ops : List Op) : Option Run := runOps this (start this) ops

/-- The calls of `ops`, made after the construction, all meet their precondition. -/
def valid (this : Nat) (ops : List Op) : Bool := validOps this (start this) ops

end Multi

/-- The links of `next` lead from the pointer `p` through the blocks of the list, in order,
and then to the pointer `q`. -/
def IsSeg (next : NextMap) : BlockPtr → List Block → BlockPtr → Prop
  | p, [], q => p = q
  | p, b :: l, q => p = some b ∧ IsSeg next (next b) l q

/-- The list of the blocks reached from `p` before the null pointer. -/
def IsChain (next : NextMap) (p : BlockPtr) (l : List Block) : Prop := IsSeg next p l none

/-- The first `n` cells of an array hold the blocks of the list `C`. -/
def Holds (blocks : Slots) (C : List Block) : Prop :=
  ∀ i, i < C.length → blocks (i : Int) = C[i]?

namespace Fixed

/-- The blocks of the array of a chunk, in address order. -/
def chunkBlocks (c : Chunk) : List Block := (List.range c.count).map (fun i => (c.blocks, i))

/-- The blocks of all the chunks of a chunk stack. -/
def allBlocks (chunks : List Chunk) : List Block := (chunks.map chunkBlocks).flatten

/-- The state of the pool at address `this` is described by the lists `C` (cache, below
`count`), `G` (free list) and `live` (handed out): they share no block and together hold the
blocks of the chunks. -/
structure Rep (this : Nat) (w : World) (live : List Block) (pool : Pool) (C G : List Block) :
    Prop where
  pool_eq : w.pools this = some pool
  chain : IsChain w.next pool.free_list G
  holds : Holds w.local_cache.blocks C
  count_eq : w.local_cache.count = (C.length : Int)
  perm : (C ++ (G ++ live)).Perm (allBlocks pool.chunks)
  nodup : (allBlocks pool.chunks).Nodup
  fresh : ∀ b, b ∈ allBlocks pool.chunks → b.1 < w.arrays

/-- What holds after every call of a valid single-threaded run on the pool at `this`. -/
structure Inv (this : Nat) (s : Run) (pool : Pool) (C G : List Block) : Prop where
  rep : Rep this s.world s.live pool C G
  count_le : C.length ≤ 26
  inst : s.world.local_cache.pool_instance = none ∨
    s.world.local_cache.pool_instance = some this
  returned_some : ∀ r, r ∈ s.returned → r ≠ none
  live_le : s.live.length ≤ s.returned.length
  alloc_eq : pool.allocate_count = s.returned.length % SIZE_T_RANGE
  dealloc_eq : pool.deallocated_count = (s.returned.length - s.live.length) % SIZE_T_RANGE

/-- The pointers in the cells of the cache array below `count`. -/
def cacheBlocks (c : ThreadCache) : List BlockPtr :=
  (List.range c.count.toNat).map (fun (i : Nat) => c.blocks (i : Int))

/-- The partition of the blocks of the pool at `this`: the cache cells below `count` hold the
blocks `C`, the free list is the chain `G`, the blocks handed out are `s.live`; no block
occurs twice in `C ++ G ++ s.live`, and the blocks of the chunks are exactly its members. -/
def Partition (this : Nat) (s : Run) : Prop :=
  ∃ pool C G, s.world.pools this = some pool ∧
    cacheBlocks s.world.local_cache = C.map some ∧
    IsChain s.world.next pool.free_list G ∧
    (C ++ G ++ s.live).Nodup ∧
    ∀ b, b ∈ allBlocks pool.chunks ↔ (b ∈ C ∨ b ∈ G ∨ b ∈ s.live)

/-- Number of calls of `allocate` in a list of calls. -/
def allocations : List Op → Nat
  | [] => 0
  | Op.allocate :: ops => allocations ops + 1
  | _ :: ops => allocations ops

/-- The calls `allocate(); deallocate(p);` repeated `k` times, `p` being the first block of the
first chunk. -/
def churn (k : Nat) : List Op :=
  (List.replicate k [Op.allocate, Op.deallocate (some (0, 0))]).flatten

/-- A run of `2^64 - 1` rounds `allocate(); deallocate(p);` followed by one `allocate()`. -/
def wrapOps : List Op := churn (SIZE_T_RANGE - 1) ++ [Op.allocate]

end Fixed

namespace Multi

/-- The blocks carved from the chunk `chunk` of class `index`, in address order. -/
def chunk_blocks (index chunk : Nat) : List Block :=
  (List.range (block_count (sizeClass index))).map
    (fun j => (chunk, j * total_block_size (sizeClass index)))

/-- The blocks carved for class `index`: the blocks of the chunks of the pool whose first
block carries the size of that class in its header. -/
def carved (w : World) (pool : Pool) (index : Nat) : List Block :=
  (pool.allocated_chunks.filter (fun c => decide (w.size (c.1, 0) = sizeClass index))).flatMap
    (fun c => chunk_blocks index c.1)

/-- The state of class `i` of the pool is described by the lists `C` (cache, below `count`),
`G` (free list) and `L` (handed out): together they hold the blocks carved for the class. -/
structure ClassRep (w : World) (pool : Pool) (i : Nat) (C G L : List Block) : Prop where
  chain : IsChain w.next (pool.chunk_classes i).free_list G
  holds : Holds (w.thread_cache.caches i).blocks C
  count_eq : (w.thread_cache.caches i).count = (C.length : Int)
  perm : (C ++ (G ++ L)).Perm (carved w pool i)

/-- The state of the pool at address `this`, class by class, with the pointers handed out. -/
structure MRep (this : Nat) (w : World) (live : Nat → List Block) (pool : Pool)
    (C G L : Nat → List Block) : Prop where
  pool_eq : w.pools this = some pool
  cls : ∀ i, i < 16 → ClassRep w pool i (C i) (G i) (L i)
  live_eq : ∀ i, i < 16 → live i = (L i).map data
  count_le : ∀ i, i < 16 → (C i).length ≤ 16
  chunks_fresh : ∀ c, c ∈ pool.allocated_chunks → c.1 < w.arrays
  carved_nodup : ∀ i, i < 16 → (carved w pool i).Nodup
  carved_disj : ∀ i j, i < 16 → j < 16 → i ≠ j → ∀ b, b ∈ carved w pool i → b ∉ carved w pool j
  carved_fresh : ∀ i, i < 16 → ∀ b, b ∈ carved w pool i → b.1 < w.arrays
  sys_live : ∀ p, p ∈ live 16 → p.2 = 0 ∧ p.1 ∈ w.system.map Prod.fst
  sys_nodup : (live 16).Nodup
  sys_fresh : ∀ a, a ∈ w.system → a.1 < w.arrays

/-- What holds after every call of a valid single-threaded run on the pool at `this`. -/
def MInv (this : Nat) (s : Run) : Prop :=
  ∃ pool C G L, MRep this s.world s.live pool C G L

/-- The pointers in the cells of a class cache below `count`. -/
def cacheBlocks (c : ClassCache) : List BlockPtr :=
  (List.range c.count.toNat).map (fun (i : Nat) => c.blocks (i : Int))

/-- The partition of the blocks of the pool at `this`, class by class: for every class `i`
the cache cells below `count` hold the blocks `C`, the free list is the chain `G`, the
pointers handed out for the class are the payloads of the blocks `L`; no block occurs twice
in `C ++ G ++ L`, the blocks carved for class `i` are exactly its members, and no block
carved for another class is among them. -/
def Partition (this : Nat) (s : Run) : Prop :=
  ∃ pool, s.world.pools this = some pool ∧ ∀ i, i < 16 → ∃ C G L,
    cacheBlocks (s.world.thread_cache.caches i) = C.map some ∧
    IsChain s.world.next (pool.chunk_classes i).free_list G ∧
    s.live i = L.map data ∧
    (C ++ G ++ L).Nodup ∧
    (∀ b, b ∈ carved s.world pool i ↔ (b ∈ C ∨ b ∈ G ∨ b ∈ L)) ∧
    ∀ j, j < 16 → j ≠ i → ∀ b, b ∈ carved s.world pool j → b ∉ C ∧ b ∉ G ∧ b ∉ L

end Multi

namespace Fixed

/-- The arrays of the chunks owned by the pool at address `this`, top of the stack first. -/
def chunk_arrays (this : Nat) (w : World) : Option (List Nat) :=
  (w.pools this).map (fun pool => pool.chunks.map Chunk.blocks)

/-- The calls `p = allocate(); deallocate(p);` on the pool at address `this`. -/
def allocate_deallocate (B this : Nat) (w : World) : Option World :=
  match allocate B this w with
  | none => none
  | some (w1, p) => deallocate this w1 p

/-- The implicit destructor `~LockFreeFixedSizePool()` of the pool at address `this`: the
member `chunks` is destroyed, which frees the array of every chunk; `local_cache` is a static
member and is left as it is.  The result is the memory without the pool, and the arrays
freed. -/
def destroy (this : Nat) (w : World) : Option (World × List Nat) :=
  match w.pools this with
  | none => none
  | some pool => some ({ w with pools := upd w.pools this none }, pool.chunks.map Chunk.blocks)

/-- The sequence of `test.cpp`: a pool `A` (address 0) serves one `allocate` and gets the
pointer back, `A` is destroyed, a pool `B` of the same type is constructed (address 1) and
serves one `allocate`.  The result is: the arrays freed by the destruction of `A`, the pointer
returned by `B.allocate()`, the arrays of the chunks of `B`, and `pool_instance`. -/
def second_pool_allocation (B : Nat) : Option (List Nat × BlockPtr × List Nat × Option Nat) :=
  match construct B 0 World.init with
  | none => none
  | some w0 =>
    match allocate_deallocate B 0 w0 with
    | none => none
    | some w1 =>
      match destroy 0 w1 with
      | none => none
      | some (w2, freed) =>
        match construct B 1 w2 with
        | none => none
        | some w3 =>
          match allocate B 1 w3 with
          | none => none
          | some (w4, q) =>
            match chunk_arrays 1 w4 with
            | none => none
            | some arrays => some (freed, q, arrays, w4.local_cache.pool_instance)

/-- Two pools alive together: `A` at address 0 and `B` at address 1 are constructed,
`A.allocate()` is called and then `B.allocate()`.  The result is `pool_instance` after the
second call, the pointer it returned, and the arrays of the chunks of `B`. -/
def pool_instance_after_allocate (B : Nat) : Option (Option Nat × BlockPtr × List Nat) :=
  match construct B 0 World.init with
  | none => none
  | some w0 =>
    match construct B 1 w0 with
    | none => none
    | some w1 =>
      match allocate B 0 w1 with
      | none => none
      | some (w2, _) =>
        match allocate B 1 w2 with
        | none => none
        | some (w3, q) =>
          match chunk_arrays 1 w3 with
          | none => none
          | some arrays => some (w3.local_cache.pool_instance, q, arrays)

/-- A call of the pool made by the thread `_thread`.  `local_cache` is declared
`static inline ThreadCache local_cache;`, without `thread_local`: the memory holds one cache
object, and the call of every thread works on it. -/
def thread_step (B this : Nat) (s : Run) (_thread : Nat) (op : Op) : Option Run :=
  step B this s op

/-- Two threads on one pool, one call after the other: thread 1 calls `allocate()`, then
thread 2 calls `allocate()`.  The result is the state after each of the two calls. -/
def two_threads (B : Nat) : Option (Run × Run) :=
  match start B 0 with
  | none => none
  | some s0 =>
    match thread_step B 0 s0 1 Op.allocate with
    | none => none
    | some s1 =>
      match thread_step B 0 s1 2 Op.allocate with
      | none => none
      | some s2 => some (s1, s2)

/-- What a call leaves behind: `local_cache.count`, the cell `local_cache.blocks[14]`, and
the head of the free list of the pool at address 0. -/
def cache_view (s : Run) : Int × BlockPtr × BlockPtr :=
  (s.world.local_cache.count, s.world.local_cache.blocks 14,
    ((s.world.pools 0).map Pool.free_list).join)

end Fixed

namespace Multi

/-- Two pools: `A` (address 0) is constructed and serves `allocate(2048)`, `B` (address 1) is
constructed, and the pointer is given back by `A.deallocate(p, 2048)`.  The result is
`pool_ptr` after that call. -/
def pool_ptr_after_deallocate : Option (Option Nat) :=
  match allocate 0 2048 (construct 0 World.init) with
  | none => none
  | some (w1, p) =>
    match deallocate 0 p 2048 (construct 1 w1) with
    | none => none
    | some w2 => some w2.thread_cache.pool_ptr

/-- The calls `p = allocate(n); deallocate(p, n);` on the pool at address `this`. -/
def allocate_deallocate (this n : Nat) (w : World) : Option World :=
  match allocate this n w with
  | none => none
  | some (w1, p) => deallocate this p n w1

end Multi

namespace LockFreeStack

/-- Models `struct Node`: `data` and `next` (the address of a node, `none` for `nullptr`). -/
structure Node (T : Type) where
  data : T
  next : Option Nat

/-- A `LockFreeStack<T>` object with the nodes it allocated: the member `head`, the nodes
alive, by address, and the number of nodes obtained from `new` so far (`new` returns an
address that no node alive has). -/
structure Stack (T : Type) where
  head : Option Nat
  nodes : Nat → Option (Node T)
  allocated : Nat

/-- The constructor `LockFreeStack() : head(nullptr)`. -/
def init {T : Type} : Stack T :=
  { head := none, nodes := fun _ => none, allocated := 0 }

end LockFreeStack

namespace Fixed

/-- Models `~ThreadCache()` run on `local_cache`. -/
def thread_cache_destructor (w : World) : Option World :=
  if w.local_cache.count > 0 ∧ w.local_cache.pool_instance ≠ none then return_thread_cache w
  else some w

end Fixed

namespace Multi

/-- The body of the loop `for (index ...)` of `~MultiSizeThreadCache()` for one class, with
`pool_ptr` the address `inst`: nothing when `count == 0`; otherwise the cached blocks are
linked, the last one gets the old head of the free list of `pool_ptr` as its `next`, the
first one becomes the head, and `count` is set to 0. -/
def flush_class (inst index : Nat) (w : World) : Option World :=
  let class_cache := w.thread_cache.caches index
  if class_cache.count = 0 then some w
  else
    match link_blocks CLASS_CACHE_CAPACITY class_cache.blocks class_cache.count w.next,
        w.pools inst with
    | some next1, some pool =>
      let old_head := (pool.chunk_classes index).free_list
      match slot CLASS_CACHE_CAPACITY class_cache.blocks 0,
          slot CLASS_CACHE_CAPACITY class_cache.blocks (class_cache.count - 1) with
      | some cache_head, some (some cache_tail) =>
        some { w with
          next := upd next1 cache_tail old_head
          pools := (upd w.pools inst (some { pool with
            chunk_classes := upd pool.chunk_classes index
              { pool.chunk_classes index with free_list := cache_head } }))
          thread_cache := { w.thread_cache with
            caches := upd w.thread_cache.caches index { class_cache with count := 0 } } }
      | _, _ => none
    | _, _ => none

/-- Models `~MultiSizeThreadCache()` run on `thread_cache`. -/
def thread_cache_destructor (w : World) : Option World :=
  match w.thread_cache.pool_ptr with
  | none => some w
  | some inst => forLoop (fun index st => flush_class inst index st) SIZE_CALSSES.length 0 w

end Multi

namespace Fixed

/-- Models `class PoolPtr<T>`: the members `ptr_` and `pool_` (the address of a pool, `none` for
`nullptr`). -/
structure PoolPtr where
  ptr_ : BlockPtr
  pool_ : Option Nat

/-- The memory of a program that uses handles: the memory of the pools, the `PoolPtr`
objects by address (the position in the list; `none` once the object is destroyed), and, for
the statements only, the calls made on the pools so far, the oldest first, each with the
address of the pool it was made on. -/
structure Handles where
  world : World
  handles : List (Option PoolPtr)
  calls : List (Nat × Op)

/-- Models `PoolPtr<T> PoolAllocator::make(Args&&...)` of the allocator whose pool is at address
`this`: the handle returned is a new object. -/
def make (B this : Nat) (s : Handles) : Option Handles :=
  match allocate B this s.world with
  | none => none
  | some (w, ptr) =>
    some { world := w
           handles := s.handles ++ [some { ptr_ := ptr, pool_ := some this }]
           calls := s.calls ++ [(this, Op.allocate)] }

/-- Models `void PoolPtr::reset()` on the handle at address `i`.  The use of an object that is
not alive is undefined. -/
def reset (i : Nat) (s : Handles) : Option Handles :=
  match s.handles[i]? with
  | some (some h) =>
    match h.ptr_, h.pool_ with
    | some p, some pool =>
      match deallocate pool s.world (some p) with
      | none => none
      | some w =>
        some { world := w
               handles := s.handles.set i (some { h with ptr_ := none })
               calls := s.calls ++ [(pool, Op.deallocate (some p))] }
    | _, _ => some s
  | _ => none

/-- Models `PoolPtr(PoolPtr&& other)` with `other` the handle at address `i`: the new object
takes `ptr_` and `pool_`, and `other` is left with two null pointers. -/
def move_construct (i : Nat) (s : Handles) : Option Handles :=
  match s.handles[i]? with
  | some (some other) =>
    some { s with handles :=
      (s.handles.set i (some { ptr_ := none, pool_ := none })
        ++ [some { ptr_ := other.ptr_, pool_ := other.pool_ }]) }
  | _ => none

/-- Models `PoolPtr& operator=(PoolPtr&& other)` on the handle at address `i`, with `other` the
handle at address `j`; `this != &other` compares the two addresses. -/
def move_assign (i j : Nat) (s : Handles) : Option Handles :=
  match s.handles[i]?, s.handles[j]? with
  | some (some _), some (some _) =>
    if i ≠ j then
      match reset i s with
      | none => none
      | some s1 =>
        match s1.handles[j]? with
        | some (some other) =>
          some { s1 with handles :=
            (List.set (s1.handles.set i (some { ptr_ := other.ptr_, pool_ := other.pool_ })) j
              (some { ptr_ := none, pool_ := none })) }
        | _ => none
    else some s
  | _, _ => none

/-- Models `~PoolPtr()` on the handle at address `i`: `reset()`, after which the object is not
alive any more. -/
def handle_destructor (i : Nat) (s : Handles) : Option Handles :=
  match reset i s with
  | none => none
  | some s1 => some { s1 with handles := s1.handles.set i none }

/-- A statement of a program that uses the handles of one `PoolAllocator`. -/
inductive HandleOp where
  | make
  | move_construct (i : Nat)
  | move_assign (i j : Nat)
  | reset (i : Nat)
  | destructor (i : Nat)

/-- One statement, the pool of the allocator being at address `this`. -/
def handle_step (B this : Nat) (s : Handles) : HandleOp → Option Handles
  | HandleOp.make => make B this s
  | HandleOp.move_construct i => move_construct i s
  | HandleOp.move_assign i j => move_assign i j s
  | HandleOp.reset i => reset i s
  | HandleOp.destructor i => handle_destructor i s

/-- The statements of a list, in order. -/
def handle_runOps (B this : Nat) : Handles → List HandleOp → Option Handles
  | s, [] => some s
  | s, op :: ops =>
    match handle_step B this s op with
    | none => none
    | some s' => handle_runOps B this s' ops

/-- The handle at address `i` is alive. -/
def alive (s : Handles) (i : Nat) : Bool :=
  match s.handles[i]? with
  | some (some _) => true
  | _ => false

/-- The precondition of a statement: the handles it names are alive. -/
def handle_ok (s : Handles) : HandleOp → Bool
  | HandleOp.make => true
  | HandleOp.move_construct i => alive s i
  | HandleOp.move_assign i j => alive s i && alive s j
  | HandleOp.reset i => alive s i
  | HandleOp.destructor i => alive s i

/-- Every statement of the list meets its precondition in the state in which it is made. -/
def handle_validOps (B this : Nat) : Handles → List HandleOp → Bool
  | _, [] => true
  | s, op :: ops =>
    handle_ok s op &&
      match handle_step B this s op with
      | none => true
      | some s' => handle_validOps B this s' ops

/-- The state right after the construction of the `PoolAllocator`, whose pool is at address
`this`, in a fresh program: no handle exists. -/
def handle_start (B this : Nat) : Option Handles :=
  match construct B this World.init with
  | none => none
  | some w => some { world := w, handles := [], calls := [] }

/-- A program: construction of the allocator, then the statements of `ops`. -/
def handle_run (B this : Nat) (ops : List HandleOp) : Option Handles :=
  match handle_start B this with
  | none => none
  | some s => handle_runOps B this s ops

/-- The statements of `ops`, made after the construction, all meet their precondition. -/
def handle_valid (B this : Nat) (ops : List HandleOp) : Bool :=
  match handle_start B this with
  | none => true
  | some s => handle_validOps B this s ops

/-- The pointer held by a handle, as a list of at most one block. -/
def ptrOf : Option PoolPtr → List Block
  | some { ptr_ := some p, pool_ := _ } => [p]
  | _ => []

/-- The pointers held by the handles alive. -/
def held (hs : List (Option PoolPtr)) : List Block := hs.flatMap ptrOf

/-- Every handle has been destroyed. -/
def all_destroyed (s : Handles) : Bool := s.handles.all Option.isNone

/-- What holds after every statement of a valid program: the calls made so far form a valid
run `r` of the pool at `this`, which ends in the memory of the program, and the pointers
handed out and not yet given back are the pointers held by the handles alive, each of which
names the pool at `this`. -/
structure HInv (B this : Nat) (s : Handles) (r : Run) (pool : Pool) (C G : List Block) :
    Prop where
  run_eq : run B this (s.calls.map Prod.snd) = some r
  valid_eq : valid B this (s.calls.map Prod.snd) = true
  world_eq : r.world = s.world
  inv : Inv this r pool C G
  on_pool : ∀ c, c ∈ s.calls → c.1 = this
  held_perm : r.live.Perm (held s.handles)
  owner : ∀ h, some h ∈ s.handles → h.ptr_ ≠ none → h.pool_ = some this

end Fixed

/-- The blocks reached from `p` by at most `fuel` links, in order. -/
def walk_chain (next : NextMap) : Nat → BlockPtr → List Block
  | 0, _ => []
  | _, none => []
  | fuel + 1, some b => b :: walk_chain next fuel (next b)

namespace Multi

/-- The blocks of the free list of class `index` of the pool at address `this` (at most 64 of
them). -/
def free_list_blocks (this index : Nat) (w : World) : List Block :=
  match w.pools this with
  | none => []
  | some pool => walk_chain w.next 64 (pool.chunk_classes index).free_list

/-- The run of one thread on the pool at address 0 that fills the cache of the class of 2048
bytes: 17 calls `allocate(2048)`, which return the payloads of the blocks 23 to 30, 15 to 22
and 7 of the chunk and leave 7 blocks in the cache, then `deallocate` of the payloads of the
blocks 7 and 15 to 22, after which the cache holds 16 blocks. -/
def full_cache_ops : List Op :=
  List.replicate 17 (Op.allocate 2048) ++
    Op.deallocate (some (0, 7 * 2064 + 16)) 2048 ::
      (List.range 8).map (fun k => Op.deallocate (some (0, (k + 15) * 2064 + 16)) 2048)

/-- The call `deallocate(p, 2048)`, with `p` the payload of block 23 of the chunk, made with
the full cache of `full_cache_ops`.  The result tells whether the freed block is in a cell
of the cache below `count` after the call, the position of the freed block in the free list
after the call, and `count` after the call. -/
def full_cache_deallocate : Option (Bool × Option Nat × Int) :=
  match run 0 full_cache_ops with
  | none => none
  | some s =>
    match deallocate 0 (some (0, 23 * 2064 + 16)) 2048 s.world with
    | none => none
    | some w =>
      some (decide (some (0, 23 * 2064) ∈ cacheBlocks (w.thread_cache.caches 15)),
        (free_list_blocks 0 15 w).indexOf? (0, 23 * 2064),
        (w.thread_cache.caches 15).count)

/-- The memory after the construction of the pool at address 0 and a request of 5008 bytes
that the system satisfied (the request of `allocate(5000)`), at a time when the system has no
room for a request of 3008 bytes or more. -/
def full_system : World :=
  { (aligned_alloc 5008 (construct 0 World.init)).1 with
    system_full := fun n => decide (3008 ≤ n) }

end Multi

end MemoryPool

/-! ## `ThreadPool` of `threadpool.hpp` / `threadpool.cpp` -/

namespace ThreadPool

/-- The exceptions thrown by the pool. -/
inductive Error where
  | invalid_argument
  | runtime_error
  deriving DecidableEq

/-- Where a worker thread is in `workerThread()`: about to evaluate the loop condition
`while (mStart)`; inside the loop body, about to take the mutex; blocked in `mCv.wait`; or
returned. -/
inductive Worker where
  | loop
  | body
  | waiting
  | finished
  deriving DecidableEq

/-- A `ThreadPool` object: `mStart`, `mNumThreads`, `mQueueTasks` (the tasks by identity, the
front first) and `mWorks` (the worker threads), and, for the statements only, the tasks that
have been run, in order. -/
structure Pool where
  mStart : Bool
  mNumThreads : Nat
  mQueueTasks : List Nat
  mWorks : List Worker
  executed : List Nat
  deriving DecidableEq

/-- The constructor `ThreadPool(size_t numThreads)`. -/
def construct (numThreads : Nat) : Except Error Pool :=
  if numThreads ≤ 0 then Except.error Error.invalid_argument
  else Except.ok { mStart := false, mNumThreads := numThreads, mQueueTasks := [], mWorks := [],
                   executed := [] }

/-- Models `void Start()`: `mStart = true`, then `mNumThreads` threads are created, each about to
run `workerThread()`. -/
def Start (p : Pool) : Pool :=
  { p with mStart := true, mWorks := p.mWorks ++ List.replicate p.mNumThreads Worker.loop }

/-- Models `enqueue(f, args...)` of the task `task`: the pool after the call, and the exception
thrown if any.  The queue is touched under the mutex, after the test of `mStart`. -/
def enqueue (task : Nat) (p : Pool) : Pool × Except Error Unit :=
  if !p.mStart then (p, Except.error Error.runtime_error)
  else ({ p with mQueueTasks := p.mQueueTasks ++ [task] }, Except.ok ())

/-- The first statement of `Stop()`: `if (mStart) { lock; mStart = false; }`.  It is followed
by `mCv.notify_all()`. -/
def stop_flag (p : Pool) : Pool :=
  if p.mStart then { p with mStart := false } else p

/-- The loop `for (auto& work : mWorks) if (work.joinable()) work.join();` of `Stop()` can
complete, and `Stop()` return, exactly when every worker thread has returned. -/
def stop_returns (p : Pool) : Bool :=
  p.mWorks.all (fun t => decide (t = Worker.finished))

/-- The statements of the loop body of `workerThread()` that follow `mCv.wait`, run with the
mutex held: `if (!mStart && mQueueTasks.empty()) return; if (mQueueTasks.empty()) continue;
task = front; pop; task();`.  The result is the pool and the place of the worker after
them. -/
def after_wait (p : Pool) : Pool × Worker :=
  match p.mQueueTasks with
  | [] => if !p.mStart then (p, Worker.finished) else (p, Worker.loop)
  | task :: rest =>
    ({ p with mQueueTasks := rest, executed := p.executed ++ [task] }, Worker.loop)

/-- One step of a worker thread at the place `t`; `none` when the thread cannot move (it has
returned, or it waits and the predicate `!mStart || !mQueueTasks.empty()` is false). -/
def worker_move (p : Pool) (t : Worker) : Option (Pool × Worker) :=
  match t with
  | Worker.loop => if p.mStart then some (p, Worker.body) else some (p, Worker.finished)
  | Worker.body =>
    if p.mQueueTasks.isEmpty && p.mStart then some (p, Worker.waiting)
    else some (after_wait p)
  | Worker.waiting =>
    if !p.mStart || !p.mQueueTasks.isEmpty then some (after_wait p) else none
  | Worker.finished => none

/-- One step of the worker thread number `i`. -/
def worker_step (i : Nat) (p : Pool) : Option Pool :=
  match p.mWorks[i]? with
  | none => none
  | some t =>
    match worker_move p t with
    | none => none
    | some (p', t') => some { p' with mWorks := p'.mWorks.set i t' }

/-- What is scheduled next: a call of the thread that owns the pool, or a step of a worker. -/
inductive Action where
  | start
  | enqueue (task : Nat)
  | stop_flag
  | worker (i : Nat)

/-- One action of a schedule; an exception of `enqueue` ends the schedule (`none`). -/
def act (p : Pool) : Action → Option Pool
  | Action.start => some (Start p)
  | Action.enqueue task =>
    match enqueue task p with
    | (p', Except.ok _) => some p'
    | (_, Except.error _) => none
  | Action.stop_flag => some (stop_flag p)
  | Action.worker i => worker_step i p

/-- The actions of a schedule, in order. -/
def schedule (p : Pool) : List Action → Option Pool
  | [] => some p
  | a :: as =>
    match act p a with
    | none => none
    | some p' => schedule p' as

/-- The schedule of `TEST(ThreadPoolTest, BasicFunctionality)` in which the thread of the test
runs `Start()`, the 100 calls of `enqueue` and the first statement of `Stop()` before any of
the 4 workers evaluates its loop condition, and then every worker takes one step. -/
def basic_functionality : List Action :=
  Action.start :: ((List.range 100).map Action.enqueue ++
    Action.stop_flag :: (List.range 4).map Action.worker)

/-- The pool of the test: `ThreadPool pool(4)`. -/
def pool4 : Pool :=
  { mStart := false, mNumThreads := 4, mQueueTasks := [], mWorks := [], executed := [] }

end ThreadPool

namespace MemoryPool

namespace Multi

/-- The part of `fill_class_cache` before the exchange, for a thread whose class cache is
empty and a free list that is not empty: `old_head` is loaded, the walk over at most
`BATCH_SIZE - 1` links is made and `new_head` is read.  The result is the pair of the local
variables `old_head` and `new_head`; the memory is not written. -/
def fill_class_read (this index : Nat) (w : World) : Option (Block × BlockPtr) :=
  match w.pools this with
  | none => none
  | some pool =>
    match (pool.chunk_classes index).free_list with
    | none => none
    | some old_head => some (old_head, w.next (walk_batch w.next (BATCH_SIZE - 1) old_head))

/-- The statement `free_list.compare_exchange_strong(old_head, new_head)` of
`fill_class_cache`: the memory after it and whether it succeeded, which it does exactly when
`free_list` holds the pointer `old_head`. -/
def fill_class_exchange (this index : Nat) (w : World) (old_head : Block)
    (new_head : BlockPtr) : Option (World × Bool) :=
  match w.pools this with
  | none => none
  | some pool =>
    if (pool.chunk_classes index).free_list = some old_head then
      some ({ w with pools := (upd w.pools this (some { pool with
        chunk_classes := upd pool.chunk_classes index
          { pool.chunk_classes index with free_list := new_head } })) }, true)
    else some (w, false)

/-- The part of `fill_class_cache` after a successful exchange: the loop
`while (current != new_head) { blocks[count++] = current; current = current->next; }`. -/
def fill_class_store (index : Nat) (w : World) (old_head : Block) (new_head : BlockPtr) :
    Option World :=
  let class_cache := w.thread_cache.caches index
  match store_batch CLASS_CACHE_CAPACITY w.next new_head (CLASS_CACHE_CAPACITY.toNat + 1)
      (some old_head) class_cache.count class_cache.blocks with
  | none => none
  | some (blocks, count) =>
    some { w with thread_cache := { w.thread_cache with
      caches := upd w.thread_cache.caches index { blocks := blocks, count := count } } }

/-- The three parts of `fill_class_cache` run one after the other by one thread. -/
def fill_class_parts (this index : Nat) (w : World) : Option (World × Bool) :=
  match fill_class_read this index w with
  | none => none
  | some (old_head, new_head) =>
    match fill_class_exchange this index w old_head new_head with
    | none => none
    | some (w1, false) => some (w1, false)
    | some (w1, true) =>
      match fill_class_store index w1 old_head new_head with
      | none => none
      | some w2 => some (w2, true)

/-- The memory with the `thread_local` cache of another thread in the place of
`thread_cache`: every thread has its own `thread_cache` object, and all the rest of the
memory is shared. -/
def with_cache (c : MultiSizeThreadCache) (w : World) : World := { w with thread_cache := c }

/-- The calls of thread 2 made between the read and the exchange of thread 1: 23 calls
`allocate(2048)`, which empty its cache and take the blocks 22 to 7 of the chunk from the
free list, then `deallocate` of the payloads of the blocks 22, 21, ..., 7, which fills the
cache, then `deallocate` of the payload of block 23, which splices the blocks 22 to 15 and
23 in front of the free list. -/
def aba_thread2_ops : List Op :=
  List.replicate 23 (Op.allocate 2048) ++
    ((List.range 16).map (fun k => Op.deallocate (some (0, (22 - k) * 2064 + 16)) 2048) ++
      [Op.deallocate (some (0, 23 * 2064 + 16)) 2048])

/-- What is observed in the schedule `aba_schedule`: the local variables `old_head` and
`new_head` of thread 1, whether its exchange succeeded, the head of the free list and the
cell 0 of the cache of thread 2 right after the exchange, the pointers returned to thread 3
and to thread 2, and whether the rest of `fill_class_cache` of thread 1 (the copy into its
cache), run right after its exchange, is defined. -/
structure AbaOutcome where
  old_head : Block
  new_head : BlockPtr
  exchanged : Bool
  free_list : BlockPtr
  cell0 : BlockPtr
  returned3 : BlockPtr
  returned2 : BlockPtr
  copy_defined : Bool
  deriving DecidableEq

/-- What a schedule of three threads on the pool at address 0 gives.  Thread 2 constructs the
pool and calls `allocate(2048)`.  Thread 1, in `fill_class_cache(15)`, reads `old_head` and
`new_head`.  Thread 2 makes the calls of `aba_thread2_ops`.  Thread 1 makes its exchange.
Thread 3 calls `allocate(2048)`, then thread 2 calls `allocate(2048)`. -/
def aba_schedule : Option AbaOutcome :=
  let fresh := World.init.thread_cache
  match runOps 0 (start 0) [Op.allocate 2048] with
  | none => none
  | some s1 =>
    match fill_class_read 0 15 (with_cache fresh s1.world) with
    | none => none
    | some (old_head, new_head) =>
      match runOps 0 s1 aba_thread2_ops with
      | none => none
      | some s2 =>
        let cache2 := s2.world.thread_cache
        match fill_class_exchange 0 15 (with_cache fresh s2.world) old_head new_head with
        | none => none
        | some (w3, ok) =>
          match allocate 0 2048 (with_cache fresh w3) with
          | none => none
          | some (w4, p3) =>
            match allocate 0 2048 (with_cache cache2 w4) with
            | none => none
            | some (_, p2) =>
              some
                { old_head := old_head
                  new_head := new_head
                  exchanged := ok
                  free_list := ((w3.pools 0).map
                    (fun pool => (pool.chunk_classes 15).free_list)).join
                  cell0 := (cache2.caches 15).blocks 0
                  returned3 := p3
                  returned2 := p2
                  copy_defined := (fill_class_store 15 w3 old_head new_head).isSome }

end Multi

namespace Fixed

/-- The number of calls `deallocate(p)` with a non-null `p` in a list of calls. -/
def deallocations : List Op → Nat
  | [] => 0
  | Op.deallocate (some _) :: ops => deallocations ops + 1
  | _ :: ops => deallocations ops

/-- The destructor calls of the handles alive among `hs`, the first of which is at address
`i`, by increasing address. -/
def destructors : Nat → List (Option PoolPtr) → List HandleOp
  | _, [] => []
  | i, none :: hs => destructors (i + 1) hs
  | i, some _ :: hs => HandleOp.destructor i :: destructors (i + 1) hs

/-- The end of the life of every handle: the destructor of each handle alive. -/
def destroy_all (s : Handles) : List HandleOp := destructors 0 s.handles

/-- The program of `basic_test`: three calls of `make`, the move construction of `ptr4` from
`ptr1`, and the end of the scope, which destroys `ptr4`, `ptr3`, `ptr2` and `ptr1`. -/
def basic_test_ops : List HandleOp :=
  [HandleOp.make, HandleOp.make, HandleOp.make, HandleOp.move_construct 0,
    HandleOp.destructor 3, HandleOp.destructor 2, HandleOp.destructor 1, HandleOp.destructor 0]

/-- The run on the pool at address 0, with 2 blocks in a chunk, that brings the cache to the
high-water mark: 40 calls of `allocate`, which take 20 chunks and leave the cache empty, then
`deallocate` of the 26 blocks of the chunks 0 to 12, after which `count` is 26. -/
def drain_ops : List Op :=
  List.replicate 40 Op.allocate ++
    (List.range 26).map (fun k => Op.deallocate (some (k / 2, k % 2)))

/-- What is observed of a call of `deallocate`: `count` and the blocks of the cache before the
call, then `count`, the blocks of the cache and the blocks of the free list after it. -/
structure DrainView where
  count_before : Int
  cache_before : List BlockPtr
  count_after : Int
  cache_after : List BlockPtr
  free_list_after : List Block
  deriving DecidableEq

/-- The call `deallocate(p)`, with `p` the block 0 of the chunk 13, made with the cache of
`drain_ops`. -/
def drain_deallocate : Option DrainView :=
  match run 2 0 drain_ops with
  | none => none
  | some s =>
    match deallocate 0 s.world (some (13, 0)) with
    | none => none
    | some w =>
      match w.pools 0 with
      | none => none
      | some pool =>
        some { count_before := s.world.local_cache.count
               cache_before := cacheBlocks s.world.local_cache
               count_after := w.local_cache.count
               cache_after := cacheBlocks w.local_cache
               free_list_after := walk_chain w.next 64 pool.free_list }

end Fixed

end MemoryPool

/-! ## Properties -/

namespace MemoryPool

theorem sizeClass_strictMono : ∀ i, i < 16 → ∀ j, j < 16 → i < j → sizeClass i < sizeClass j := by
  decide

theorem sizeClass_get (i : Nat) (h : i < 16) : SIZE_CALSSES[i]? = some (sizeClass i) := by
  have : ∀ i, i < 16 → SIZE_CALSSES[i]? = some (sizeClass i) := by decide
  exact this i h

theorem get_size_class_index_loop_spec (s : Nat) :
    ∀ fuel left right, left ≤ right + 1 → right < 16 → right + 2 ≤ fuel + left →
      (∀ j, j < left → sizeClass j < s) →
      (∀ j, right < j → j < 16 → s < sizeClass j) →
      (∃ mid, get_size_class_index_loop s fuel left right = some (Sum.inl mid) ∧ mid < 16 ∧
          s ≤ sizeClass mid ∧ ∀ j, j < mid → sizeClass j < s) ∨
      (∃ l, get_size_class_index_loop s fuel left right = some (Sum.inr l) ∧ l ≤ 16 ∧
          (∀ j, j < l → sizeClass j < s) ∧ (l < 16 → s < sizeClass l)) := by
  intro fuel
  induction fuel with
  | zero => intro left right h1 h2 h3; omega
  | succ fuel ih =>
    intro left right h1 h2 h3 hlo hhi
    unfold get_size_class_index_loop
    by_cases hlr : left ≤ right
    · have hmid : left + (right - left) / 2 < 16 := by omega
      simp only [hlr, if_true, sizeClass_get _ hmid]
      by_cases hc : sizeClass (left + (right - left) / 2) < s
      · simp only [hc, if_true]
        apply ih
        · omega
        · exact h2
        · omega
        · intro j hj
          rcases Nat.lt_or_ge j (left + (right - left) / 2) with h | h
          · exact lt_trans (sizeClass_strictMono j (by omega) _ hmid h) hc
          · have : j = left + (right - left) / 2 := by omega
            rw [this]; exact hc
        · exact hhi
      · simp only [hc, if_false]
        by_cases hg : sizeClass (left + (right - left) / 2) > s ∧ left + (right - left) / 2 > 0
        · simp only [hg, and_self, if_true]
          apply ih
          · omega
          · omega
          · omega
          · exact hlo
          · intro j hj hj16
            rcases Nat.lt_or_ge (left + (right - left) / 2) j with h | h
            · exact lt_trans hg.1 (sizeClass_strictMono _ hmid j hj16 h)
            · have : j = left + (right - left) / 2 := by omega
              rw [this]; exact hg.1
        · rw [if_neg hg]
          left
          refine ⟨_, rfl, hmid, by omega, ?_⟩
          intro j hj
          rcases Nat.lt_or_ge s (sizeClass (left + (right - left) / 2)) with h | h
          · have h0 : left + (right - left) / 2 = 0 := by
              by_contra hne
              exact hg ⟨h, Nat.pos_of_ne_zero hne⟩
            omega
          · have := sizeClass_strictMono j (by omega) _ hmid hj
            omega
    · simp only [hlr, if_false]
      right
      refine ⟨left, rfl, by omega, hlo, ?_⟩
      intro hl
      exact hhi left (by omega) hl

theorem get_size_class_index_spec (s : Nat) :
    ∃ i, get_size_class_index s = some i ∧ i ≤ 16 ∧
      (∀ j, j < i → sizeClass j < s) ∧ (i < 16 → s ≤ sizeClass i) := by
  unfold get_size_class_index
  have hlen : SIZE_CALSSES.length = 16 := rfl
  rcases get_size_class_index_loop_spec s (SIZE_CALSSES.length + 1) 0 (SIZE_CALSSES.length - 1)
      (by omega) (by rw [hlen]; omega) (by rw [hlen]) (by intro j hj; omega)
      (by intro j h1 h2; rw [hlen] at h1; omega) with ⟨mid, he, h1, h2, h3⟩ | ⟨l, he, h1, h2, h3⟩
  · rw [he]
    exact ⟨mid, rfl, by omega, h3, fun _ => h2⟩
  · rw [he, hlen]
    by_cases hl : l < 16
    · simp only [hl, if_true]
      exact ⟨l, rfl, h1, h2, fun h => le_of_lt (h3 h)⟩
    · simp only [hl, if_false]
      have : l = 16 := by omega
      subst this
      exact ⟨16, rfl, le_refl _, h2, fun h => absurd h (by omega)⟩

@[simp] theorem upd_same {α β : Type} [DecidableEq α] (f : α → β) (a : α) (v : β) :
    upd f a v a = v := by simp [upd]

theorem upd_ne {α β : Type} [DecidableEq α] (f : α → β) (a : α) (v : β) (x : α) (h : x ≠ a) :
    upd f a v x = f x := by simp [upd, h]

theorem forLoop_induct {σ : Type} (body : Nat → σ → Option σ) (P : Nat → σ → Prop) :
    ∀ (n start : Nat) (s : σ), P start s →
      (∀ i s, start ≤ i → i < start + n → P i s → ∃ s', body i s = some s' ∧ P (i + 1) s') →
      ∃ s', forLoop body n start s = some s' ∧ P (start + n) s' := by
  intro n
  induction n with
  | zero => intro start s h0 _; exact ⟨s, rfl, h0⟩
  | succ n ih =>
    intro start s h0 hstep
    obtain ⟨s1, hb, h1⟩ := hstep start s (le_refl _) (by omega) h0
    obtain ⟨s2, hl, h2⟩ := ih (start + 1) s1 h1
      (fun i t hi1 hi2 hP => hstep i t (by omega) (by omega) hP)
    refine ⟨s2, ?_, ?_⟩
    · simp only [forLoop, hb]; exact hl
    · have : start + (n + 1) = start + 1 + n := by omega
      rw [this]; exact h2

theorem IsSeg_congr {next next' : NextMap} :
    ∀ (l : List Block) (p q : BlockPtr), (∀ b, b ∈ l → next' b = next b) →
      IsSeg next p l q → IsSeg next' p l q := by
  intro l
  induction l with
  | nil => intro p q _ h; exact h
  | cons b l ih =>
    intro p q hag h
    refine ⟨h.1, ?_⟩
    rw [hag b (List.mem_cons_self _ _)]
    exact ih _ _ (fun x hx => hag x (List.mem_cons_of_mem _ hx)) h.2

theorem IsSeg_append {next : NextMap} :
    ∀ (l1 l2 : List Block) (p m q : BlockPtr),
      IsSeg next p l1 m → IsSeg next m l2 q → IsSeg next p (l1 ++ l2) q := by
  intro l1
  induction l1 with
  | nil => intro l2 p m q h1 h2; simp only [IsSeg] at h1; subst h1; simpa using h2
  | cons b l ih =>
    intro l2 p m q h1 h2
    exact ⟨h1.1, ih l2 _ m q h1.2 h2⟩

theorem IsSeg_split {next : NextMap} :
    ∀ (l1 l2 : List Block) (p q : BlockPtr), IsSeg next p (l1 ++ l2) q →
      ∃ m, IsSeg next p l1 m ∧ IsSeg next m l2 q := by
  intro l1
  induction l1 with
  | nil => intro l2 p q h; exact ⟨p, rfl, by simpa using h⟩
  | cons b l ih =>
    intro l2 p q h
    obtain ⟨m, h1, h2⟩ := ih l2 _ q h.2
    exact ⟨m, ⟨h.1, h1⟩, h2⟩

theorem IsSeg_unique {next : NextMap} :
    ∀ (l l' : List Block) (p : BlockPtr), IsSeg next p l none → IsSeg next p l' none → l = l' := by
  intro l
  induction l with
  | nil =>
    intro l' p h h'
    cases l' with
    | nil => rfl
    | cons b l' => simp only [IsSeg] at h h'; rw [h] at h'; exact absurd h'.1 (by simp)
  | cons b l ih =>
    intro l' p h h'
    cases l' with
    | nil => simp only [IsSeg] at h h'; rw [h'] at h; exact absurd h.1 (by simp)
    | cons b' l' =>
      have hb : b = b' := by
        have := h.1.symm.trans h'.1
        exact Option.some.inj this
      subst hb
      rw [ih l' _ h.2 h'.2]

theorem not_mem_take_of_nodup {C : List Block} (hnd : C.Nodup) {i : Nat} {ci : Block}
    (hi : C[i]? = some ci) : ci ∉ C.take i := by
  intro hmem
  obtain ⟨j, hj, hje⟩ := List.getElem_of_mem hmem
  have hjlen : j < i ∧ j < C.length := by
    simp only [List.length_take] at hj; omega
  have hilen : i < C.length := by
    rcases Nat.lt_or_ge i C.length with h | h
    · exact h
    · rw [List.getElem?_eq_none h] at hi; exact absurd hi (by simp)
  rw [List.getElem_take] at hje
  have h1 : C[j]? = some ci := by rw [List.getElem?_eq_getElem hjlen.2, hje]
  have := (List.getElem?_inj hjlen.2 hnd (h1.trans hi.symm))
  omega

theorem IsSeg_snoc_upd {nx : NextMap} {p : BlockPtr} {C : List Block} {i : Nat} {ci : Block}
    (v : BlockPtr) (hseg : IsSeg nx p (C.take i) (C[i]?)) (hi : C[i]? = some ci)
    (hnot : ci ∉ C.take i) : IsSeg (upd nx ci v) p (C.take (i + 1)) v := by
  rw [List.take_succ, hi]
  refine IsSeg_append _ _ _ (some ci) _ ?_ ?_
  · rw [hi] at hseg
    refine IsSeg_congr _ _ _ ?_ hseg
    intro b hb
    exact upd_ne _ _ _ _ (fun h => hnot (h ▸ hb))
  · exact ⟨rfl, by simp [IsSeg]⟩

theorem link_blocks_spec (cap : Int) (blocks : Slots) (C : List Block) (next : NextMap)
    (m : Nat) (hH : Holds blocks C) (hcap : (C.length : Int) ≤ cap) (hnd : C.Nodup)
    (hm : m ≤ C.length) :
    ∃ next', link_blocks cap blocks (m : Int) next = some next' ∧
      IsSeg next' (C[0]?) (C.take (m - 1)) (C[m - 1]?) ∧
      ∀ b, b ∉ C.take (m - 1) → next' b = next b := by
  unfold link_blocks
  have hn : ((m : Int) - 1).toNat = m - 1 := by omega
  rw [hn]
  have := forLoop_induct (fun i nx =>
      match slot cap blocks (i : Int), slot cap blocks ((i : Int) + 1) with
      | some (some b), some v => some (upd nx b v)
      | _, _ => none)
    (fun i nx => IsSeg nx (C[0]?) (C.take i) (C[i]?) ∧ ∀ b, b ∉ C.take i → nx b = next b)
    (m - 1) 0 next ⟨by simp [IsSeg], fun b _ => rfl⟩ ?_
  · simpa using this
  · intro i nx _ hi ⟨hseg, hframe⟩
    have hi1 : i < C.length := by omega
    have hi2 : i + 1 < C.length := by omega
    have hs1 : slot cap blocks (i : Int) = some (some C[i]) := by
      simp only [slot]
      rw [if_pos (by omega), hH i hi1, List.getElem?_eq_getElem hi1]
    have hs2 : slot cap blocks ((i : Int) + 1) = some (C[i + 1]?) := by
      simp only [slot]
      rw [if_pos (by omega)]
      have := hH (i + 1) hi2
      push_cast at this
      rw [this]
    have hci : C[i]? = some C[i] := List.getElem?_eq_getElem hi1
    have hnot := not_mem_take_of_nodup hnd hci
    refine ⟨upd nx C[i] (C[i + 1]?), ?_, IsSeg_snoc_upd _ hseg hci hnot, ?_⟩
    · simp only [hs1, hs2]
    · intro b hb
      rw [List.take_succ, hci] at hb
      simp only [Option.toList, List.mem_append, List.mem_singleton, not_or] at hb
      rw [upd_ne _ _ _ _ hb.2]
      exact hframe b hb.1

theorem compact_blocks_spec (cap : Int) (blocks : Slots) (count half : Nat)
    (hcap : (count : Int) ≤ cap) (hh : half ≤ count) :
    ∃ blocks', compact_blocks cap (count : Int) (half : Int) blocks = some blocks' ∧
      ∀ j, j < count - half → blocks' (j : Int) = blocks ((j + half : Nat) : Int) := by
  unfold compact_blocks
  have hn : ((count : Int) - (half : Int)).toNat = count - half := by omega
  rw [hn]
  have := forLoop_induct (fun i bl =>
      match slot cap bl ((i : Int) + (half : Int)) with
      | some v => setSlot cap bl (i : Int) v
      | none => none)
    (fun i bl => (∀ j, j < i → bl (j : Int) = blocks ((j + half : Nat) : Int)) ∧
      ∀ j : Nat, i ≤ j → bl (j : Int) = blocks (j : Int))
    (count - half) 0 blocks ⟨fun j hj => absurd hj (by omega), fun j _ => rfl⟩ ?_
  · obtain ⟨bl, h1, h2⟩ := this
    refine ⟨bl, h1, ?_⟩
    intro j hj
    exact h2.1 j (by omega)
  · intro i bl _ hi ⟨hlow, hhigh⟩
    have hs : slot cap bl ((i : Int) + (half : Int)) = some (blocks ((i + half : Nat) : Int)) := by
      simp only [slot]
      rw [if_pos (by omega)]
      have := hhigh (i + half) (by omega)
      push_cast at this ⊢
      rw [this]
    refine ⟨upd bl (i : Int) (blocks ((i + half : Nat) : Int)), ?_, ?_, ?_⟩
    · simp only [hs, setSlot]
      rw [if_pos (by omega)]
    · intro j hj
      rcases Nat.lt_or_ge j i with h | h
      · rw [upd_ne _ _ _ _ (by omega)]
        exact hlow j h
      · have : j = i := by omega
        subst this
        simp
    · intro j hj
      rw [upd_ne _ _ _ _ (by omega)]
      exact hhigh j (by omega)

theorem walk_batch_spec (next : NextMap) :
    ∀ (n : Nat) (h : Block) (G : List Block), IsChain next (some h) G →
      IsSeg next (some h) (G.take (n + 1)) (next (walk_batch next n h)) ∧
      IsChain next (next (walk_batch next n h)) (G.drop (n + 1)) := by
  intro n
  induction n with
  | zero =>
    intro h G hG
    cases G with
    | nil => exact absurd hG (by simp [IsChain, IsSeg])
    | cons b G' =>
      obtain ⟨hb, hrest⟩ := hG
      have hb' : h = b := Option.some.inj hb
      subst hb'
      exact ⟨⟨rfl, by simp [IsSeg, walk_batch]⟩, by simpa [walk_batch] using hrest⟩
  | succ n ih =>
    intro h G hG
    cases G with
    | nil => exact absurd hG (by simp [IsChain, IsSeg])
    | cons b G' =>
      obtain ⟨hb, hrest⟩ := hG
      have hb' : h = b := Option.some.inj hb
      subst hb'
      cases hnx : next h with
      | none =>
        rw [hnx] at hrest
        cases G' with
        | nil => simp [walk_batch, hnx, IsSeg, IsChain]
        | cons c G'' => exact absurd hrest.1 (by simp)
      | some nx =>
        rw [hnx] at hrest
        obtain ⟨h1, h2⟩ := ih nx G' hrest
        simp only [walk_batch, hnx, List.take_succ_cons, List.drop_succ_cons]
        exact ⟨⟨rfl, by rw [hnx]; exact h1⟩, h2⟩

theorem store_batch_spec (cap : Int) (next : NextMap) (q : BlockPtr) :
    ∀ (L : List Block) (fuel : Nat) (cur : BlockPtr) (i : Nat) (blocks : Slots),
      IsSeg next cur L q → (∀ b, b ∈ L → some b ≠ q) → L.length < fuel →
      ((i + L.length : Nat) : Int) ≤ cap →
      ∃ blocks', store_batch cap next q fuel cur (i : Int) blocks
          = some (blocks', ((i + L.length : Nat) : Int)) ∧
        (∀ j, j < L.length → blocks' ((i + j : Nat) : Int) = L[j]?) ∧
        ∀ k : Nat, k < i → blocks' (k : Int) = blocks (k : Int) := by
  intro L
  induction L with
  | nil =>
    intro fuel cur i blocks hseg _ hfuel _
    cases fuel with
    | zero => exact absurd hfuel (by simp)
    | succ f =>
      simp only [IsSeg] at hseg
      refine ⟨blocks, by simp [store_batch, hseg], fun j hj => absurd hj (by simp), fun k _ => rfl⟩
  | cons b L ih =>
    intro fuel cur i blocks hseg hne hfuel hcap
    cases fuel with
    | zero => exact absurd hfuel (by simp)
    | succ f =>
      obtain ⟨hcur, hrest⟩ := hseg
      subst hcur
      simp only [List.length_cons] at hfuel hcap
      have hset : setSlot cap blocks (i : Int) (some b) = some (upd blocks (i : Int) (some b)) := by
        simp only [setSlot]
        rw [if_pos (by omega)]
      obtain ⟨blocks', he, h1, h2⟩ := ih f (next b) (i + 1) (upd blocks (i : Int) (some b)) hrest
        (fun x hx => hne x (List.mem_cons_of_mem _ hx)) (by omega) (by omega)
      refine ⟨blocks', ?_, ?_, ?_⟩
      · simp only [store_batch, if_neg (hne b (List.mem_cons_self _ _)), hset]
        push_cast at he ⊢
        rw [he]
        simp only [List.length_cons]
        congr 2
        push_cast
        ring
      · intro j hj
        cases j with
        | zero =>
          have := h2 i (by omega)
          simp only [Nat.add_zero, List.getElem?_cons_zero]
          rw [this]; simp
        | succ j =>
          have := h1 j (by simp only [List.length_cons] at hj; omega)
          have e : i + (j + 1) = i + 1 + j := by omega
          rw [e, this]; simp
      · intro k hk
        rw [h2 k (by omega), upd_ne _ _ _ _ (by omega)]

namespace Fixed

theorem chunkBlocks_get (c : Chunk) (i : Nat) (h : i < c.count) :
    (chunkBlocks c)[i]? = some (c.blocks, i) := by
  simp [chunkBlocks, List.getElem?_range h]

theorem chunkBlocks_length (c : Chunk) : (chunkBlocks c).length = c.count := by
  simp [chunkBlocks]

theorem chunkBlocks_nodup (c : Chunk) : (chunkBlocks c).Nodup := by
  unfold chunkBlocks
  refine List.Nodup.map ?_ (List.nodup_range _)
  intro a b h
  exact (Prod.mk.inj h).2

theorem mem_chunkBlocks {c : Chunk} {b : Block} :
    b ∈ chunkBlocks c ↔ b.1 = c.blocks ∧ b.2 < c.count := by
  unfold chunkBlocks
  simp only [List.mem_map, List.mem_range]
  constructor
  · rintro ⟨i, hi, rfl⟩; exact ⟨rfl, hi⟩
  · rintro ⟨h1, h2⟩; exact ⟨b.2, h2, by rw [← h1]⟩

theorem allocate_new_chunk_spec (B this : Nat) (w : World) (pool : Pool) (G : List Block)
    (hB : 0 < B) (hpool : w.pools this = some pool) (hG : IsChain w.next pool.free_list G)
    (hfresh : ∀ b, b ∈ G → b.1 < w.arrays) :
    ∃ w', allocate_new_chunk B this w = some w' ∧
      w'.pools = upd w.pools this (some { pool with
        free_list := some (w.arrays, 0), chunks := ⟨w.arrays, B⟩ :: pool.chunks }) ∧
      IsChain w'.next (some (w.arrays, 0)) (chunkBlocks ⟨w.arrays, B⟩ ++ G) ∧
      w'.local_cache = w.local_cache ∧ w'.arrays = w.arrays + 1 ∧
      ∀ b : Block, b.1 ≠ w.arrays → w'.next b = w.next b := by
  have hsub : size_t_sub B 1 = B - 1 := by
    unfold size_t_sub; rw [if_pos (by omega)]
  let C := chunkBlocks ⟨w.arrays, B⟩
  have hClen : C.length = B := chunkBlocks_length _
  have hCget : ∀ i, i < B → C[i]? = some (w.arrays, i) := fun i hi => chunkBlocks_get ⟨w.arrays, B⟩ i hi
  have hCnd : C.Nodup := chunkBlocks_nodup _
  obtain ⟨next1, hloop, hseg, hframe⟩ := forLoop_induct (fun i (nx : NextMap) =>
      if i < B then some (upd nx (w.arrays, i) (some (w.arrays, i + 1))) else none)
    (fun i nx => IsSeg nx (C[0]?) (C.take i) (C[i]?) ∧
      ∀ b : Block, b.1 ≠ w.arrays → nx b = w.next b)
    (B - 1) 0 (fun b => if b.1 = w.arrays then none else w.next b)
    ⟨by simp [IsSeg], fun b hb => by simp [hb]⟩
    (by
      intro i nx _ hi ⟨hseg, hframe⟩
      have hiB : i < B := by omega
      refine ⟨_, if_pos hiB, ?_, ?_⟩
      · have := IsSeg_snoc_upd (some (w.arrays, i + 1)) hseg (hCget i hiB)
          (not_mem_take_of_nodup hCnd (hCget i hiB))
        rw [hCget (i + 1) (by omega)]
        exact this
      · intro b hb
        rw [upd_ne _ _ _ _ (fun h => hb (by rw [h]))]
        exact hframe b hb)
  simp only [Nat.zero_add] at hseg
  have hlast := hCget (B - 1) (by omega)
  have hseg2 := IsSeg_snoc_upd pool.free_list hseg hlast (not_mem_take_of_nodup hCnd hlast)
  have hB1 : B - 1 + 1 = B := by omega
  have htake : C.take B = C := by rw [← hClen, List.take_length]
  rw [hB1, htake, hCget 0 hB] at hseg2
  have heq : allocate_new_chunk B this w = some { w with
      next := upd next1 (w.arrays, B - 1) pool.free_list
      arrays := w.arrays + 1
      pools := (upd w.pools this (some { pool with
        free_list := some (w.arrays, 0), chunks := ⟨w.arrays, B⟩ :: pool.chunks })) } := by
    simp only [allocate_new_chunk, hpool, hsub, Nat.zero_add] at hloop ⊢
    rw [hloop]
    exact if_pos (by omega)
  refine ⟨_, heq, rfl, ?_, rfl, rfl, ?_⟩
  · refine IsSeg_append _ _ _ _ _ hseg2 ?_
    refine IsSeg_congr _ _ _ ?_ hG
    intro b hb
    have hne : b.1 ≠ w.arrays := by have := hfresh b hb; omega
    show upd next1 (w.arrays, B - 1) pool.free_list b = w.next b
    rw [upd_ne _ _ _ _ (fun h => hne (by rw [h]))]
    exact hframe b hne
  · intro b hne
    show upd next1 (w.arrays, B - 1) pool.free_list b = w.next b
    rw [upd_ne _ _ _ _ (fun h => hne (by rw [h]))]
    exact hframe b hne

theorem Rep.nodup_all {this : Nat} {w : World} {live : List Block} {pool : Pool}
    {C G : List Block} (h : Rep this w live pool C G) : (C ++ (G ++ live)).Nodup :=
  h.perm.nodup_iff.mpr h.nodup

theorem fill_from_spec (this : Nat) (w : World) (pool : Pool) (h : Block) (G : List Block)
    (hG : IsChain w.next (some h) G) (hnd : G.Nodup) :
    ∃ w' q, fill_from this w pool h = some w' ∧
      w'.pools = upd w.pools this (some { pool with free_list := q }) ∧
      IsChain w.next q (G.drop 16) ∧ w'.next = w.next ∧ w'.arrays = w.arrays ∧
      Holds w'.local_cache.blocks (G.take 16) ∧
      w'.local_cache.count = ((G.take 16).length : Int) ∧
      w'.local_cache.pool_instance = w.local_cache.pool_instance := by
  obtain ⟨hseg, hrest⟩ := walk_batch_spec w.next 15 h G hG
  have hne : ∀ b, b ∈ G.take 16 → some b ≠ w.next (walk_batch w.next 15 h) := by
    intro b hb heq
    rw [← heq] at hrest
    cases hd : G.drop 16 with
    | nil => rw [hd] at hrest; exact absurd hrest (by simp [IsChain, IsSeg])
    | cons x r =>
      rw [hd] at hrest
      have hx : b = x := Option.some.inj hrest.1
      have hmem : b ∈ G.drop 16 := by rw [hd, hx]; exact List.mem_cons_self _ _
      have hnd' : (G.take 16 ++ G.drop 16).Nodup := by rw [List.take_append_drop]; exact hnd
      exact (List.nodup_append.mp hnd').2.2 hb hmem
  have hlen : (G.take 16).length ≤ 16 := by simp
  obtain ⟨blocks', he, h1, _⟩ := store_batch_spec CACHE_CAPACITY w.next
    (w.next (walk_batch w.next 15 h)) (G.take 16) 33 (some h) 0 w.local_cache.blocks hseg hne
    (by omega) (by simp only [CACHE_CAPACITY]; omega)
  have hfuel : CACHE_CAPACITY.toNat + 1 = 33 := by decide
  have hb : BATCH_SIZE - 1 = 15 := by decide
  have heq : fill_from this w pool h = some { w with
      pools := (upd w.pools this (some { pool with free_list := w.next (walk_batch w.next 15 h) }))
      local_cache := { w.local_cache with
        blocks := blocks', count := ((G.take 16).length : Int) } } := by
    simp only [fill_from, hfuel, hb]
    simp only [Nat.cast_zero, Nat.zero_add] at he
    rw [he]
  refine ⟨_, w.next (walk_batch w.next 15 h), heq, rfl, hrest, rfl, rfl, ?_, rfl, rfl⟩
  · intro i hi
    have := h1 i hi
    simpa using this

theorem allBlocks_cons (c : Chunk) (cs : List Chunk) :
    allBlocks (c :: cs) = chunkBlocks c ++ allBlocks cs := by
  simp [allBlocks]

theorem allBlocks_new_nodup (a B : Nat) (cs : List Chunk) (hnd : (allBlocks cs).Nodup)
    (hfresh : ∀ b, b ∈ allBlocks cs → b.1 < a) : (allBlocks (⟨a, B⟩ :: cs)).Nodup := by
  rw [allBlocks_cons]
  refine List.nodup_append.mpr ⟨chunkBlocks_nodup _, hnd, ?_⟩
  intro b hb1 hb2
  have h1 := (mem_chunkBlocks.mp hb1).1
  have h2 := hfresh b hb2
  simp only at h1
  omega

theorem allBlocks_new_fresh (a B : Nat) (cs : List Chunk)
    (hfresh : ∀ b, b ∈ allBlocks cs → b.1 < a) :
    ∀ b, b ∈ allBlocks (⟨a, B⟩ :: cs) → b.1 < a + 1 := by
  intro b hb
  rw [allBlocks_cons, List.mem_append] at hb
  rcases hb with hb | hb
  · have h1 := (mem_chunkBlocks.mp hb).1
    simp only at h1
    omega
  · have := hfresh b hb; omega

theorem IsChain_some_ne_nil {next : NextMap} {h : Block} {G : List Block}
    (hG : IsChain next (some h) G) : G ≠ [] := by
  intro hnil
  rw [hnil] at hG
  exact absurd hG (by simp [IsChain, IsSeg])

theorem IsChain_none_eq_nil {next : NextMap} {G : List Block}
    (hG : IsChain next none G) : G = [] := by
  cases G with
  | nil => rfl
  | cons b G => exact absurd hG.1 (by simp)

theorem fill_local_cache_spec (B this : Nat) (w : World) (live : List Block) (pool : Pool)
    (G : List Block) (hB : 0 < B) (hrep : Rep this w live pool [] G) :
    ∃ w' pool' G0, fill_local_cache B this w = some w' ∧
      Rep this w' live pool' (G0.take 16) (G0.drop 16) ∧ G0 ≠ [] ∧ w'.arrays ≤ w.arrays + 1 ∧
      ((G ≠ [] ∧ G0 = G ∧ pool'.chunks = pool.chunks) ∨
        (G = [] ∧ G0 = chunkBlocks ⟨w.arrays, B⟩ ∧ pool'.chunks = ⟨w.arrays, B⟩ :: pool.chunks)) ∧
      pool'.allocate_count = pool.allocate_count ∧
      pool'.deallocated_count = pool.deallocated_count ∧
      w'.local_cache.pool_instance = some this := by
  have hcount : ¬ (w.local_cache.count > 0) := by
    rw [hrep.count_eq]; simp
  have hndall := hrep.nodup_all
  simp only [List.nil_append] at hndall
  have hGnd : G.Nodup := (List.nodup_append.mp hndall).1
  cases hfl : pool.free_list with
  | some h =>
    have hG : IsChain w.next (some h) G := by rw [← hfl]; exact hrep.chain
    obtain ⟨w', q, he, hp, hch, hnx, har, hho, hco, hin⟩ :=
      fill_from_spec this
        { w with local_cache := { w.local_cache with pool_instance := some this } } pool h G hG hGnd
    refine ⟨w', { pool with free_list := q }, G, ?_, ?_, IsChain_some_ne_nil hG,
      by rw [har]; exact Nat.le_succ _, Or.inl ⟨IsChain_some_ne_nil hG, rfl, rfl⟩, rfl, rfl, hin⟩
    · simp only [fill_local_cache, if_neg hcount, hrep.pool_eq, hfl]
      exact he
    · refine ⟨by rw [hp]; simp, by rw [hnx]; exact hch, hho, hco, ?_, hrep.nodup, ?_⟩
      · rw [← List.append_assoc, List.take_append_drop]
        simpa using hrep.perm
      · rw [har]; exact hrep.fresh
  | none =>
    have hG0 : IsChain w.next none G := by rw [← hfl]; exact hrep.chain
    have hGnil : G = [] := IsChain_none_eq_nil hG0
    subst hGnil
    obtain ⟨w1, he1, hp1, hch1, hlc1, har1, hfr1⟩ := allocate_new_chunk_spec B this
      { w with local_cache := { w.local_cache with pool_instance := some this } } pool []
      hB hrep.pool_eq hrep.chain (fun b hb => absurd hb (by simp))
    simp only [List.append_nil] at hch1
    have hnd1 : (chunkBlocks ⟨w.arrays, B⟩).Nodup := chunkBlocks_nodup _
    obtain ⟨w', q, he, hp, hch, hnx, har, hho, hco, hin⟩ := fill_from_spec this w1
      { pool with free_list := some (w.arrays, 0), chunks := ⟨w.arrays, B⟩ :: pool.chunks }
      (w.arrays, 0) (chunkBlocks ⟨w.arrays, B⟩) hch1 hnd1
    have hperm : live.Perm (allBlocks pool.chunks) := by simpa using hrep.perm
    refine ⟨w', { pool with free_list := q, chunks := ⟨w.arrays, B⟩ :: pool.chunks },
      chunkBlocks ⟨w.arrays, B⟩, ?_, ?_, IsChain_some_ne_nil hch1,
      by rw [har, har1], Or.inr ⟨rfl, rfl, rfl⟩,
      rfl, rfl, ?_⟩
    · simp only [fill_local_cache, if_neg hcount, hrep.pool_eq, hfl, he1, hp1, upd_same]
      exact he
    · refine ⟨by rw [hp]; simp, by rw [hnx]; exact hch, hho, hco, ?_,
        allBlocks_new_nodup _ _ _ hrep.nodup hrep.fresh, ?_⟩
      · rw [← List.append_assoc, List.take_append_drop, allBlocks_cons]
        exact List.Perm.append_left _ hperm
      · rw [har, har1]
        exact allBlocks_new_fresh _ _ _ hrep.fresh
    · rw [hin, hlc1]

theorem Holds_take {blocks : Slots} {C D : List Block} (h : Holds blocks (C ++ D)) :
    Holds blocks C := by
  intro i hi
  have := h i (by simp only [List.length_append]; omega)
  rw [this, List.getElem?_append_left hi]

theorem Holds_snoc {blocks : Slots} {C : List Block} (h : Holds blocks C) (p : Block) :
    Holds (upd blocks (C.length : Int) (some p)) (C ++ [p]) := by
  intro i hi
  simp only [List.length_append, List.length_singleton] at hi
  rcases Nat.lt_or_ge i C.length with hlt | hge
  · rw [upd_ne _ _ _ _ (by omega), h i hlt, List.getElem?_append_left hlt]
  · have : i = C.length := by omega
    subst this
    simp

theorem allocate_spec (B this : Nat) (w : World) (live : List Block) (pool : Pool)
    (C G : List Block) (hB : 0 < B) (hcap : C.length ≤ 32) (hrep : Rep this w live pool C G) :
    ∃ w' b pool' C' G', allocate B this w = some (w', some b) ∧
      Rep this w' (b :: live) pool' C' G' ∧
      pool'.allocate_count = (pool.allocate_count + 1) % SIZE_T_RANGE ∧
      pool'.deallocated_count = pool.deallocated_count ∧
      ((C ≠ [] ∧ C = C' ++ [b] ∧ G' = G ∧ pool'.chunks = pool.chunks) ∨
        (C = [] ∧ C'.length < 16 ∧
          ((G ≠ [] ∧ pool'.chunks = pool.chunks) ∨
            (G = [] ∧ pool'.chunks = ⟨w.arrays, B⟩ :: pool.chunks)))) ∧
      w'.arrays ≤ w.arrays + 1 ∧
      (w'.local_cache.pool_instance = w.local_cache.pool_instance ∨
        w'.local_cache.pool_instance = some this) := by
  obtain ⟨w1, pool1, C1, G1, hfirst, hrep1, hC1, hcap1, hac, hdc, hor, har, hinst⟩ :
      ∃ w1 pool1 C1 G1,
        (if w.local_cache.count = 0 then fill_local_cache B this w else some w) = some w1 ∧
        Rep this w1 live pool1 C1 G1 ∧ C1 ≠ [] ∧ C1.length ≤ 32 ∧
        pool1.allocate_count = pool.allocate_count ∧
        pool1.deallocated_count = pool.deallocated_count ∧
        ((C ≠ [] ∧ C1 = C ∧ G1 = G ∧ pool1.chunks = pool.chunks) ∨
          (C = [] ∧ C1.length ≤ 16 ∧
            ((G ≠ [] ∧ pool1.chunks = pool.chunks) ∨
              (G = [] ∧ pool1.chunks = ⟨w.arrays, B⟩ :: pool.chunks)))) ∧
        w1.arrays ≤ w.arrays + 1 ∧
        (w1.local_cache.pool_instance = w.local_cache.pool_instance ∨
          w1.local_cache.pool_instance = some this) := by
    cases C with
    | nil =>
      obtain ⟨w', pool', G0, he, hrep', hne, har, hch, hac, hdc, hin⟩ :=
        fill_local_cache_spec B this w live pool G hB hrep
      have hch' : (G ≠ [] ∧ pool'.chunks = pool.chunks) ∨
          (G = [] ∧ pool'.chunks = ⟨w.arrays, B⟩ :: pool.chunks) := by
        rcases hch with ⟨h1, _, h3⟩ | ⟨h1, _, h3⟩
        · exact Or.inl ⟨h1, h3⟩
        · exact Or.inr ⟨h1, h3⟩
      refine ⟨w', pool', G0.take 16, G0.drop 16, ?_, hrep', ?_, ?_, hac, hdc,
        Or.inr ⟨rfl, by simp, hch'⟩, har, Or.inr hin⟩
      · rw [if_pos (by rw [hrep.count_eq]; simp)]
        exact he
      · cases G0 with
        | nil => exact absurd rfl hne
        | cons x r => simp
      · simp
    | cons c C0 =>
      refine ⟨w, pool, c :: C0, G, ?_, hrep, by simp, hcap, rfl, rfl,
        Or.inl ⟨by simp, rfl, rfl, rfl⟩, Nat.le_succ _, Or.inl rfl⟩
      rw [if_neg]
      rw [hrep.count_eq]
      simp only [List.length_cons]
      omega
  rcases List.eq_nil_or_concat C1 with hnil | ⟨C', b, hcc⟩
  · exact absurd hnil hC1
  rw [List.concat_eq_append] at hcc
  subst hcc
  have hlen : w1.local_cache.count = (C'.length : Int) + 1 := by
    rw [hrep1.count_eq]; simp
  have hpos : w1.local_cache.count > 0 := by omega
  have hslot : slot CACHE_CAPACITY w1.local_cache.blocks (w1.local_cache.count - 1)
      = some (some b) := by
    simp only [List.length_append, List.length_singleton] at hcap1
    have hidx : w1.local_cache.count - 1 = (C'.length : Int) := by omega
    rw [hidx]
    simp only [slot, CACHE_CAPACITY]
    rw [if_pos (by omega), hrep1.holds C'.length (by simp)]
    simp
  have heq : allocate B this w = some ({ w1 with
      local_cache := { w1.local_cache with count := w1.local_cache.count - 1 }
      pools := (upd w1.pools this (some { pool1 with
        allocate_count := (pool1.allocate_count + 1) % SIZE_T_RANGE })) }, some b) := by
    simp only [allocate, hfirst, if_pos hpos, hslot, count_allocation, hrep1.pool_eq]
  refine ⟨_, b, { pool1 with allocate_count := (pool1.allocate_count + 1) % SIZE_T_RANGE },
    C', G1, heq, ?_, by rw [← hac], by rw [← hdc], ?_, har, hinst⟩
  · refine ⟨by simp, hrep1.chain, Holds_take hrep1.holds, ?_, ?_, hrep1.nodup, hrep1.fresh⟩
    · show w1.local_cache.count - 1 = (C'.length : Int)
      omega
    · refine List.Perm.trans ?_ hrep1.perm
      rw [List.perm_iff_count]; intro a
      simp only [List.count_append, List.count_cons, List.count_nil]
      omega
  · rcases hor with ⟨h1, h2, h3, h4⟩ | ⟨h1, h2⟩
    · exact Or.inl ⟨h1, h2.symm, h3, h4⟩
    · refine Or.inr ⟨h1, ?_, h2.2⟩
      have h3 := h2.1
      simp only [List.length_append, List.length_singleton] at h3
      omega

theorem Rep.cache_nodup {this : Nat} {w : World} {live : List Block} {pool : Pool}
    {C G : List Block} (h : Rep this w live pool C G) : C.Nodup :=
  (List.nodup_append.mp h.nodup_all).1

theorem Rep.cache_disjoint {this : Nat} {w : World} {live : List Block} {pool : Pool}
    {C G : List Block} (h : Rep this w live pool C G) {b : Block} (hC : b ∈ C) : b ∉ G := by
  intro hG
  exact (List.nodup_append.mp h.nodup_all).2.2 hC (List.mem_append_left _ hG)

/-- The free list after the first `m` blocks of the cache `C` have been linked in front of the
list `G`, as both `return_half` and `return_thread_cache` do. -/
theorem splice_spec (this : Nat) (w : World) (live : List Block) (pool : Pool)
    (C G : List Block) (hrep : Rep this w live pool C G) (m : Nat) (hm1 : 1 ≤ m)
    (hm : m ≤ C.length) (hcap : C.length ≤ 32) :
    ∃ next1 tail, link_blocks CACHE_CAPACITY w.local_cache.blocks (m : Int) w.next = some next1 ∧
      slot CACHE_CAPACITY w.local_cache.blocks 0 = some (C[0]?) ∧
      slot CACHE_CAPACITY w.local_cache.blocks ((m : Int) - 1) = some (some tail) ∧
      IsChain (upd next1 tail pool.free_list) (C[0]?) (C.take m ++ G) := by
  have hcapI : (C.length : Int) ≤ CACHE_CAPACITY := by simp only [CACHE_CAPACITY]; omega
  obtain ⟨next1, hl, hseg, hframe⟩ := link_blocks_spec CACHE_CAPACITY w.local_cache.blocks C
    w.next m hrep.holds hcapI hrep.cache_nodup hm
  have hm1lt : m - 1 < C.length := by omega
  have htail : C[m - 1]? = some C[m - 1] := List.getElem?_eq_getElem hm1lt
  have hnot := not_mem_take_of_nodup hrep.cache_nodup htail
  have hseg2 := IsSeg_snoc_upd pool.free_list hseg htail hnot
  have hmm : m - 1 + 1 = m := by omega
  rw [hmm] at hseg2
  refine ⟨next1, C[m - 1], hl, ?_, ?_, ?_⟩
  · simp only [slot, CACHE_CAPACITY]
    rw [if_pos (by omega)]
    have := hrep.holds 0 (by omega)
    simp only [Nat.cast_zero] at this
    rw [this]
  · simp only [slot, CACHE_CAPACITY]
    rw [if_pos (by omega)]
    have := hrep.holds (m - 1) hm1lt
    have hc : ((m - 1 : Nat) : Int) = (m : Int) - 1 := by omega
    rw [hc] at this
    rw [this, htail]
  · refine IsSeg_append _ _ _ _ _ hseg2 ?_
    refine IsSeg_congr _ _ _ ?_ hrep.chain
    intro b hb
    have hbC : b ∉ C := fun h => hrep.cache_disjoint h hb
    rw [upd_ne _ _ _ _ (fun h => hbC (by rw [h]; exact List.getElem_mem _))]
    exact hframe b (fun h => hbC (List.mem_of_mem_take h))

theorem return_half_spec (this : Nat) (w : World) (live : List Block) (pool : Pool)
    (C G : List Block) (hrep : Rep this w live pool C G) (h2 : 2 ≤ C.length)
    (hcap : C.length ≤ 32) :
    ∃ w', return_half this w = some w' ∧
      Rep this w' live { pool with free_list := C[0]? } (C.drop (C.length / 2))
        (C.take (C.length / 2) ++ G) ∧
      w'.local_cache.pool_instance = w.local_cache.pool_instance ∧ w'.arrays = w.arrays := by
  have hhalf : Int.tdiv w.local_cache.count 2 = ((C.length / 2 : Nat) : Int) := by
    rw [hrep.count_eq]; rfl
  obtain ⟨next1, tail, hl, hs0, hst, hchain⟩ := splice_spec this w live pool C G hrep
    (C.length / 2) (by omega) (by omega) hcap
  obtain ⟨blocks', hc, hcomp⟩ := compact_blocks_spec CACHE_CAPACITY w.local_cache.blocks
    C.length (C.length / 2) (by simp only [CACHE_CAPACITY]; omega) (by omega)
  have heq : return_half this w = some { w with
      next := upd next1 tail pool.free_list
      pools := (upd w.pools this (some { pool with free_list := C[0]? }))
      local_cache := { w.local_cache with
        blocks := blocks', count := w.local_cache.count - ((C.length / 2 : Nat) : Int) } } := by
    simp only [return_half, hhalf, hl, hrep.pool_eq, hs0, hst]
    rw [hrep.count_eq, hc]
  refine ⟨_, heq, ⟨by simp, hchain, ?_, ?_, ?_, hrep.nodup, hrep.fresh⟩, rfl, rfl⟩
  · intro i hi
    simp only [List.length_drop] at hi
    show blocks' (i : Int) = _
    rw [hcomp i hi, hrep.holds _ (by omega), List.getElem?_drop, Nat.add_comm]
  · show w.local_cache.count - ((C.length / 2 : Nat) : Int) = _
    rw [hrep.count_eq, List.length_drop]
    omega
  · refine List.Perm.trans ?_ hrep.perm
    rw [List.perm_iff_count]; intro a
    have hp : (C.take (C.length / 2) ++ C.drop (C.length / 2)).Perm C := by
      rw [List.take_append_drop]
    have := List.perm_iff_count.mp hp a
    simp only [List.count_append] at this ⊢
    omega

theorem perm_cons_removeBlock {p : Block} :
    ∀ {l : List Block}, p ∈ l → l.Perm (p :: removeBlock p l) := by
  intro l
  induction l with
  | nil => intro h; exact absurd h (by simp)
  | cons x l ih =>
    intro h
    by_cases hx : x = p
    · subst hx; simp [removeBlock]
    · have hmem : p ∈ l := by
        rcases List.mem_cons.mp h with h1 | h1
        · exact absurd h1.symm hx
        · exact h1
      simp only [removeBlock, if_neg hx]
      exact (List.Perm.cons x (ih hmem)).trans (List.Perm.swap p x _)

theorem deallocate_spec (this : Nat) (w : World) (live : List Block) (pool : Pool)
    (C G : List Block) (p : Block) (hrep : Rep this w live pool C G) (hcap : C.length ≤ 32)
    (hp : p ∈ live) :
    ∃ w' pool' C' G', deallocate this w (some p) = some w' ∧
      Rep this w' (removeBlock p live) pool' (C' ++ [p]) G' ∧
      ((C.length < 26 ∧ C' = C ∧ G' = G) ∨
        (26 ≤ C.length ∧ C' = C.drop (C.length / 2) ∧ G' = C.take (C.length / 2) ++ G)) ∧
      pool'.allocate_count = pool.allocate_count ∧
      pool'.deallocated_count = (pool.deallocated_count + 1) % SIZE_T_RANGE ∧
      pool'.chunks = pool.chunks ∧ w'.local_cache.pool_instance = some this ∧
      w'.arrays = w.arrays := by
  obtain ⟨w1, pool1, C1, G1, hfirst, hrep1, hcap1, hor, hac, hdc, hch, hin, har⟩ :
      ∃ w1 pool1 C1 G1,
        (if 5 * w.local_cache.count ≥ 4 * CACHE_CAPACITY then
            return_half this
              { w with local_cache := { w.local_cache with pool_instance := some this } }
          else some { w with local_cache := { w.local_cache with pool_instance := some this } })
          = some w1 ∧
        Rep this w1 live pool1 C1 G1 ∧ C1.length ≤ 26 ∧
        ((C.length < 26 ∧ C1 = C ∧ G1 = G) ∨
          (26 ≤ C.length ∧ C1 = C.drop (C.length / 2) ∧ G1 = C.take (C.length / 2) ++ G)) ∧
        pool1.allocate_count = pool.allocate_count ∧
        pool1.deallocated_count = pool.deallocated_count ∧ pool1.chunks = pool.chunks ∧
        w1.local_cache.pool_instance = some this ∧ w1.arrays = w.arrays := by
    have hrep0 : Rep this
        { w with local_cache := { w.local_cache with pool_instance := some this } }
        live pool C G :=
      ⟨hrep.pool_eq, hrep.chain, hrep.holds, hrep.count_eq, hrep.perm, hrep.nodup, hrep.fresh⟩
    by_cases hge : 26 ≤ C.length
    · obtain ⟨w', he, hrep', hin, har⟩ := return_half_spec this _ live pool C G hrep0
        (by omega) hcap
      refine ⟨w', _, _, _, ?_, hrep', ?_, Or.inr ⟨hge, rfl, rfl⟩, rfl, rfl, rfl, hin, har⟩
      · rw [if_pos (by rw [hrep.count_eq]; simp only [CACHE_CAPACITY]; omega)]
        exact he
      · simp only [List.length_drop]; omega
    · refine ⟨_, pool, C, G, ?_, hrep0, by omega, Or.inl ⟨by omega, rfl, rfl⟩, rfl, rfl, rfl,
        rfl, rfl⟩
      rw [if_neg (by rw [hrep.count_eq]; simp only [CACHE_CAPACITY]; omega)]
  have hset : setSlot CACHE_CAPACITY w1.local_cache.blocks w1.local_cache.count (some p)
      = some (upd w1.local_cache.blocks (C1.length : Int) (some p)) := by
    rw [hrep1.count_eq]
    simp only [setSlot, CACHE_CAPACITY]
    rw [if_pos (by omega)]
  have heq : deallocate this w (some p) = some { w1 with
      local_cache := { w1.local_cache with
        blocks := upd w1.local_cache.blocks (C1.length : Int) (some p)
        count := w1.local_cache.count + 1 }
      pools := (upd w1.pools this (some { pool1 with
        deallocated_count := (pool1.deallocated_count + 1) % SIZE_T_RANGE })) } := by
    simp only [deallocate, hfirst, hset, hrep1.pool_eq]
  have hpC : p ∉ C1 ++ (G1 ++ removeBlock p live) := by
    have hnd := hrep1.nodup_all
    have hl := perm_cons_removeBlock hp
    have hnd2 : (p :: (C1 ++ (G1 ++ removeBlock p live))).Nodup := by
      refine (List.Perm.nodup_iff ?_).mp hnd
      rw [List.perm_iff_count]; intro a
      have := List.perm_iff_count.mp hl a
      simp only [List.count_append, List.count_cons] at this ⊢
      omega
    exact (List.nodup_cons.mp hnd2).1
  refine ⟨_, { pool1 with deallocated_count := (pool1.deallocated_count + 1) % SIZE_T_RANGE },
    C1, G1, heq, ?_, hor, by rw [← hac], by rw [← hdc], by rw [← hch], hin, har⟩
  refine ⟨by simp, hrep1.chain, Holds_snoc hrep1.holds p, ?_, ?_, hrep1.nodup, hrep1.fresh⟩
  · show w1.local_cache.count + 1 = _
    rw [hrep1.count_eq]; simp
  · refine List.Perm.trans ?_ hrep1.perm
    rw [List.perm_iff_count]; intro a
    have := List.perm_iff_count.mp (perm_cons_removeBlock hp) a
    simp only [List.count_append, List.count_cons, List.count_nil] at this ⊢
    omega

theorem return_thread_cache_spec (this : Nat) (w : World) (live : List Block) (pool : Pool)
    (C G : List Block) (hrep : Rep this w live pool C G) (hcap : C.length ≤ 32)
    (hinst : w.local_cache.pool_instance = none ∨ w.local_cache.pool_instance = some this) :
    ∃ w' pool' C' G', return_thread_cache w = some w' ∧ Rep this w' live pool' C' G' ∧
      ((w.local_cache.pool_instance = some this ∧ C ≠ [] ∧ C' = [] ∧ G' = C ++ G) ∨
        ((w.local_cache.pool_instance = none ∨ C = []) ∧ w' = w ∧ C' = C ∧ G' = G)) ∧
      pool'.allocate_count = pool.allocate_count ∧
      pool'.deallocated_count = pool.deallocated_count ∧ pool'.chunks = pool.chunks ∧
      w'.local_cache.pool_instance = w.local_cache.pool_instance ∧ w'.arrays = w.arrays := by
  rcases hinst with hnone | hsome
  · refine ⟨w, pool, C, G, ?_, hrep, Or.inr ⟨Or.inl hnone, rfl, rfl, rfl⟩, rfl, rfl, rfl, rfl, rfl⟩
    simp only [return_thread_cache, hnone]
  · by_cases hC : C = []
    · refine ⟨w, pool, C, G, ?_, hrep, Or.inr ⟨Or.inr hC, rfl, rfl, rfl⟩, rfl, rfl, rfl, rfl, rfl⟩
      simp only [return_thread_cache, hsome]
      rw [if_pos (by rw [hrep.count_eq, hC]; rfl)]
    · have hlen : 1 ≤ C.length := by
        cases C with
        | nil => exact absurd rfl hC
        | cons c r => simp
      obtain ⟨next1, tail, hl, hs0, hst, hchain⟩ := splice_spec this w live pool C G hrep
        C.length hlen (le_refl _) hcap
      rw [List.take_length] at hchain
      have heq : return_thread_cache w = some { w with
          next := upd next1 tail pool.free_list
          pools := (upd w.pools this (some { pool with free_list := C[0]? }))
          local_cache := { w.local_cache with count := 0 } } := by
        simp only [return_thread_cache, hsome]
        rw [if_neg (by rw [hrep.count_eq]; omega)]
        rw [hrep.count_eq]
        simp only [hl, hrep.pool_eq, hs0, hst]
      refine ⟨_, { pool with free_list := C[0]? }, [], C ++ G, heq, ?_,
        Or.inl ⟨hsome, hC, rfl, rfl⟩, rfl, rfl, rfl, rfl, rfl⟩
      refine ⟨by simp, hchain, ?_, rfl, ?_, hrep.nodup, hrep.fresh⟩
      · intro i hi; exact absurd hi (by simp)
      · simpa using hrep.perm

theorem construct_spec (B this : Nat) (hB : 0 < B) :
    ∃ w pool, construct B this World.init = some w ∧
      Rep this w [] pool [] (chunkBlocks ⟨0, B⟩) ∧ pool.allocate_count = 0 ∧
      pool.deallocated_count = 0 ∧ pool.chunks = [⟨0, B⟩] ∧
      w.local_cache.pool_instance = none ∧ w.local_cache.count = 0 ∧ w.arrays = 1 := by
  obtain ⟨w', he, hp, hch, hlc, har, _⟩ := allocate_new_chunk_spec B this
    ⟨fun _ => none, 0, ⟨fun _ => none, 0, none⟩, upd (fun _ => none) this (some ⟨none, [], 0, 0⟩)⟩
    ⟨none, [], 0, 0⟩ [] hB (by simp) (by simp [IsChain, IsSeg]) (fun b hb => absurd hb (by simp))
  dsimp only at hp hch hlc har
  simp only [List.append_nil] at hch
  refine ⟨w', ⟨some (0, 0), [⟨0, B⟩], 0, 0⟩, he, ⟨by rw [hp]; simp, hch, ?_, ?_, ?_, ?_, ?_⟩,
    rfl, rfl, rfl, ?_, ?_, ?_⟩
  · intro i hi; exact absurd hi (by simp)
  · rw [hlc]; rfl
  · simp [allBlocks]
  · simpa [allBlocks] using chunkBlocks_nodup ⟨0, B⟩
  · intro b hb
    rw [har]
    simp only [allBlocks, List.map_cons, List.map_nil, List.flatten_cons, List.flatten_nil,
      List.append_nil] at hb
    have := (mem_chunkBlocks.mp hb).1
    simp only at this
    omega
  · rw [hlc]
  · rw [hlc]
  · rw [har]

theorem length_removeBlock {p : Block} {l : List Block} (h : p ∈ l) :
    (removeBlock p l).length + 1 = l.length := by
  have := (perm_cons_removeBlock h).length_eq
  simp only [List.length_cons] at this
  omega

theorem start_inv (B this : Nat) (hB : 0 < B) :
    ∃ s pool C G, start B this = some s ∧ Inv this s pool C G ∧
      s.live = [] ∧ s.returned = [] := by
  obtain ⟨w, pool, he, hrep, hac, hdc, _, hin, _, _⟩ := construct_spec B this hB
  refine ⟨⟨w, [], []⟩, pool, [], _, ?_, ⟨hrep, by simp, Or.inl hin, ?_, le_refl _, ?_, ?_⟩,
    rfl, rfl⟩
  · simp only [start, he]
  · intro r hr; exact absurd hr (by simp)
  · rw [hac]; rfl
  · rw [hdc]; rfl

theorem step_inv (B this : Nat) (hB : 0 < B) (s : Run) (pool : Pool) (C G : List Block)
    (hinv : Inv this s pool C G) (op : Op) (hop : opValid s op = true) :
    ∃ s' pool' C' G', step B this s op = some s' ∧ Inv this s' pool' C' G' ∧
      (pool'.chunks = pool.chunks ∨
        (op = Op.allocate ∧ C = [] ∧ G = [] ∧
          pool'.chunks = ⟨s.world.arrays, B⟩ :: pool.chunks)) ∧
      (op = Op.allocate → ∃ b, s'.live = b :: s.live ∧ s'.returned = some b :: s.returned) ∧
      (∀ p, op = Op.deallocate (some p) →
        s'.live = removeBlock p s.live ∧ s'.returned = s.returned) := by
  cases op with
  | allocate =>
    obtain ⟨w', b, pool', C', G', he, hrep, hac, hdc, hor, _, hin⟩ :=
      allocate_spec B this s.world s.live pool C G hB (by have := hinv.count_le; omega) hinv.rep
    refine ⟨⟨w', b :: s.live, some b :: s.returned⟩, pool', C', G', ?_,
      ⟨hrep, ?_, ?_, ?_, ?_, ?_, ?_⟩, ?_, fun _ => ⟨b, rfl, rfl⟩, fun p hp => by cases hp⟩
    rotate_right
    · rcases hor with ⟨_, _, _, h⟩ | ⟨h1, _, ⟨_, h⟩ | ⟨h2, h⟩⟩
      · exact Or.inl h
      · exact Or.inl h
      · exact Or.inr ⟨rfl, h1, h2, h⟩
    · simp only [step, he]
    · rcases hor with ⟨_, h2, _, _⟩ | ⟨_, h2⟩
      · have := hinv.count_le
        rw [h2] at this
        simp only [List.length_append, List.length_singleton] at this
        omega
      · omega
    · rcases hin with h | h
      · rw [h]; exact hinv.inst
      · exact Or.inr h
    · intro r hr
      rcases List.mem_cons.mp hr with h | h
      · rw [h]; simp
      · exact hinv.returned_some r h
    · simp only [List.length_cons]
      have := hinv.live_le
      omega
    · rw [hac, hinv.alloc_eq]
      simp only [List.length_cons]
      rw [Nat.mod_add_mod]
    · rw [hdc, hinv.dealloc_eq]
      simp only [List.length_cons]
      rw [Nat.add_sub_add_right]
  | deallocate ptr =>
    cases ptr with
    | none =>
      exact ⟨s, pool, C, G, by simp only [step, deallocate], hinv, Or.inl rfl,
        fun h => (by cases h), fun p hp => (by cases hp)⟩
    | some p =>
      have hp : p ∈ s.live := by simpa [opValid] using hop
      obtain ⟨w', pool', C', G', he, hrep, hor, hac, hdc, hch, hin, _⟩ :=
        deallocate_spec this s.world s.live pool C G p hinv.rep
          (by have := hinv.count_le; omega) hp
      have hlen := length_removeBlock hp
      have hle := hinv.live_le
      refine ⟨{ s with world := w', live := removeBlock p s.live }, pool', C' ++ [p], G', ?_,
        ⟨hrep, ?_, Or.inr hin, hinv.returned_some, ?_, ?_, ?_⟩, Or.inl hch,
        fun h => (by cases h), fun q hq => (by cases hq; exact ⟨rfl, rfl⟩)⟩
      · simp only [step, he]
      · simp only [List.length_append, List.length_singleton]
        have := hinv.count_le
        rcases hor with ⟨h1, h2, _⟩ | ⟨h1, h2, _⟩
        · rw [h2]; omega
        · rw [h2, List.length_drop]; omega
      · show (removeBlock p s.live).length ≤ s.returned.length
        omega
      · rw [hac]; exact hinv.alloc_eq
      · show pool'.deallocated_count
          = (s.returned.length - (removeBlock p s.live).length) % SIZE_T_RANGE
        rw [hdc, hinv.dealloc_eq, Nat.mod_add_mod]
        congr 1
        omega
  | return_thread_cache =>
    obtain ⟨w', pool', C', G', he, hrep, hor, hac, hdc, hch, hin, _⟩ :=
      return_thread_cache_spec this s.world s.live pool C G hinv.rep
        (by have := hinv.count_le; omega) hinv.inst
    refine ⟨{ s with world := w' }, pool', C', G', ?_,
      ⟨hrep, ?_, ?_, hinv.returned_some, hinv.live_le, ?_, ?_⟩, Or.inl hch,
      fun h => (by cases h), fun p hp => (by cases hp)⟩
    · simp only [step, he]
    · rcases hor with ⟨_, _, h, _⟩ | ⟨_, _, h, _⟩
      · rw [h]; simp
      · rw [h]; exact hinv.count_le
    · show w'.local_cache.pool_instance = none ∨ w'.local_cache.pool_instance = some this
      rw [hin]; exact hinv.inst
    · rw [hac]; exact hinv.alloc_eq
    · rw [hdc]; exact hinv.dealloc_eq

theorem runOps_inv (B this : Nat) (hB : 0 < B) :
    ∀ (ops : List Op) (s : Run) (pool : Pool) (C G : List Block), Inv this s pool C G →
      validOps B this s ops = true →
      ∃ s' pool' C' G', runOps B this s ops = some s' ∧ Inv this s' pool' C' G' := by
  intro ops
  induction ops with
  | nil => intro s pool C G hinv _; exact ⟨s, pool, C, G, rfl, hinv⟩
  | cons op ops ih =>
    intro s pool C G hinv hv
    simp only [validOps, Bool.and_eq_true] at hv
    obtain ⟨s1, pool1, C1, G1, he, hinv1, -⟩ := step_inv B this hB s pool C G hinv op hv.1
    have hv2 := hv.2
    rw [he] at hv2
    obtain ⟨s2, pool2, C2, G2, he2, hinv2⟩ := ih s1 pool1 C1 G1 hinv1 hv2
    exact ⟨s2, pool2, C2, G2, by simp only [runOps, he]; exact he2, hinv2⟩

theorem run_inv (B this : Nat) (hB : 0 < B) (ops : List Op) (hv : valid B this ops = true) :
    ∃ s pool C G, run B this ops = some s ∧ Inv this s pool C G := by
  obtain ⟨s0, pool0, C0, G0, he, hinv, _, _⟩ := start_inv B this hB
  simp only [valid, he] at hv
  obtain ⟨s, pool, C, G, hr, hinv'⟩ := runOps_inv B this hB ops s0 pool0 C0 G0 hinv hv
  exact ⟨s, pool, C, G, by simp only [run, he]; exact hr, hinv'⟩

theorem cacheBlocks_eq {c : ThreadCache} {C : List Block} (hH : Holds c.blocks C)
    (hc : c.count = (C.length : Int)) : cacheBlocks c = C.map some := by
  unfold cacheBlocks
  rw [hc]
  simp only [Int.toNat_ofNat]
  apply List.ext_getElem?
  intro i
  rcases Nat.lt_or_ge i C.length with h | h
  · simp only [List.getElem?_map, List.getElem?_range h, Option.map_some']
    rw [hH i h, List.getElem?_eq_getElem h]
    rfl
  · rw [List.getElem?_eq_none (by simpa using h), List.getElem?_eq_none (by simpa using h)]

theorem Inv.partition {this : Nat} {s : Run} {pool : Pool} {C G : List Block}
    (h : Inv this s pool C G) : Partition this s := by
  refine ⟨pool, C, G, h.rep.pool_eq, cacheBlocks_eq h.rep.holds h.rep.count_eq, h.rep.chain, ?_, ?_⟩
  · rw [List.append_assoc]; exact h.rep.nodup_all
  · intro b
    rw [← h.rep.perm.mem_iff]
    simp only [List.mem_append]

theorem size_t_sub_zero_one : size_t_sub 0 1 = (SIZE_T_RANGE - 2) + 1 := by decide

theorem forLoop_succ_none {σ : Type} (body : Nat → σ → Option σ) (n i : Nat) (s : σ)
    (h : body i s = none) : forLoop body (n + 1) i s = none := by
  simp only [forLoop, h]

theorem allocate_new_chunk_zero (this : Nat) (w : World) : allocate_new_chunk 0 this w = none := by
  unfold allocate_new_chunk
  cases w.pools this with
  | none => rfl
  | some pool =>
    simp only []
    rw [size_t_sub_zero_one, forLoop_succ_none _ _ _ _ (by simp)]

theorem start_zero (this : Nat) : start 0 this = none := by
  simp only [start, construct, allocate_new_chunk_zero]

theorem run_zero (this : Nat) (ops : List Op) : run 0 this ops = none := by
  simp only [run, start_zero]

/-- Claim C1.  Fixed-size pool partition invariant: in a single-threaded run on one pool in
which `deallocate` only receives the null pointer or pointers currently handed out, after the
construction and after every call of `allocate`, `deallocate`, `return_thread_cache`, each
block of each chunk of the pool is in exactly one of the cache (cells below `count`), the free
list and the handed-out blocks, and none occurs twice; the run is defined when
`BLOCK_PER_CHUNK ≥ 1`, and has no defined state (the constructor indexes an empty array)
when `BLOCK_PER_CHUNK = 0`. -/
theorem fixed_pool_partition (B this : Nat) (ops : List Op) (hv : valid B this ops = true) :
    (0 < B → ∃ s, run B this ops = some s ∧ Partition this s) ∧
    (B = 0 → run B this ops = none) := by
  constructor
  · intro hB
    obtain ⟨s, pool, C, G, hr, hinv⟩ := run_inv B this hB ops hv
    exact ⟨s, hr, hinv.partition⟩
  · intro h0
    subst h0
    exact run_zero this ops

theorem fixed_pool_partition_witness :
    valid 2 0 [Op.allocate, Op.allocate, Op.allocate, Op.deallocate (some (0, 1)),
        Op.return_thread_cache] = true ∧
      ((0 < 2 → ∃ s, run 2 0 [Op.allocate, Op.allocate, Op.allocate,
          Op.deallocate (some (0, 1)), Op.return_thread_cache] = some s ∧ Partition 0 s) ∧
        (2 = 0 → run 2 0 [Op.allocate, Op.allocate, Op.allocate,
          Op.deallocate (some (0, 1)), Op.return_thread_cache] = none)) :=
  ⟨by decide, fixed_pool_partition 2 0 _ (by decide)⟩

theorem runOps_append (B this : Nat) :
    ∀ (a b : List Op) (s : Run),
      runOps B this s (a ++ b) =
        match runOps B this s a with
        | none => none
        | some s' => runOps B this s' b := by
  intro a
  induction a with
  | nil => intro b s; rfl
  | cons op a ih =>
    intro b s
    simp only [List.cons_append, runOps]
    cases step B this s op with
    | none => rfl
    | some s1 => exact ih b s1

theorem validOps_append (B this : Nat) :
    ∀ (a b : List Op) (s : Run),
      validOps B this s (a ++ b) =
        (validOps B this s a &&
          match runOps B this s a with
          | none => true
          | some s' => validOps B this s' b) := by
  intro a
  induction a with
  | nil => intro b s; simp [validOps, runOps]
  | cons op a ih =>
    intro b s
    show validOps B this s (op :: (a ++ b)) = _
    simp only [validOps, runOps]
    cases step B this s op with
    | none => simp
    | some s1 => simp only [ih b s1, Bool.and_assoc]

/-- Claim C8.  LIFO reuse: in every state reached by a valid single-threaded run, for every
pointer `p` currently handed out, `deallocate(p)` is defined and the `allocate` that follows
it returns `p`. -/
theorem fixed_pool_lifo (B this : Nat) (ops : List Op) (hB : 0 < B)
    (hv : valid B this ops = true) :
    ∃ s, run B this ops = some s ∧
      ∀ p, p ∈ s.live → ∃ w1 w2, deallocate this s.world (some p) = some w1 ∧
        allocate B this w1 = some (w2, some p) := by
  obtain ⟨s, pool, C, G, hr, hinv⟩ := run_inv B this hB ops hv
  refine ⟨s, hr, ?_⟩
  intro p hp
  obtain ⟨w1, pool1, C1, G1, hd, hrep1, hor, -⟩ :=
    deallocate_spec this s.world s.live pool C G p hinv.rep (by have := hinv.count_le; omega) hp
  have hlen : (C1 ++ [p]).length ≤ 32 := by
    have := hinv.count_le
    simp only [List.length_append, List.length_singleton]
    rcases hor with ⟨h1, h2, _⟩ | ⟨h1, h2, _⟩
    · rw [h2]; omega
    · rw [h2, List.length_drop]; omega
  obtain ⟨w2, b, pool2, C2, G2, ha, _, _, _, hor2, -⟩ :=
    allocate_spec B this w1 (removeBlock p s.live) pool1 (C1 ++ [p]) G1 hB hlen hrep1
  rcases hor2 with ⟨_, h2, _⟩ | ⟨h1, _⟩
  · have hb : [p] = [b] := List.append_inj_right' h2 rfl
    have hb' : p = b := by simpa using hb
    subst hb'
    exact ⟨w1, w2, hd, ha⟩
  · exact absurd h1 (by simp)

theorem fixed_pool_lifo_witness :
    0 < 2 ∧ valid 2 0 [Op.allocate, Op.allocate, Op.allocate] = true ∧
      ∃ s, run 2 0 [Op.allocate, Op.allocate, Op.allocate] = some s ∧
        ∀ p, p ∈ s.live → ∃ w1 w2, deallocate 0 s.world (some p) = some w1 ∧
          allocate 2 0 w1 = some (w2, some p) :=
  ⟨by decide, by decide, fixed_pool_lifo 2 0 _ (by decide) (by decide)⟩

/-- Claim C10.  With `BLOCK_PER_CHUNK ≥ 1` (and the system allocation of chunks succeeding, as
in the whole model), after every valid single-threaded sequence of calls the next call of
`allocate` is defined and returns a non-null pointer. -/
theorem fixed_pool_allocate_nonnull (B this : Nat) (ops : List Op) (hB : 0 < B)
    (hv : valid B this ops = true) :
    ∃ s w' b, run B this ops = some s ∧ allocate B this s.world = some (w', some b) := by
  obtain ⟨s, pool, C, G, hr, hinv⟩ := run_inv B this hB ops hv
  obtain ⟨w', b, pool', C', G', he, -⟩ :=
    allocate_spec B this s.world s.live pool C G hB (by have := hinv.count_le; omega) hinv.rep
  exact ⟨s, w', b, hr, he⟩

theorem fixed_pool_allocate_nonnull_witness :
    0 < 1 ∧ valid 1 0 [Op.allocate, Op.deallocate (some (0, 0)), Op.allocate, Op.allocate] = true ∧
      ∃ s w' b, run 1 0 [Op.allocate, Op.deallocate (some (0, 0)), Op.allocate, Op.allocate]
        = some s ∧ allocate 1 0 s.world = some (w', some b) :=
  ⟨by decide, by decide, fixed_pool_allocate_nonnull 1 0 _ (by decide) (by decide)⟩

theorem step_returned_length (B this : Nat) (s s' : Run) (op : Op)
    (h : step B this s op = some s') :
    s'.returned.length = s.returned.length + allocations [op] := by
  cases op with
  | allocate =>
    simp only [step] at h
    cases ha : allocate B this s.world with
    | none => rw [ha] at h; cases h
    | some r =>
      obtain ⟨w, b⟩ := r
      rw [ha] at h
      cases b with
      | none => simp only [Option.some.injEq] at h; rw [← h]; rfl
      | some b => simp only [Option.some.injEq] at h; rw [← h]; rfl
  | deallocate p =>
    cases p with
    | none =>
      simp only [step] at h
      cases hd : deallocate this s.world none with
      | none => rw [hd] at h; cases h
      | some w => rw [hd] at h; simp only [Option.some.injEq] at h; rw [← h]; rfl
    | some p =>
      simp only [step] at h
      cases hd : deallocate this s.world (some p) with
      | none => rw [hd] at h; cases h
      | some w => rw [hd] at h; simp only [Option.some.injEq] at h; rw [← h]; rfl
  | return_thread_cache =>
    simp only [step] at h
    cases hd : return_thread_cache s.world with
    | none => rw [hd] at h; cases h
    | some w => rw [hd] at h; simp only [Option.some.injEq] at h; rw [← h]; rfl

theorem allocations_cons (op : Op) (ops : List Op) :
    allocations (op :: ops) = allocations [op] + allocations ops := by
  cases op with
  | allocate => simp only [allocations]; omega
  | deallocate p => simp only [allocations]; omega
  | return_thread_cache => simp only [allocations]; omega

theorem runOps_returned_length (B this : Nat) :
    ∀ (ops : List Op) (s s' : Run), runOps B this s ops = some s' →
      s'.returned.length = s.returned.length + allocations ops := by
  intro ops
  induction ops with
  | nil => intro s s' h; simp only [runOps, Option.some.injEq] at h; rw [← h]; rfl
  | cons op ops ih =>
    intro s s' h
    simp only [runOps] at h
    cases hs : step B this s op with
    | none => rw [hs] at h; cases h
    | some s1 =>
      rw [hs] at h
      rw [ih s1 s' h, step_returned_length B this s s1 op hs, allocations_cons op ops]
      omega

theorem run_returned_length (B this : Nat) (ops : List Op) (s : Run)
    (h : run B this ops = some s) : s.returned.length = allocations ops := by
  simp only [run] at h
  cases hs : start B this with
  | none => rw [hs] at h; cases h
  | some s0 =>
    rw [hs] at h
    have h0 : s0.returned = [] := by
      simp only [start] at hs
      cases hc : construct B this World.init with
      | none => rw [hc] at hs; cases hs
      | some w => rw [hc] at hs; simp only [Option.some.injEq] at hs; rw [← hs]
    rw [runOps_returned_length B this ops s0 s h, h0]
    simp

theorem size_t_sub_mod (R L : Nat) (h : L ≤ R) :
    size_t_sub (R % SIZE_T_RANGE) ((R - L) % SIZE_T_RANGE) = L % SIZE_T_RANGE := by
  unfold size_t_sub SIZE_T_RANGE
  split <;> omega

theorem Inv.active {this : Nat} {s : Run} {pool : Pool} {C G : List Block}
    (h : Inv this s pool C G) : get_active_objects pool = s.live.length % SIZE_T_RANGE := by
  unfold get_active_objects get_allocated_count get_deallocated_count
  rw [h.alloc_eq, h.dealloc_eq]
  exact size_t_sub_mod _ _ h.live_le

theorem allBlocks_single : allBlocks [⟨0, 1⟩] = [(0, 0)] := by decide

theorem churn_succ (k : Nat) :
    churn (k + 1) = Op.allocate :: Op.deallocate (some (0, 0)) :: churn k := by
  simp [churn, List.replicate_succ]

theorem allocations_churn (k : Nat) : allocations (churn k) = k := by
  induction k with
  | zero => rfl
  | succ k ih => rw [churn_succ]; simp only [allocations, ih]

theorem churn_inv :
    ∀ (k : Nat) (s : Run) (pool : Pool) (C G : List Block), Inv 0 s pool C G → s.live = [] →
      pool.chunks = [⟨0, 1⟩] →
      ∃ s' pool' C' G', runOps 1 0 s (churn k) = some s' ∧ validOps 1 0 s (churn k) = true ∧
        Inv 0 s' pool' C' G' ∧ s'.live = [] ∧ pool'.chunks = [⟨0, 1⟩] := by
  intro k
  induction k with
  | zero => intro s pool C G hinv hl hc; exact ⟨s, pool, C, G, rfl, rfl, hinv, hl, hc⟩
  | succ k ih =>
    intro s pool C G hinv hl hc
    obtain ⟨s1, pool1, C1, G1, hs1, hinv1, hch1, hal1, -⟩ :=
      step_inv 1 0 (by decide) s pool C G hinv Op.allocate rfl
    obtain ⟨b, hl1, -⟩ := hal1 rfl
    have hc1 : pool1.chunks = [⟨0, 1⟩] := by
      rcases hch1 with h | ⟨_, hC, hG, _⟩
      · rw [h, hc]
      · have := hinv.rep.perm.length_eq
        rw [hC, hG, hl, hc, allBlocks_single] at this
        cases this
    have hb : b = (0, 0) := by
      have hmem : b ∈ C1 ++ (G1 ++ s1.live) := by
        rw [hl1]; simp
      rw [hinv1.rep.perm.mem_iff, hc1, allBlocks_single] at hmem
      simpa using hmem
    subst hb
    rw [hl] at hl1
    have hvalid : opValid s1 (Op.deallocate (some (0, 0))) = true := by
      simp only [opValid, hl1]; decide
    obtain ⟨s2, pool2, C2, G2, hs2, hinv2, hch2, -, hde2⟩ :=
      step_inv 1 0 (by decide) s1 pool1 C1 G1 hinv1 (Op.deallocate (some (0, 0))) hvalid
    have hc2 : pool2.chunks = [⟨0, 1⟩] := by
      rcases hch2 with h | ⟨h, _⟩
      · rw [h, hc1]
      · cases h
    have hl2 : s2.live = [] := by
      rw [(hde2 (0, 0) rfl).1, hl1]; rfl
    obtain ⟨s3, pool3, C3, G3, hr, hv, hinv3, hl3, hc3⟩ := ih s2 pool2 C2 G2 hinv2 hl2 hc2
    refine ⟨s3, pool3, C3, G3, ?_, ?_, hinv3, hl3, hc3⟩
    · rw [churn_succ]
      simp only [runOps, hs1, hs2]
      exact hr
    · rw [churn_succ]
      simp only [validOps, hs1, hs2, hv, opValid, hl1]
      decide

/-- Claim C9, as stated, fails: after `2^64 - 1` rounds `allocate(); deallocate(p);` and one
more `allocate()`, a valid single-threaded run in which every `allocate` succeeds,
`allocate_count` has wrapped to `0` while `deallocated_count` is `2^64 - 1`, so
`get_deallocated_count() <= get_allocated_count()` does not hold (one object is live). -/
theorem fixed_pool_counters_wrap :
    valid 1 0 wrapOps = true ∧
      ∃ s pool, run 1 0 wrapOps = some s ∧ s.world.pools 0 = some pool ∧
        s.live.length = 1 ∧ (∀ r, r ∈ s.returned → r ≠ none) ∧
        get_allocated_count pool = 0 ∧ get_deallocated_count pool = SIZE_T_RANGE - 1 ∧
        ¬ (get_deallocated_count pool ≤ get_allocated_count pool) := by
  obtain ⟨s0, pool0, C0, G0, he, hinv0, hl0, hr0⟩ := start_inv 1 0 (by decide)
  have hc0 : pool0.chunks = [⟨0, 1⟩] := by
    obtain ⟨w, pool, hcon, hrep, _, _, hch, -⟩ := construct_spec 1 0 (by decide)
    simp only [start, hcon, Option.some.injEq] at he
    have hp := hinv0.rep.pool_eq
    rw [← he] at hp
    rw [hrep.pool_eq, Option.some.injEq] at hp
    rw [← hp, hch]
  obtain ⟨s1, pool1, C1, G1, hr1, hv1, hinv1, hl1, hc1⟩ :=
    churn_inv (SIZE_T_RANGE - 1) s0 pool0 C0 G0 hinv0 hl0 hc0
  obtain ⟨s2, pool2, C2, G2, hs2, hinv2, -, hal2, -⟩ :=
    step_inv 1 0 (by decide) s1 pool1 C1 G1 hinv1 Op.allocate rfl
  obtain ⟨b, hl2, -⟩ := hal2 rfl
  have hrun : run 1 0 wrapOps = some s2 := by
    unfold run
    rw [he]
    show runOps 1 0 s0 (churn (SIZE_T_RANGE - 1) ++ [Op.allocate]) = some s2
    rw [runOps_append, hr1]
    show runOps 1 0 s1 [Op.allocate] = some s2
    simp only [runOps, hs2]
  have hlen := run_returned_length 1 0 wrapOps s2 hrun
  have hcount : allocations wrapOps = SIZE_T_RANGE := by
    have : ∀ k, allocations (churn k ++ [Op.allocate]) = k + 1 := by
      intro k
      induction k with
      | zero => rfl
      | succ k ih =>
        rw [churn_succ]
        show allocations (Op.allocate :: Op.deallocate (some (0, 0)) ::
          (churn k ++ [Op.allocate])) = _
        simp only [allocations, ih]
    rw [wrapOps, this]
    decide
  have hlive : s2.live.length = 1 := by rw [hl2, hl1]; rfl
  have ha : pool2.allocate_count = 0 := by
    rw [hinv2.alloc_eq, hlen, hcount]; exact Nat.mod_self _
  have hd : pool2.deallocated_count = SIZE_T_RANGE - 1 := by
    rw [hinv2.dealloc_eq, hlen, hcount, hlive]; decide
  refine ⟨?_, s2, pool2, hrun, hinv2.rep.pool_eq, hlive, hinv2.returned_some, ha, hd, ?_⟩
  · unfold valid
    rw [he]
    show validOps 1 0 s0 (churn (SIZE_T_RANGE - 1) ++ [Op.allocate]) = true
    rw [validOps_append, hv1, hr1]
    show (true && validOps 1 0 s1 [Op.allocate]) = true
    simp only [validOps, opValid, hs2, Bool.and_self]
  · simp only [get_deallocated_count, get_allocated_count, ha, hd]
    decide

/-- Claim C9, amended.  In a valid single-threaded run of a pool with `BLOCK_PER_CHUNK ≥ 1` that
makes fewer than `2^64` calls of `allocate` (all of which succeed), after every call
`get_deallocated_count() <= get_allocated_count()`, and `get_active_objects()`, the unsigned
difference of the two, is their difference without wrap-around and equals the number of
blocks handed out; an `allocate` followed by the `deallocate` of its result leaves
`get_active_objects()` unchanged, and `deallocate(nullptr)` changes nothing. -/
theorem fixed_pool_counters (B this : Nat) (ops : List Op) (hB : 0 < B)
    (hv : valid B this ops = true) (hlen : allocations ops < SIZE_T_RANGE) :
    ∃ s pool, run B this ops = some s ∧ s.world.pools this = some pool ∧
      get_deallocated_count pool ≤ get_allocated_count pool ∧
      get_active_objects pool = get_allocated_count pool - get_deallocated_count pool ∧
      get_active_objects pool = s.live.length ∧
      (∃ w1 p w2 pool2, allocate B this s.world = some (w1, some p) ∧
        deallocate this w1 (some p) = some w2 ∧ w2.pools this = some pool2 ∧
        get_active_objects pool2 = get_active_objects pool) ∧
      deallocate this s.world none = some s.world := by
  obtain ⟨s, pool, C, G, hr, hinv⟩ := run_inv B this hB ops hv
  have hR := run_returned_length B this ops s hr
  have hL := hinv.live_le
  have hRlt : s.returned.length < SIZE_T_RANGE := by rw [hR]; exact hlen
  have ha : pool.allocate_count = s.returned.length := by
    rw [hinv.alloc_eq]; exact Nat.mod_eq_of_lt hRlt
  have hd : pool.deallocated_count = s.returned.length - s.live.length := by
    rw [hinv.dealloc_eq]; exact Nat.mod_eq_of_lt (by omega)
  have hact : get_active_objects pool = s.live.length := by
    rw [hinv.active]; exact Nat.mod_eq_of_lt (by omega)
  refine ⟨s, pool, hr, hinv.rep.pool_eq, ?_, ?_, hact, ?_, rfl⟩
  · simp only [get_deallocated_count, get_allocated_count, ha, hd]; omega
  · rw [hact]; simp only [get_deallocated_count, get_allocated_count, ha, hd]; omega
  · obtain ⟨w1, b, pool1, C1', G1', hal, -⟩ :=
      allocate_spec B this s.world s.live pool C G hB (by have := hinv.count_le; omega) hinv.rep
    obtain ⟨s1, pool1, C1, G1, hs1, hinv1, -, hal1, -⟩ :=
      step_inv B this hB s pool C G hinv Op.allocate rfl
    simp only [step, hal, Option.some.injEq] at hs1
    have hl1 : s1.live = b :: s.live := by rw [← hs1]
    have hw1 : s1.world = w1 := by rw [← hs1]
    have hvalid : opValid s1 (Op.deallocate (some b)) = true := by
      simp only [opValid, hl1]; simp
    obtain ⟨s2, pool2, C2, G2, hs2, hinv2, -, -, hde2⟩ :=
      step_inv B this hB s1 pool1 C1 G1 hinv1 (Op.deallocate (some b)) hvalid
    have hl2 : s2.live = s.live := by
      rw [(hde2 b rfl).1, hl1]; simp [removeBlock]
    cases hdw : deallocate this s1.world (some b) with
    | none => simp only [step, hdw] at hs2; cases hs2
    | some w2 =>
      simp only [step, hdw, Option.some.injEq] at hs2
      have hw2 : s2.world = w2 := by rw [← hs2]
      refine ⟨w1, b, w2, pool2, hal, by rw [← hw1]; exact hdw, by rw [← hw2]; exact hinv2.rep.pool_eq, ?_⟩
      rw [hinv2.active, hinv.active, hl2]

theorem fixed_pool_counters_witness :
    0 < 2 ∧ valid 2 0 [Op.allocate, Op.allocate, Op.deallocate (some (0, 1))] = true ∧
      allocations [Op.allocate, Op.allocate, Op.deallocate (some (0, 1))] < SIZE_T_RANGE ∧
      ∃ s pool, run 2 0 [Op.allocate, Op.allocate, Op.deallocate (some (0, 1))] = some s ∧
        s.world.pools 0 = some pool ∧
        get_deallocated_count pool ≤ get_allocated_count pool ∧
        get_active_objects pool = get_allocated_count pool - get_deallocated_count pool ∧
        get_active_objects pool = s.live.length ∧
        (∃ w1 p w2 pool2, allocate 2 0 s.world = some (w1, some p) ∧
          deallocate 0 w1 (some p) = some w2 ∧ w2.pools 0 = some pool2 ∧
          get_active_objects pool2 = get_active_objects pool) ∧
        deallocate 0 s.world none = some s.world :=
  ⟨by decide, by decide, by decide,
    fixed_pool_counters 2 0 _ (by decide) (by decide) (by decide)⟩

end Fixed

namespace Multi

theorem class_facts : ∀ i, i < 16 →
    16 ≤ total_block_size (sizeClass i) ∧ 1 ≤ block_count (sizeClass i) ∧
    total_block_size (sizeClass i) * block_count (sizeClass i) ≤ 65536 ∧
    total_block_size (sizeClass i) % 16 = 0 ∧
    16 + sizeClass i ≤ total_block_size (sizeClass i) := by
  decide

theorem sizeClass_inj : ∀ i, i < 16 → ∀ j, j < 16 → sizeClass i = sizeClass j → i = j := by
  decide

theorem chunk_blocks_get (index chunk i : Nat) (h : i < block_count (sizeClass index)) :
    (chunk_blocks index chunk)[i]? = some (chunk, i * total_block_size (sizeClass index)) := by
  simp [chunk_blocks, List.getElem?_range h]

theorem chunk_blocks_length (index chunk : Nat) :
    (chunk_blocks index chunk).length = block_count (sizeClass index) := by
  simp [chunk_blocks]

theorem mem_chunk_blocks {index chunk : Nat} {b : Block} :
    b ∈ chunk_blocks index chunk ↔
      b.1 = chunk ∧ ∃ j, j < block_count (sizeClass index) ∧
        b.2 = j * total_block_size (sizeClass index) := by
  unfold chunk_blocks
  simp only [List.mem_map, List.mem_range]
  constructor
  · rintro ⟨j, hj, rfl⟩; exact ⟨rfl, j, hj, rfl⟩
  · rintro ⟨h1, j, hj, h2⟩; exact ⟨j, hj, by rw [← h1, ← h2]⟩

theorem chunk_blocks_nodup (index chunk : Nat) (hi : index < 16) :
    (chunk_blocks index chunk).Nodup := by
  unfold chunk_blocks
  refine List.Nodup.map ?_ (List.nodup_range _)
  intro a b h
  have h2 := (Prod.mk.inj h).2
  have hS := (class_facts index hi).1
  exact Nat.eq_of_mul_eq_mul_right (by omega) h2

/-- The loop of `allocate_chunk_for_size_class`: the blocks of the new chunk are pushed one by
one in front of the free list, the last one first in the final chain. -/
theorem carve_loop_spec (index chunk : Nat) (hi : index < 16) (next : NextMap)
    (size : Block → Nat) (head : BlockPtr) (G : List Block) (hG : IsChain next head G)
    (hfresh : ∀ b, b ∈ G → b.1 ≠ chunk) :
    ∃ st : Carve, forLoop (fun i (st : Carve) =>
        if i * total_block_size (sizeClass index) + SIZEOF_FREEBLOCK ≤
            (total_block_size (sizeClass index) * block_count (sizeClass index)) % SIZE_T_RANGE then
          some { next := upd st.next (chunk, i * total_block_size (sizeClass index)) st.free_list
                 size := upd st.size (chunk, i * total_block_size (sizeClass index))
                   (sizeClass index)
                 free_list := some (chunk, i * total_block_size (sizeClass index)) }
        else none) (block_count (sizeClass index)) 0
        { next := next, size := size, free_list := head } = some st ∧
      IsChain st.next st.free_list ((chunk_blocks index chunk).reverse ++ G) ∧
      (∀ b : Block, b.1 ≠ chunk → st.next b = next b) ∧
      (∀ b : Block, b.1 ≠ chunk → st.size b = size b) ∧
      (∀ b, b ∈ chunk_blocks index chunk → st.size b = sizeClass index) := by
  obtain ⟨hS, hN, hSN, _, _⟩ := class_facts index hi
  have hmod : (total_block_size (sizeClass index) * block_count (sizeClass index)) % SIZE_T_RANGE
      = total_block_size (sizeClass index) * block_count (sizeClass index) := by
    apply Nat.mod_eq_of_lt
    have : (65536 : Nat) < SIZE_T_RANGE := by decide
    omega
  rw [hmod]
  have hnd := chunk_blocks_nodup index chunk hi
  have := forLoop_induct (fun i (st : Carve) =>
        if i * total_block_size (sizeClass index) + SIZEOF_FREEBLOCK ≤
            total_block_size (sizeClass index) * block_count (sizeClass index) then
          some { next := upd st.next (chunk, i * total_block_size (sizeClass index)) st.free_list
                 size := upd st.size (chunk, i * total_block_size (sizeClass index))
                   (sizeClass index)
                 free_list := some (chunk, i * total_block_size (sizeClass index)) }
        else none)
    (fun i (st : Carve) =>
      IsChain st.next st.free_list (((chunk_blocks index chunk).take i).reverse ++ G) ∧
      (∀ b : Block, b.1 ≠ chunk → st.next b = next b) ∧
      (∀ b : Block, b.1 ≠ chunk → st.size b = size b) ∧
      (∀ b, b ∈ (chunk_blocks index chunk).take i → st.size b = sizeClass index))
    (block_count (sizeClass index)) 0 { next := next, size := size, free_list := head }
    ⟨by simpa using hG, fun _ _ => rfl, fun _ _ => rfl, fun b hb => absurd hb (by simp)⟩ ?_
  · obtain ⟨st, he, h1, h2, h3, h4⟩ := this
    simp only [Nat.zero_add] at h1 h4
    rw [← chunk_blocks_length index chunk, List.take_length] at h1 h4
    exact ⟨st, he, h1, h2, h3, h4⟩
  · intro i st _ hiN ⟨h1, h2, h3, h4⟩
    simp only [Nat.zero_add] at hiN
    have hget := chunk_blocks_get index chunk i hiN
    have hbound : i * total_block_size (sizeClass index) + SIZEOF_FREEBLOCK ≤
        total_block_size (sizeClass index) * block_count (sizeClass index) := by
      have h5 : (i + 1) * total_block_size (sizeClass index) ≤
          block_count (sizeClass index) * total_block_size (sizeClass index) :=
        Nat.mul_le_mul_right _ hiN
      rw [Nat.add_mul, Nat.one_mul] at h5
      rw [Nat.mul_comm (total_block_size (sizeClass index))]
      simp only [SIZEOF_FREEBLOCK]
      omega
    refine ⟨_, if_pos hbound, ?_, ?_, ?_, ?_⟩
    · rw [List.take_succ, hget]
      simp only [Option.toList, List.reverse_append, List.reverse_cons, List.reverse_nil,
        List.nil_append, List.singleton_append, List.cons_append]
      refine ⟨rfl, ?_⟩
      simp only [upd_same]
      refine IsSeg_congr _ _ _ ?_ h1
      intro b hb
      refine upd_ne _ _ _ _ ?_
      intro hbe
      rcases List.mem_append.mp hb with hb1 | hb1
      · exact not_mem_take_of_nodup hnd hget (hbe ▸ List.mem_reverse.mp hb1)
      · exact hfresh b hb1 (by rw [hbe])
    · intro b hb
      show upd st.next _ _ b = next b
      rw [upd_ne _ _ _ _ (fun h => hb (by rw [h]))]
      exact h2 b hb
    · intro b hb
      show upd st.size _ _ b = size b
      rw [upd_ne _ _ _ _ (fun h => hb (by rw [h]))]
      exact h3 b hb
    · intro b hb
      show upd st.size _ _ b = sizeClass index
      rw [List.take_succ, hget] at hb
      simp only [Option.toList, List.mem_append, List.mem_singleton] at hb
      rcases hb with hb | hb
      · by_cases hbe : b = (chunk, i * total_block_size (sizeClass index))
        · rw [hbe]; simp
        · rw [upd_ne _ _ _ _ hbe]; exact h4 b hb
      · rw [hb]; simp

theorem carved_congr {w w' : World} {pool pool' : Pool} (hs : w'.size = w.size)
    (hc : pool'.allocated_chunks = pool.allocated_chunks) (i : Nat) :
    carved w' pool' i = carved w pool i := by
  unfold carved; rw [hs, hc]

theorem zero_mem_chunk_blocks (index chunk : Nat) (hi : index < 16) :
    (chunk, 0) ∈ chunk_blocks index chunk := by
  rw [mem_chunk_blocks]
  exact ⟨rfl, 0, (class_facts index hi).2.1, by simp⟩

theorem carved_new_chunk {w w' : World} {pool pool' : Pool} {index : Nat} (hi : index < 16)
    (a : Nat) (hc : pool'.allocated_chunks = (w.arrays, a) :: pool.allocated_chunks)
    (hfresh : ∀ c, c ∈ pool.allocated_chunks → c.1 < w.arrays)
    (hold : ∀ b : Block, b.1 ≠ w.arrays → w'.size b = w.size b)
    (hnew : ∀ b, b ∈ chunk_blocks index w.arrays → w'.size b = sizeClass index)
    (j : Nat) (hj : j < 16) :
    carved w' pool' j =
      (if j = index then chunk_blocks index w.arrays else []) ++ carved w pool j := by
  unfold carved
  rw [hc, List.filter_cons]
  have h0 : w'.size (w.arrays, 0) = sizeClass index := hnew _ (zero_mem_chunk_blocks index _ hi)
  have htail : pool.allocated_chunks.filter (fun c => decide (w'.size (c.1, 0) = sizeClass j))
      = pool.allocated_chunks.filter (fun c => decide (w.size (c.1, 0) = sizeClass j)) := by
    apply List.filter_congr
    intro c hc'
    have := hfresh c hc'
    rw [hold (c.1, 0) (by simp only; omega)]
  rw [htail]
  by_cases hji : j = index
  · subst hji
    simp [h0]
  · have : ¬ (sizeClass index = sizeClass j) := fun h => hji (sizeClass_inj index hi j hj h).symm
    simp [h0, this, hji]

theorem MRep.block_fresh {this : Nat} {w : World} {live : Nat → List Block} {pool : Pool}
    {C G L : Nat → List Block} (h : MRep this w live pool C G L) {i : Nat} (hi : i < 16)
    {b : Block} (hb : b ∈ C i ++ (G i ++ L i)) : b.1 < w.arrays :=
  h.carved_fresh i hi b ((h.cls i hi).perm.mem_iff.mp hb)

theorem allocate_chunk_spec (this index : Nat) (w : World) (live : Nat → List Block)
    (pool : Pool) (C G L : Nat → List Block) (hi : index < 16)
    (h : MRep this w live pool C G L) :
    ∃ w' pool', allocate_chunk_for_size_class this index w = some w' ∧
      MRep this w' live pool' C
        (upd G index ((chunk_blocks index w.arrays).reverse ++ G index)) L ∧
      w'.thread_cache = w.thread_cache ∧ w'.system = w.system ∧
      w'.arrays = w.arrays + 1 ∧
      (∀ j, (pool'.chunk_classes j).allocated_count = (pool.chunk_classes j).allocated_count ∧
        (pool'.chunk_classes j).deallocated_count = (pool.chunk_classes j).deallocated_count) ∧
      pool'.allocated_chunks =
        (w.arrays, (total_block_size (sizeClass index) * block_count (sizeClass index))
          % SIZE_T_RANGE) :: pool.allocated_chunks := by
  have hGfresh : ∀ b, b ∈ G index → b.1 ≠ w.arrays := by
    intro b hb
    have := h.block_fresh hi (List.mem_append_right _ (List.mem_append_left _ hb))
    omega
  obtain ⟨st, hloop, hchain, hnext, hsize, hnew⟩ := carve_loop_spec index w.arrays hi w.next
    w.size (pool.chunk_classes index).free_list (G index) (h.cls index hi).chain hGfresh
  have hS := (class_facts index hi).1
  obtain ⟨pool', hpool'⟩ : ∃ p : Pool, p =
      { chunk_classes := upd pool.chunk_classes index
          ({ pool.chunk_classes index with free_list := st.free_list })
        allocated_chunks := (w.arrays,
          (total_block_size (sizeClass index) * block_count (sizeClass index))
            % SIZE_T_RANGE) :: pool.allocated_chunks } := ⟨_, rfl⟩
  obtain ⟨w', hw'⟩ : ∃ x : World, x =
      { w with
        next := st.next
        size := st.size
        arrays := w.arrays + 1
        pools := (upd w.pools this (some pool')) } := ⟨_, rfl⟩
  have heq : allocate_chunk_for_size_class this index w = some w' := by
    unfold allocate_chunk_for_size_class
    rw [if_neg (by simp only [SIZE_CALSSES, List.length]; omega)]
    simp only [sizeClass_get index hi, h.pool_eq]
    rw [if_neg (by omega), hloop, hw', hpool']
  have hcarved := fun j hj => @carved_new_chunk w w' pool pool' index
    hi _ (by rw [hpool']) h.chunks_fresh (by rw [hw']; exact hsize)
    (by rw [hw']; exact hnew) j hj
  have hwnext : w'.next = st.next := by rw [hw']
  have hwcache : w'.thread_cache = w.thread_cache := by rw [hw']
  have hwarr : w'.arrays = w.arrays + 1 := by rw [hw']
  have hwsys : w'.system = w.system := by rw [hw']
  have hwpool : w'.pools this = some pool' := by rw [hw']; simp
  have hcc : ∀ j, j ≠ index → pool'.chunk_classes j = pool.chunk_classes j := by
    intro j hj; rw [hpool']; exact upd_ne _ _ _ _ hj
  have hcci : pool'.chunk_classes index
      = { pool.chunk_classes index with free_list := st.free_list } := by
    rw [hpool']; simp
  have hnewid : ∀ b, b ∈ chunk_blocks index w.arrays → b.1 = w.arrays :=
    fun b hb => (mem_chunk_blocks.mp hb).1
  refine ⟨w', pool', heq, ⟨hwpool, ?_, h.live_eq, h.count_le, ?_, ?_, ?_, ?_, ?_,
    h.sys_nodup, ?_⟩, hwcache, hwsys, hwarr, ?_, by rw [hpool']⟩
  · intro j hj
    by_cases hji : j = index
    · subst hji
      refine ⟨?_, by rw [hwcache]; exact (h.cls j hj).holds,
        by rw [hwcache]; exact (h.cls j hj).count_eq, ?_⟩
      · rw [hwnext, hcci, upd_same]; exact hchain
      · rw [hcarved j hj, if_pos rfl, upd_same]
        have hp := (h.cls j hj).perm
        rw [List.perm_iff_count] at hp ⊢
        intro a
        have := hp a
        simp only [List.count_append, List.count_reverse] at this ⊢
        omega
    · refine ⟨?_, by rw [hwcache]; exact (h.cls j hj).holds,
        by rw [hwcache]; exact (h.cls j hj).count_eq, ?_⟩
      · rw [upd_ne _ _ _ _ hji, hwnext, hcc j hji]
        refine IsSeg_congr _ _ _ ?_ (h.cls j hj).chain
        intro b hb
        refine hnext b ?_
        have := h.block_fresh hj (List.mem_append_right _ (List.mem_append_left _ hb))
        omega
      · rw [hcarved j hj, if_neg hji, upd_ne _ _ _ _ hji]
        exact (h.cls j hj).perm
  · intro c hc
    rw [hpool'] at hc
    rw [hwarr]
    rcases List.mem_cons.mp hc with hc | hc
    · rw [hc]; exact Nat.lt_succ_self _
    · exact Nat.lt_succ_of_lt (h.chunks_fresh c hc)
  · intro j hj
    rw [hcarved j hj]
    by_cases hji : j = index
    · rw [if_pos hji]
      refine List.nodup_append.mpr ⟨chunk_blocks_nodup index _ hi, h.carved_nodup j hj, ?_⟩
      intro b hb1 hb2
      have := h.carved_fresh j hj b hb2
      have := hnewid b hb1
      omega
    · rw [if_neg hji]; exact h.carved_nodup j hj
  · intro i j hi' hj hij b hb1 hb2
    rw [hcarved i hi'] at hb1
    rw [hcarved j hj] at hb2
    rcases List.mem_append.mp hb1 with hb1 | hb1
    · by_cases hii : i = index
      · rw [if_pos hii] at hb1
        rcases List.mem_append.mp hb2 with hb2 | hb2
        · rw [if_neg (fun hh => hij (hii.trans hh.symm))] at hb2
          exact absurd hb2 (by simp)
        · have := h.carved_fresh j hj b hb2
          have := hnewid b hb1
          omega
      · rw [if_neg hii] at hb1; exact absurd hb1 (by simp)
    · rcases List.mem_append.mp hb2 with hb2 | hb2
      · by_cases hjj : j = index
        · rw [if_pos hjj] at hb2
          have := h.carved_fresh i hi' b hb1
          have := hnewid b hb2
          omega
        · rw [if_neg hjj] at hb2; exact absurd hb2 (by simp)
      · exact h.carved_disj i j hi' hj hij b hb1 hb2
  · intro i hi' b hb
    rw [hcarved i hi'] at hb
    rw [hwarr]
    rcases List.mem_append.mp hb with hb | hb
    · by_cases hii : i = index
      · rw [if_pos hii] at hb
        have := hnewid b hb
        omega
      · rw [if_neg hii] at hb; exact absurd hb (by simp)
    · have := h.carved_fresh i hi' b hb
      omega
  · rw [hwsys]; exact h.sys_live
  · intro a ha
    rw [hwsys] at ha
    rw [hwarr]
    exact Nat.lt_succ_of_lt (h.sys_fresh a ha)
  · intro j
    by_cases hji : j = index
    · subst hji; rw [hcci]; exact ⟨rfl, rfl⟩
    · rw [hcc j hji]
      exact ⟨rfl, rfl⟩

theorem MRep.update_class {this : Nat} {w : World} {live : Nat → List Block} {pool : Pool}
    {C G L : Nat → List Block} (h : MRep this w live pool C G L) {index : Nat}
    (hi : index < 16) (w' : World) (pool' : Pool) (Ci Gi Li : List Block)
    (hpool : w'.pools this = some pool') (hsize : w'.size = w.size)
    (hchunks : pool'.allocated_chunks = pool.allocated_chunks)
    (harr : w'.arrays = w.arrays) (hsys : w'.system = w.system)
    (hcc : ∀ j, j ≠ index → pool'.chunk_classes j = pool.chunk_classes j)
    (hcache : ∀ j, j ≠ index → w'.thread_cache.caches j = w.thread_cache.caches j)
    (hnext : ∀ b, b ∉ carved w pool index → w'.next b = w.next b)
    (hchain : IsChain w'.next (pool'.chunk_classes index).free_list Gi)
    (hholds : Holds (w'.thread_cache.caches index).blocks Ci)
    (hcount : (w'.thread_cache.caches index).count = (Ci.length : Int))
    (hperm : (Ci ++ (Gi ++ Li)).Perm (C index ++ (G index ++ L index)))
    (hle : Ci.length ≤ 16) :
    MRep this w' (upd live index (Li.map data)) pool' (upd C index Ci) (upd G index Gi)
      (upd L index Li) := by
  have hcarved : ∀ j, carved w' pool' j = carved w pool j := carved_congr hsize hchunks
  refine ⟨hpool, ?_, ?_, ?_, ?_, ?_, ?_, ?_, ?_, ?_, ?_⟩
  · intro j hj
    by_cases hji : j = index
    · subst hji
      simp only [upd_same]
      exact ⟨hchain, hholds, hcount, by rw [hcarved]; exact hperm.trans (h.cls j hj).perm⟩
    · simp only [upd_ne _ _ _ _ hji]
      refine ⟨?_, by rw [hcache j hji]; exact (h.cls j hj).holds,
        by rw [hcache j hji]; exact (h.cls j hj).count_eq,
        by rw [hcarved]; exact (h.cls j hj).perm⟩
      rw [hcc j hji]
      refine IsSeg_congr _ _ _ ?_ (h.cls j hj).chain
      intro b hb
      refine hnext b ?_
      intro hbi
      have hbj : b ∈ carved w pool j :=
        (h.cls j hj).perm.mem_iff.mp (List.mem_append_right _ (List.mem_append_left _ hb))
      exact h.carved_disj index j hi hj (fun hh => hji hh.symm) b hbi hbj
  · intro j hj
    by_cases hji : j = index
    · subst hji; simp only [upd_same]
    · simp only [upd_ne _ _ _ _ hji]; exact h.live_eq j hj
  · intro j hj
    by_cases hji : j = index
    · subst hji; simp only [upd_same]; exact hle
    · simp only [upd_ne _ _ _ _ hji]; exact h.count_le j hj
  · intro c hc
    rw [hchunks] at hc
    rw [harr]; exact h.chunks_fresh c hc
  · intro j hj; rw [hcarved]; exact h.carved_nodup j hj
  · intro i j hi' hj hij b
    rw [hcarved, hcarved]; exact h.carved_disj i j hi' hj hij b
  · intro i hi' b
    rw [hcarved, harr]; exact h.carved_fresh i hi' b
  · intro p hp
    rw [upd_ne _ _ _ _ (by omega)] at hp
    rw [hsys]; exact h.sys_live p hp
  · rw [upd_ne _ _ _ _ (by omega)]; exact h.sys_nodup
  · intro a ha
    rw [hsys] at ha
    rw [harr]; exact h.sys_fresh a ha

theorem MRep.class_nodup {this : Nat} {w : World} {live : Nat → List Block} {pool : Pool}
    {C G L : Nat → List Block} (h : MRep this w live pool C G L) {i : Nat} (hi : i < 16) :
    (C i ++ (G i ++ L i)).Nodup :=
  (h.cls i hi).perm.nodup_iff.mpr (h.carved_nodup i hi)

theorem upd_self {α β : Type} [DecidableEq α] (f : α → β) (a : α) : upd f a (f a) = f := by
  funext x
  by_cases hx : x = a
  · rw [hx]; simp
  · rw [upd_ne _ _ _ _ hx]

theorem fill_class_from_spec (this index : Nat) (w : World) (live : Nat → List Block)
    (pool : Pool) (C G L : Nat → List Block) (hi : index < 16)
    (h : MRep this w live pool C G L) (hC : C index = []) (old_head : Block)
    (hhead : (pool.chunk_classes index).free_list = some old_head) :
    ∃ w' pool', fill_class_from this index w pool old_head = some (w', true) ∧
      MRep this w' live pool' (upd C index ((G index).take 8)) (upd G index ((G index).drop 8)) L ∧
      w'.thread_cache.pool_ptr = w.thread_cache.pool_ptr ∧
      pool'.allocated_chunks = pool.allocated_chunks ∧ w'.arrays = w.arrays ∧
      w'.system = w.system ∧
      (∀ j, (pool'.chunk_classes j).allocated_count = (pool.chunk_classes j).allocated_count ∧
        (pool'.chunk_classes j).deallocated_count = (pool.chunk_classes j).deallocated_count) := by
  have hG : IsChain w.next (some old_head) (G index) := by
    rw [← hhead]; exact (h.cls index hi).chain
  have hnd : (G index).Nodup := by
    have := h.class_nodup hi
    exact (List.nodup_append.mp (List.nodup_append.mp this).2.1).1
  obtain ⟨hseg, hrest⟩ := walk_batch_spec w.next 7 old_head (G index) hG
  have hne : ∀ b, b ∈ (G index).take 8 → some b ≠ w.next (walk_batch w.next 7 old_head) := by
    intro b hb heq
    rw [← heq] at hrest
    cases hd : (G index).drop 8 with
    | nil => rw [hd] at hrest; exact absurd hrest (by simp [IsChain, IsSeg])
    | cons x r =>
      rw [hd] at hrest
      have hx : b = x := Option.some.inj hrest.1
      have hmem : b ∈ (G index).drop 8 := by rw [hd, hx]; exact List.mem_cons_self _ _
      have hnd' : ((G index).take 8 ++ (G index).drop 8).Nodup := by
        rw [List.take_append_drop]; exact hnd
      exact (List.nodup_append.mp hnd').2.2 hb hmem
  have hlen : ((G index).take 8).length ≤ 8 := by simp
  have hcount0 : (w.thread_cache.caches index).count = ((0 : Nat) : Int) := by
    rw [(h.cls index hi).count_eq, hC]; rfl
  obtain ⟨blocks', he, h1, _⟩ := store_batch_spec CLASS_CACHE_CAPACITY w.next
    (w.next (walk_batch w.next 7 old_head)) ((G index).take 8) 17 (some old_head) 0
    (w.thread_cache.caches index).blocks hseg hne (by omega)
    (by simp only [CLASS_CACHE_CAPACITY]; omega)
  have hfuel : CLASS_CACHE_CAPACITY.toNat + 1 = 17 := by decide
  have hb : BATCH_SIZE - 1 = 7 := by decide
  obtain ⟨pool', hpool'⟩ : ∃ p : Pool, p = { pool with
      chunk_classes := upd pool.chunk_classes index
        ({ pool.chunk_classes index with
          free_list := w.next (walk_batch w.next 7 old_head) }) } := ⟨_, rfl⟩
  obtain ⟨w', hw'⟩ : ∃ x : World, x = { w with
      pools := (upd w.pools this (some pool'))
      thread_cache := { w.thread_cache with
        caches := upd w.thread_cache.caches index
          ({ blocks := blocks', count := (((0 + ((G index).take 8).length : Nat)) : Int) }) } } :=
    ⟨_, rfl⟩
  have heq : fill_class_from this index w pool old_head = some (w', true) := by
    simp only [fill_class_from, hfuel, hb, hcount0, he, hw', hpool']
  refine ⟨w', pool', heq, ?_, by rw [hw'], by rw [hpool'], by rw [hw'], by rw [hw'], ?_⟩
  · have := h.update_class hi w' pool' ((G index).take 8) ((G index).drop 8) (L index)
      (by rw [hw']; simp) (by rw [hw']) (by rw [hpool']) (by rw [hw']) (by rw [hw'])
      (by intro j hj; rw [hpool']; exact upd_ne _ _ _ _ hj)
      (by intro j hj; rw [hw']; exact upd_ne _ _ _ _ hj)
      (by intro b _; rw [hw'])
      (by rw [hw', hpool']; simpa using hrest)
      (by
        rw [hw']
        simp only [upd_same]
        intro i hi'
        have := h1 i hi'
        simpa using this)
      (by rw [hw']; simp)
      (by
        rw [hC, ← List.append_assoc, List.take_append_drop]
        simp)
      (by omega)
    rw [← h.live_eq index hi, upd_self, upd_self] at this
    exact this
  · intro j
    rw [hpool']
    by_cases hji : j = index
    · subst hji; simp
    · simp only [upd_ne _ _ _ _ hji, and_self]

theorem fill_class_cache_spec (this index : Nat) (w : World) (live : Nat → List Block)
    (pool : Pool) (C G L : Nat → List Block) (hi : index < 16)
    (h : MRep this w live pool C G L) (hC : C index = []) :
    ∃ w' pool' G0, fill_class_cache this index w = some (w', true) ∧
      MRep this w' live pool' (upd C index (G0.take 8)) (upd G index (G0.drop 8)) L ∧
      G0 ≠ [] ∧
      ((G index ≠ [] ∧ G0 = G index ∧ pool'.allocated_chunks = pool.allocated_chunks ∧
          w'.arrays = w.arrays) ∨
        (G index = [] ∧ G0 = (chunk_blocks index w.arrays).reverse ∧
          pool'.allocated_chunks =
            (w.arrays, (total_block_size (sizeClass index) * block_count (sizeClass index))
              % SIZE_T_RANGE) :: pool.allocated_chunks ∧ w'.arrays = w.arrays + 1)) ∧
      w'.thread_cache.pool_ptr = w.thread_cache.pool_ptr ∧ w'.system = w.system ∧
      (∀ j, (pool'.chunk_classes j).allocated_count = (pool.chunk_classes j).allocated_count ∧
        (pool'.chunk_classes j).deallocated_count = (pool.chunk_classes j).deallocated_count) := by
  have hlen : ¬ (index ≥ SIZE_CALSSES.length) := by
    simp only [SIZE_CALSSES, List.length]; omega
  have hcount : ¬ ((w.thread_cache.caches index).count > 0) := by
    rw [(h.cls index hi).count_eq, hC]; simp
  cases hfl : (pool.chunk_classes index).free_list with
  | some old_head =>
    have hG : G index ≠ [] := by
      have := (h.cls index hi).chain
      rw [hfl] at this
      exact Fixed.IsChain_some_ne_nil this
    obtain ⟨w', pool', he, hrep, hptr, hch, har, hsys, hcnt⟩ :=
      fill_class_from_spec this index w live pool C G L hi h hC old_head hfl
    refine ⟨w', pool', G index, ?_, hrep, hG, Or.inl ⟨hG, rfl, hch, har⟩, hptr, hsys, hcnt⟩
    simp only [fill_class_cache, if_neg hlen, h.pool_eq, if_neg hcount, hfl]
    exact he
  | none =>
    have hG : G index = [] := by
      have := (h.cls index hi).chain
      rw [hfl] at this
      exact Fixed.IsChain_none_eq_nil this
    obtain ⟨w1, pool1, he1, hrep1, hcache1, hsys1, har1, hcnt1, hch1⟩ :=
      allocate_chunk_spec this index w live pool C G L hi h
    have hnew : (chunk_blocks index w.arrays).reverse ≠ [] := by
      intro hnil
      have := congrArg List.length hnil
      rw [List.length_reverse, chunk_blocks_length] at this
      have := (class_facts index hi).2.1
      simp only [List.length_nil] at *
      omega
    have hG1 : (upd G index ((chunk_blocks index w.arrays).reverse ++ G index)) index
        = (chunk_blocks index w.arrays).reverse := by
      rw [upd_same, hG, List.append_nil]
    cases hfl1 : (pool1.chunk_classes index).free_list with
    | none =>
      have := (hrep1.cls index hi).chain
      rw [hfl1, hG1] at this
      exact absurd (Fixed.IsChain_none_eq_nil this) hnew
    | some old_head =>
      obtain ⟨w', pool', he, hrep, hptr, hch, har, hsys, hcnt⟩ :=
        fill_class_from_spec this index w1 live pool1 C _ L hi hrep1 hC old_head hfl1
      rw [hG1] at hrep
      have hupd : ∀ X, upd (upd G index ((chunk_blocks index w.arrays).reverse ++ G index)) index X
          = upd G index X := by
        intro X
        funext j
        by_cases hj : j = index
        · rw [hj]; simp
        · rw [upd_ne _ _ _ _ hj, upd_ne _ _ _ _ hj, upd_ne _ _ _ _ hj]
      rw [hupd] at hrep
      refine ⟨w', pool', (chunk_blocks index w.arrays).reverse, ?_, hrep, hnew,
        Or.inr ⟨hG, rfl, by rw [hch, hch1], by rw [har, har1]⟩, by rw [hptr, hcache1],
        by rw [hsys, hsys1], ?_⟩
      · simp only [fill_class_cache, if_neg hlen, h.pool_eq, if_neg hcount, hfl, he1,
          hrep1.pool_eq, hfl1]
        exact he
      · intro j
        exact ⟨(hcnt j).1.trans (hcnt1 j).1, (hcnt j).2.trans (hcnt1 j).2⟩

theorem data_injective : Function.Injective data := by
  intro a b h
  simp only [data, Prod.mk.injEq] at h
  exact Prod.ext h.1 (by omega)

theorem from_data_data (b : Block) : from_data (data b) = some b := by
  simp [from_data, data]

theorem take_from_cache_spec (this index : Nat) (w : World) (live : Nat → List Block)
    (pool : Pool) (C G L : Nat → List Block) (hi : index < 16)
    (h : MRep this w live pool C G L) (C' : List Block) (b : Block)
    (hC : C index = C' ++ [b]) :
    ∃ w' pool', take_from_cache this index w = some (w', some (data b)) ∧
      MRep this w' (upd live index (data b :: live index)) pool' (upd C index C') G
        (upd L index (b :: L index)) ∧
      w'.thread_cache.pool_ptr = w.thread_cache.pool_ptr ∧
      pool'.allocated_chunks = pool.allocated_chunks ∧ w'.arrays = w.arrays ∧
      w'.system = w.system := by
  have hcl := h.cls index hi
  have hle := h.count_le index hi
  rw [hC] at hle
  simp only [List.length_append, List.length_singleton] at hle
  have hcount : (w.thread_cache.caches index).count = (C'.length : Int) + 1 := by
    rw [hcl.count_eq, hC]; simp
  have hslot : slot CLASS_CACHE_CAPACITY (w.thread_cache.caches index).blocks
      ((w.thread_cache.caches index).count - 1) = some (some b) := by
    have hidx : (w.thread_cache.caches index).count - 1 = (C'.length : Int) := by omega
    rw [hidx]
    simp only [slot, CLASS_CACHE_CAPACITY]
    rw [if_pos (by omega), hcl.holds C'.length (by rw [hC]; simp), hC]
    simp
  obtain ⟨pool', hpool'⟩ : ∃ p : Pool, p = { pool with
      chunk_classes := upd pool.chunk_classes index
        ({ pool.chunk_classes index with
          allocated_count :=
            ((pool.chunk_classes index).allocated_count + 1) % SIZE_T_RANGE }) } := ⟨_, rfl⟩
  obtain ⟨w', hw'⟩ : ∃ x : World, x = { w with
      thread_cache := { w.thread_cache with
        caches := upd w.thread_cache.caches index
          ({ w.thread_cache.caches index with
            count := (w.thread_cache.caches index).count - 1 }) }
      pools := (upd w.pools this (some pool')) } := ⟨_, rfl⟩
  have heq : take_from_cache this index w = some (w', some (data b)) := by
    simp only [take_from_cache, hslot, h.pool_eq, hw', hpool']
  refine ⟨w', pool', heq, ?_, by rw [hw'], by rw [hpool'], by rw [hw'], by rw [hw']⟩
  have := h.update_class hi w' pool' C' (G index) (b :: L index)
    (by rw [hw']; simp) (by rw [hw']) (by rw [hpool']) (by rw [hw']) (by rw [hw'])
    (by intro j hj; rw [hpool']; exact upd_ne _ _ _ _ hj)
    (by intro j hj; rw [hw']; exact upd_ne _ _ _ _ hj)
    (by intro b _; rw [hw'])
    (by rw [hw', hpool']; simpa using hcl.chain)
    (by
      rw [hw']
      simp only [upd_same]
      have := hcl.holds
      rw [hC] at this
      exact Fixed.Holds_take this)
    (by rw [hw']; simp only [upd_same]; omega)
    (by
      rw [hC, List.perm_iff_count]; intro a
      simp only [List.count_append, List.count_cons, List.count_nil]
      omega)
    (by omega)
  rw [upd_self G] at this
  simp only [List.map_cons, ← h.live_eq index hi] at this
  exact this

theorem MRep.set_pool_ptr {this : Nat} {w : World} {live : Nat → List Block} {pool : Pool}
    {C G L : Nat → List Block} (h : MRep this w live pool C G L) (p : Option Nat) :
    MRep this { w with thread_cache := { w.thread_cache with pool_ptr := p } } live pool C G L :=
  ⟨h.pool_eq, fun i hi => ⟨(h.cls i hi).chain, (h.cls i hi).holds, (h.cls i hi).count_eq,
    (h.cls i hi).perm⟩, h.live_eq, h.count_le, h.chunks_fresh, h.carved_nodup, h.carved_disj,
    h.carved_fresh, h.sys_live, h.sys_nodup, h.sys_fresh⟩

theorem classOf_le (size index : Nat) (h : classOf size = some index) : index ≤ 16 := by
  obtain ⟨i, hi, hle, -⟩ := get_size_class_index_spec (align_of size ALIGNMENT)
  unfold classOf at h
  rw [hi] at h
  cases h
  exact hle

theorem upd_upd {α β : Type} [DecidableEq α] (f : α → β) (a : α) (v v' : β) :
    upd (upd f a v) a v' = upd f a v' := by
  funext x
  by_cases hx : x = a
  · rw [hx]; simp
  · rw [upd_ne _ _ _ _ hx, upd_ne _ _ _ _ hx, upd_ne _ _ _ _ hx]

/-- The effect of `allocate` on the size-class path. -/
theorem allocate_class_spec (this size index : Nat) (w : World) (live : Nat → List Block)
    (pool : Pool) (C G L : Nat → List Block) (h : MRep this w live pool C G L)
    (hsize : size ≠ 0) (hcls : classOf size = some index) (hi : index < 16) :
    ∃ w' b pool' C' G', allocate this size w = some (w', some (data b)) ∧
      MRep this w' (upd live index (data b :: live index)) pool' C' G'
        (upd L index (b :: L index)) ∧
      w'.thread_cache.pool_ptr = some this ∧ w'.system = w.system := by
  have h0 := h.set_pool_ptr (some this)
  have hlen : ¬ (index ≥ SIZE_CALSSES.length) := by
    simp only [SIZE_CALSSES, List.length]; omega
  unfold classOf at hcls
  rcases List.eq_nil_or_concat (C index) with hnil | ⟨C', b, hcc⟩
  · obtain ⟨w1, pool1, G0, hf, hrep1, hne, _, hptr1, hsys1, _⟩ :=
      fill_class_cache_spec this index _ live pool C G L hi h0 hnil
    rcases List.eq_nil_or_concat (G0.take 8) with hnil2 | ⟨C'', b, hcc2⟩
    · cases G0 with
      | nil => exact absurd rfl hne
      | cons x r => simp at hnil2
    · rw [List.concat_eq_append] at hcc2
      obtain ⟨w2, pool2, ht, hrep2, hptr2, _, _, hsys2⟩ :=
        take_from_cache_spec this index w1 live pool1 _ _ L hi hrep1 C'' b
          (by rw [upd_same]; exact hcc2)
      rw [upd_upd] at hrep2
      refine ⟨w2, b, pool2, _, _, ?_, hrep2, by rw [hptr2, hptr1], by rw [hsys2, hsys1]⟩
      have hcount : ¬ ((w.thread_cache.caches index).count > 0) := by
        rw [(h.cls index hi).count_eq, hnil]; simp
      simp only [allocate, if_neg hsize, hcls, if_neg hlen, h.pool_eq, if_neg hcount, hf]
      exact ht
  · rw [List.concat_eq_append] at hcc
    obtain ⟨w2, pool2, ht, hrep2, hptr2, _, _, hsys2⟩ :=
      take_from_cache_spec this index _ live pool C G L hi h0 C' b hcc
    refine ⟨w2, b, pool2, _, _, ?_, hrep2, hptr2, hsys2⟩
    have hcount : (w.thread_cache.caches index).count > 0 := by
      rw [(h.cls index hi).count_eq, hcc]; simp
    simp only [allocate, if_neg hsize, hcls, if_neg hlen, h.pool_eq, if_pos hcount]
    exact ht

/-- The effect of `allocate` on the oversized path: the start of a new array, or the null pointer
when the system cannot satisfy the request. -/
theorem allocate_big_spec (this size : Nat) (w : World) (live : Nat → List Block)
    (pool : Pool) (C G L : Nat → List Block) (h : MRep this w live pool C G L)
    (hsize : size ≠ 0) (hcls : classOf size = some 16) :
    ∃ w' ptr, allocate this size w = some (w', ptr) ∧
      w'.thread_cache.pool_ptr = some this ∧ w'.pools = w.pools ∧
      ((w.system_full (align_of size ALIGNMENT) = false ∧ ptr = some (w.arrays, 0) ∧
          MRep this w' (upd live 16 ((w.arrays, 0) :: live 16)) pool C G L) ∨
        (w.system_full (align_of size ALIGNMENT) = true ∧ ptr = none ∧
          MRep this w' live pool C G L)) := by
  unfold classOf at hcls
  have hlen : (16 : Nat) ≥ SIZE_CALSSES.length := by
    simp only [SIZE_CALSSES, List.length]; omega
  cases hfull : w.system_full (align_of size ALIGNMENT) with
  | true =>
    refine ⟨{ w with thread_cache := { w.thread_cache with pool_ptr := some this } }, none,
      by simp only [allocate, if_neg hsize, hcls, if_pos hlen, aligned_alloc, hfull, if_true],
      rfl, rfl, Or.inr ⟨rfl, rfl, h.set_pool_ptr (some this)⟩⟩
  | false =>
    obtain ⟨w', hw'⟩ : ∃ x : World, x = { w with
        arrays := w.arrays + 1
        system := (w.arrays, align_of size ALIGNMENT) :: w.system
        thread_cache := { w.thread_cache with pool_ptr := some this } } := ⟨_, rfl⟩
    refine ⟨w', some (w.arrays, 0),
      by simp [allocate, if_neg hsize, hcls, if_pos hlen, aligned_alloc, hfull, hw'],
      by rw [hw'], by rw [hw'], Or.inl ⟨rfl, rfl, ?_⟩⟩
    rw [hw']
    refine ⟨h.pool_eq, fun i hi => ⟨(h.cls i hi).chain, (h.cls i hi).holds, (h.cls i hi).count_eq,
      (h.cls i hi).perm⟩, ?_, h.count_le, ?_, h.carved_nodup, h.carved_disj, ?_, ?_, ?_, ?_⟩
    · intro i hi
      rw [upd_ne _ _ _ _ (by omega)]; exact h.live_eq i hi
    · intro c hc; exact Nat.lt_succ_of_lt (h.chunks_fresh c hc)
    · intro i hi b hb; exact Nat.lt_succ_of_lt (h.carved_fresh i hi b hb)
    · intro p hp
      rw [upd_same] at hp
      rcases List.mem_cons.mp hp with hp | hp
      · rw [hp]; simp
      · have := h.sys_live p hp
        refine ⟨this.1, ?_⟩
        simp only [List.map_cons, List.mem_cons]
        exact Or.inr this.2
    · rw [upd_same]
      refine List.nodup_cons.mpr ⟨?_, h.sys_nodup⟩
      intro hmem
      have := (h.sys_live _ hmem).2
      obtain ⟨a, ha, hae⟩ := List.mem_map.mp this
      have := h.sys_fresh a ha
      simp only at hae
      omega
    · intro a ha
      show a.1 < w.arrays + 1
      rcases List.mem_cons.mp ha with ha | ha
      · rw [ha]; exact Nat.lt_succ_self _
      · exact Nat.lt_succ_of_lt (h.sys_fresh a ha)

open Fixed (perm_cons_removeBlock)

theorem removeBlock_map_data (b : Block) :
    ∀ L : List Block, removeBlock (data b) (L.map data) = (removeBlock b L).map data := by
  intro L
  induction L with
  | nil => rfl
  | cons x L ih =>
    simp only [List.map_cons, removeBlock]
    by_cases hx : x = b
    · rw [if_pos hx, if_pos (by rw [hx])]
    · rw [if_neg hx, if_neg (fun h => hx (data_injective h)), List.map_cons, ih]

theorem mem_of_mem_removeBlock {p q : Block} {l : List Block} (h : q ∈ removeBlock p l) :
    q ∈ l := by
  induction l with
  | nil => exact absurd h (by simp [removeBlock])
  | cons x l ih =>
    simp only [removeBlock] at h
    by_cases hx : x = p
    · rw [if_pos hx] at h; exact List.mem_cons_of_mem _ h
    · rw [if_neg hx] at h
      rcases List.mem_cons.mp h with h | h
      · rw [h]; exact List.mem_cons_self _ _
      · exact List.mem_cons_of_mem _ (ih h)

theorem nodup_removeBlock {p : Block} {l : List Block} (hp : p ∈ l) (hnd : l.Nodup) :
    (removeBlock p l).Nodup ∧ p ∉ removeBlock p l := by
  have := (perm_cons_removeBlock hp).nodup_iff.mp hnd
  exact ⟨(List.nodup_cons.mp this).2, (List.nodup_cons.mp this).1⟩

/-- The branch of `deallocate` taken with a full class cache. -/
theorem multi_return_half_spec (this index : Nat) (w : World) (live : Nat → List Block)
    (pool : Pool) (C G L : Nat → List Block) (hi : index < 16)
    (h : MRep this w live pool C G L) (b : Block) (hb : b ∈ L index)
    (h2 : 2 ≤ (C index).length) :
    ∃ w' pool', return_half this index w b = some w' ∧
      MRep this w' (upd live index (removeBlock (data b) (live index))) pool'
        (upd C index ((C index).drop ((C index).length / 2)))
        (upd G index ((C index).take ((C index).length / 2) ++ b :: G index))
        (upd L index (removeBlock b (L index))) ∧
      w'.thread_cache.pool_ptr = w.thread_cache.pool_ptr ∧
      pool'.allocated_chunks = pool.allocated_chunks ∧ w'.arrays = w.arrays ∧
      w'.system = w.system := by
  have hcl := h.cls index hi
  have hle := h.count_le index hi
  have hnd := h.class_nodup hi
  have hCnd : (C index).Nodup := (List.nodup_append.mp hnd).1
  have hbC : b ∉ C index := fun hc =>
    (List.nodup_append.mp hnd).2.2 hc (List.mem_append_right _ hb)
  have hbG : b ∉ G index := fun hg =>
    (List.nodup_append.mp (List.nodup_append.mp hnd).2.1).2.2 hg hb
  have hCG : ∀ x, x ∈ C index → x ∉ G index := fun x hx hg =>
    (List.nodup_append.mp hnd).2.2 hx (List.mem_append_left _ hg)
  have hhalf : Int.tdiv (w.thread_cache.caches index).count 2
      = (((C index).length / 2 : Nat) : Int) := by
    rw [hcl.count_eq]; rfl
  have hcapI : ((C index).length : Int) ≤ CLASS_CACHE_CAPACITY := by
    simp only [CLASS_CACHE_CAPACITY]; omega
  obtain ⟨next1, hl, hseg, hframe⟩ := link_blocks_spec CLASS_CACHE_CAPACITY
    (w.thread_cache.caches index).blocks (C index) w.next ((C index).length / 2) hcl.holds
    hcapI hCnd (by omega)
  have hm1lt : (C index).length / 2 - 1 < (C index).length := by omega
  have htail : (C index)[(C index).length / 2 - 1]? = some (C index)[(C index).length / 2 - 1] :=
    List.getElem?_eq_getElem hm1lt
  have hnot := not_mem_take_of_nodup hCnd htail
  have hseg2 := IsSeg_snoc_upd (some b) hseg htail hnot
  have hmm : (C index).length / 2 - 1 + 1 = (C index).length / 2 := by omega
  rw [hmm] at hseg2
  have hs0 : slot CLASS_CACHE_CAPACITY (w.thread_cache.caches index).blocks 0
      = some ((C index)[0]?) := by
    simp only [slot, CLASS_CACHE_CAPACITY]
    rw [if_pos (by omega)]
    have := hcl.holds 0 (by omega)
    simp only [Nat.cast_zero] at this
    rw [this]
  have hst : slot CLASS_CACHE_CAPACITY (w.thread_cache.caches index).blocks
      ((((C index).length / 2 : Nat) : Int) - 1)
      = some (some (C index)[(C index).length / 2 - 1]) := by
    simp only [slot, CLASS_CACHE_CAPACITY]
    rw [if_pos (by omega)]
    have := hcl.holds ((C index).length / 2 - 1) hm1lt
    have hc : (((C index).length / 2 - 1 : Nat) : Int)
        = (((C index).length / 2 : Nat) : Int) - 1 := by omega
    rw [hc] at this
    rw [this, htail]
  obtain ⟨blocks', hc, hcomp⟩ := compact_blocks_spec CLASS_CACHE_CAPACITY
    (w.thread_cache.caches index).blocks (C index).length ((C index).length / 2) hcapI
    (by omega)
  obtain ⟨next3, hnext3⟩ : ∃ n : NextMap, n =
      upd (upd next1 (C index)[(C index).length / 2 - 1] (some b)) b
        (pool.chunk_classes index).free_list := ⟨_, rfl⟩
  obtain ⟨pool', hpool'⟩ : ∃ p : Pool, p = { pool with
      chunk_classes := upd pool.chunk_classes index
        ({ pool.chunk_classes index with free_list := (C index)[0]? }) } := ⟨_, rfl⟩
  obtain ⟨w', hw'⟩ : ∃ x : World, x = { w with
      next := next3
      pools := (upd w.pools this (some pool'))
      thread_cache := { w.thread_cache with
        caches := upd w.thread_cache.caches index
          ({ blocks := blocks',
             count := (w.thread_cache.caches index).count
               - (((C index).length / 2 : Nat) : Int) }) } } := ⟨_, rfl⟩
  have heq : return_half this index w b = some w' := by
    simp only [return_half, hhalf, hl, h.pool_eq, hst, hs0]
    rw [hcl.count_eq, hc, hw', hpool', hnext3, hcl.count_eq]
  have hchain : IsChain next3 ((C index)[0]?)
      ((C index).take ((C index).length / 2) ++ b :: G index) := by
    refine IsSeg_append _ _ _ (some b) _ ?_ ⟨rfl, ?_⟩
    · refine IsSeg_congr _ _ _ ?_ hseg2
      intro x hx
      rw [hnext3, upd_ne _ _ _ _ (fun hxb => hbC (by rw [← hxb]; exact List.mem_of_mem_take hx))]
    · rw [hnext3, upd_same]
      refine IsSeg_congr _ _ _ ?_ hcl.chain
      intro x hx
      have hxC : x ∉ C index := fun hc' => hCG x hc' hx
      rw [upd_ne _ _ _ _ (fun hxb => hbG (by rw [← hxb]; exact hx)),
        upd_ne _ _ _ _ (fun hxe => hxC (by rw [hxe]; exact List.getElem_mem _))]
      exact hframe x (fun hxt => hxC (List.mem_of_mem_take hxt))
  refine ⟨w', pool', heq, ?_, by rw [hw'], by rw [hpool'], by rw [hw'], by rw [hw']⟩
  have hbcar : ∀ x, x ∈ C index ∨ x = b → x ∈ carved w pool index := by
    intro x hx
    refine hcl.perm.mem_iff.mp ?_
    rcases hx with hx | hx
    · exact List.mem_append_left _ hx
    · rw [hx]; exact List.mem_append_right _ (List.mem_append_right _ hb)
  have := h.update_class hi w' pool' ((C index).drop ((C index).length / 2))
    ((C index).take ((C index).length / 2) ++ b :: G index) (removeBlock b (L index))
    (by rw [hw']; simp) (by rw [hw']) (by rw [hpool']) (by rw [hw']) (by rw [hw'])
    (by intro j hj; rw [hpool']; exact upd_ne _ _ _ _ hj)
    (by intro j hj; rw [hw']; exact upd_ne _ _ _ _ hj)
    (by
      intro x hx
      rw [hw']
      show next3 x = w.next x
      rw [hnext3, upd_ne _ _ _ _ (fun hxb => hx (hbcar x (Or.inr hxb))),
        upd_ne _ _ _ _ (fun hxe => hx (hbcar x (Or.inl (by rw [hxe]; exact List.getElem_mem _))))]
      exact hframe x (fun hxt => hx (hbcar x (Or.inl (List.mem_of_mem_take hxt)))))
    (by rw [hw', hpool']; simpa using hchain)
    (by
      rw [hw']
      simp only [upd_same]
      intro i hi'
      simp only [List.length_drop] at hi'
      rw [hcomp i hi', hcl.holds _ (by omega), List.getElem?_drop, Nat.add_comm])
    (by
      rw [hw']
      simp only [upd_same, List.length_drop]
      rw [hcl.count_eq]
      omega)
    (by
      rw [List.perm_iff_count]; intro a
      have hp : ((C index).take ((C index).length / 2)
          ++ (C index).drop ((C index).length / 2)).Perm (C index) := by
        rw [List.take_append_drop]
      have h1 := List.perm_iff_count.mp hp a
      have h2 := List.perm_iff_count.mp (perm_cons_removeBlock hb) a
      simp only [List.count_append, List.count_cons] at h1 h2 ⊢
      omega)
    (by simp only [List.length_drop]; omega)
  rw [← removeBlock_map_data, ← h.live_eq index hi] at this
  exact this

theorem count_deallocation_spec (this index : Nat) (w : World) (live : Nat → List Block)
    (pool : Pool) (C G L : Nat → List Block) (hi : index < 16)
    (h : MRep this w live pool C G L) :
    ∃ w' pool', count_deallocation this index w = some w' ∧ MRep this w' live pool' C G L ∧
      w'.thread_cache.pool_ptr = w.thread_cache.pool_ptr ∧
      pool'.allocated_chunks = pool.allocated_chunks ∧ w'.arrays = w.arrays ∧
      w'.system = w.system := by
  obtain ⟨pool', hpool'⟩ : ∃ p : Pool, p = { pool with
      chunk_classes := upd pool.chunk_classes index
        ({ pool.chunk_classes index with
          deallocated_count :=
            ((pool.chunk_classes index).deallocated_count + 1) % SIZE_T_RANGE }) } := ⟨_, rfl⟩
  obtain ⟨w', hw'⟩ : ∃ x : World, x = { w with pools := (upd w.pools this (some pool')) } :=
    ⟨_, rfl⟩
  have heq : count_deallocation this index w = some w' := by
    simp only [count_deallocation, h.pool_eq, hw', hpool']
  refine ⟨w', pool', heq, ?_, by rw [hw'], by rw [hpool'], by rw [hw'], by rw [hw']⟩
  have hcl := h.cls index hi
  have := h.update_class hi w' pool' (C index) (G index) (L index)
    (by rw [hw']; simp) (by rw [hw']) (by rw [hpool']) (by rw [hw']) (by rw [hw'])
    (by intro j hj; rw [hpool']; exact upd_ne _ _ _ _ hj)
    (by intro j hj; rw [hw'])
    (by intro b _; rw [hw'])
    (by rw [hw', hpool']; simpa using hcl.chain)
    (by rw [hw']; exact hcl.holds)
    (by rw [hw']; exact hcl.count_eq)
    (List.Perm.refl _) (h.count_le index hi)
  rw [← h.live_eq index hi, upd_self, upd_self, upd_self, upd_self] at this
  exact this

/-- The effect of `deallocate` on the size-class path. -/
theorem deallocate_class_spec (this size index : Nat) (w : World) (live : Nat → List Block)
    (pool : Pool) (C G L : Nat → List Block) (p : Block) (h : MRep this w live pool C G L)
    (hcls : classOf size = some index) (hi : index < 16) (hp : p ∈ live index) :
    ∃ w' pool' C' G' L', deallocate this (some p) size w = some w' ∧
      MRep this w' (upd live index (removeBlock p (live index))) pool' C' G' L' ∧
      w'.thread_cache.pool_ptr = w.thread_cache.pool_ptr := by
  have hlen : ¬ (index ≥ SIZE_CALSSES.length) := by
    simp only [SIZE_CALSSES, List.length]; omega
  unfold classOf at hcls
  rw [h.live_eq index hi] at hp
  obtain ⟨b, hb, hbp⟩ := List.mem_map.mp hp
  subst hbp
  have hcl := h.cls index hi
  have hle := h.count_le index hi
  by_cases hfull : (C index).length < 16
  · have hcond : (w.thread_cache.caches index).count < CLASS_CACHE_CAPACITY := by
      rw [hcl.count_eq]; simp only [CLASS_CACHE_CAPACITY]; omega
    have hset : setSlot CLASS_CACHE_CAPACITY (w.thread_cache.caches index).blocks
        (w.thread_cache.caches index).count (some b)
        = some (upd (w.thread_cache.caches index).blocks ((C index).length : Int) (some b)) := by
      rw [hcl.count_eq]
      simp only [setSlot, CLASS_CACHE_CAPACITY]
      rw [if_pos (by omega)]
    obtain ⟨w1, hw1⟩ : ∃ x : World, x = { w with thread_cache := { w.thread_cache with
        caches := upd w.thread_cache.caches index
          ({ blocks := upd (w.thread_cache.caches index).blocks ((C index).length : Int) (some b),
             count := (w.thread_cache.caches index).count + 1 }) } } := ⟨_, rfl⟩
    have hrep1 := h.update_class hi w1 pool (C index ++ [b]) (G index) (removeBlock b (L index))
      (by rw [hw1]; exact h.pool_eq) (by rw [hw1]) rfl (by rw [hw1]) (by rw [hw1])
      (fun _ _ => rfl)
      (by intro j hj; rw [hw1]; exact upd_ne _ _ _ _ hj)
      (by intro x _; rw [hw1])
      (by rw [hw1]; exact hcl.chain)
      (by rw [hw1]; simp only [upd_same]; exact Fixed.Holds_snoc hcl.holds b)
      (by rw [hw1]; simp only [upd_same]; rw [hcl.count_eq]; simp)
      (by
        rw [List.perm_iff_count]; intro a
        have h2 := List.perm_iff_count.mp (perm_cons_removeBlock hb) a
        simp only [List.count_append, List.count_cons, List.count_nil] at h2 ⊢
        omega)
      (by simp only [List.length_append, List.length_singleton]; omega)
    rw [upd_self G, ← removeBlock_map_data, ← h.live_eq index hi] at hrep1
    obtain ⟨w2, pool2, hcd, hrep2, hptr2, -⟩ :=
      count_deallocation_spec this index w1 _ pool _ _ _ hi hrep1
    refine ⟨w2, pool2, _, _, _, ?_, hrep2, by rw [hptr2, hw1]⟩
    rw [hw1] at hcd
    simp only [deallocate, hcls, if_neg hlen, from_data_data, store_freed, if_pos hcond, hset]
    exact hcd
  · have hcond : ¬ ((w.thread_cache.caches index).count < CLASS_CACHE_CAPACITY) := by
      rw [hcl.count_eq]; simp only [CLASS_CACHE_CAPACITY]; omega
    obtain ⟨w1, pool1, hr, hrep1, hptr1, -⟩ :=
      multi_return_half_spec this index w live pool C G L hi h b hb (by omega)
    obtain ⟨w2, pool2, hcd, hrep2, hptr2, -⟩ :=
      count_deallocation_spec this index w1 _ pool1 _ _ _ hi hrep1
    refine ⟨w2, pool2, _, _, _, ?_, hrep2, by rw [hptr2, hptr1]⟩
    simp only [deallocate, hcls, if_neg hlen, from_data_data, store_freed, if_neg hcond, hr]
    exact hcd

/-- The effect of `deallocate` on the oversized path. -/
theorem deallocate_big_spec (this size : Nat) (w : World) (live : Nat → List Block)
    (pool : Pool) (C G L : Nat → List Block) (p : Block) (h : MRep this w live pool C G L)
    (hcls : classOf size = some 16) (hp : p ∈ live 16) :
    ∃ w', deallocate this (some p) size w = some w' ∧
      MRep this w' (upd live 16 (removeBlock p (live 16))) pool C G L ∧
      w'.thread_cache = w.thread_cache ∧ w'.pools = w.pools ∧ w'.next = w.next := by
  unfold classOf at hcls
  have hlen : (16 : Nat) ≥ SIZE_CALSSES.length := by
    simp only [SIZE_CALSSES, List.length]; omega
  have hsl := h.sys_live p hp
  obtain ⟨w', hw'⟩ : ∃ x : World, x =
      { w with system := w.system.filter (fun a => a.1 ≠ p.1) } := ⟨_, rfl⟩
  have heq : deallocate this (some p) size w = some w' := by
    simp only [deallocate, hcls, if_pos hlen, free_system]
    rw [if_pos hsl, hw']
  obtain ⟨hnd', hnot⟩ := nodup_removeBlock hp h.sys_nodup
  refine ⟨w', heq, ?_, by rw [hw'], by rw [hw'], by rw [hw']⟩
  rw [hw']
  refine ⟨h.pool_eq, fun i hi => ⟨(h.cls i hi).chain, (h.cls i hi).holds, (h.cls i hi).count_eq,
    (h.cls i hi).perm⟩, ?_, h.count_le, h.chunks_fresh, h.carved_nodup, h.carved_disj,
    h.carved_fresh, ?_, ?_, ?_⟩
  · intro i hi
    rw [upd_ne _ _ _ _ (by omega)]; exact h.live_eq i hi
  · intro q hq
    rw [upd_same] at hq
    have hq' := mem_of_mem_removeBlock hq
    have hqs := h.sys_live q hq'
    refine ⟨hqs.1, ?_⟩
    obtain ⟨a, ha, hae⟩ := List.mem_map.mp hqs.2
    refine List.mem_map.mpr ⟨a, ?_, hae⟩
    refine List.mem_filter.mpr ⟨ha, ?_⟩
    have hne : q ≠ p := fun hqp => hnot (hqp ▸ hq)
    have : q.1 ≠ p.1 := fun h1 => hne (Prod.ext h1 (by rw [hqs.1, hsl.1]))
    simpa [hae] using this
  · rw [upd_same]; exact hnd'
  · intro a ha
    exact h.sys_fresh a (List.mem_filter.mp ha).1

theorem classOf_some (size : Nat) : ∃ index, classOf size = some index ∧ index ≤ 16 := by
  obtain ⟨i, hi, hle, -⟩ := get_size_class_index_spec (align_of size ALIGNMENT)
  exact ⟨i, hi, hle⟩

theorem multi_start_inv (this : Nat) : MInv this (start this) := by
  refine ⟨⟨fun i => ⟨none, sizeClass i, 0, 0⟩, []⟩, fun _ => [], fun _ => [], fun _ => [],
    ⟨by simp [start, construct], ?_, ?_, ?_, ?_, ?_, ?_, ?_, ?_, ?_, ?_⟩⟩
  · intro i _
    exact ⟨by simp [IsChain, IsSeg], fun j hj => absurd hj (by simp), rfl,
      by simp [carved]⟩
  · intro i _; rfl
  · intro i _; simp
  · intro c hc; exact absurd hc (by simp)
  · intro i _; simp [carved]
  · intro i j _ _ _ b hb; exact absurd hb (by simp [carved])
  · intro i _ b hb; exact absurd hb (by simp [carved])
  · intro p hp; exact absurd hp (by simp [start])
  · simp [start]
  · intro a ha; exact absurd ha (by simp [start, construct, World.init])

theorem multi_step_inv (this : Nat) (s : Run) (hinv : MInv this s) (op : Op)
    (hop : opValid s op = true) : ∃ s', step this s op = some s' ∧ MInv this s' := by
  obtain ⟨pool, C, G, L, h⟩ := hinv
  cases op with
  | allocate size =>
    by_cases hsize : size = 0
    · refine ⟨⟨s.world, s.live⟩, ?_, pool, C, G, L, h⟩
      simp only [step, allocate, if_pos hsize]
    · obtain ⟨index, hcls, hle⟩ := classOf_some size
      by_cases hi : index < 16
      · obtain ⟨w', b, pool', C', G', he, hrep, -⟩ :=
          allocate_class_spec this size index s.world s.live pool C G L h hsize hcls hi
        exact ⟨⟨w', upd s.live index (data b :: s.live index)⟩,
          by simp only [step, he, hcls], pool', C', G', _, hrep⟩
      · have h16 : index = 16 := by omega
        subst h16
        obtain ⟨w', ptr, he, -, -, hcase⟩ :=
          allocate_big_spec this size s.world s.live pool C G L h hsize hcls
        rcases hcase with ⟨-, hptr, hrep⟩ | ⟨-, hptr, hrep⟩
        · subst hptr
          exact ⟨⟨w', upd s.live 16 ((s.world.arrays, 0) :: s.live 16)⟩,
            by simp only [step, he, hcls], pool, C, G, L, hrep⟩
        · subst hptr
          exact ⟨⟨w', s.live⟩, by simp only [step, he, hcls], pool, C, G, L, hrep⟩
  | deallocate ptr size =>
    cases ptr with
    | none => exact ⟨s, by simp only [step, deallocate], pool, C, G, L, h⟩
    | some p =>
      simp only [opValid] at hop
      cases hcls : classOf size with
      | none => rw [hcls] at hop; cases hop
      | some index =>
        rw [hcls] at hop
        have hp : p ∈ s.live index := by simpa using hop
        have hle := classOf_le size index hcls
        by_cases hi : index < 16
        · obtain ⟨w', pool', C', G', L', he, hrep, -⟩ :=
            deallocate_class_spec this size index s.world s.live pool C G L p h hcls hi hp
          exact ⟨⟨w', upd s.live index (removeBlock p (s.live index))⟩,
            by simp only [step, he, hcls], pool', C', G', L', hrep⟩
        · have h16 : index = 16 := by omega
          subst h16
          obtain ⟨w', he, hrep, -⟩ :=
            deallocate_big_spec this size s.world s.live pool C G L p h hcls hp
          exact ⟨⟨w', upd s.live 16 (removeBlock p (s.live 16))⟩,
            by simp only [step, he, hcls], pool, C, G, L, hrep⟩

theorem multi_runOps_inv (this : Nat) :
    ∀ (ops : List Op) (s : Run), MInv this s → validOps this s ops = true →
      ∃ s', runOps this s ops = some s' ∧ MInv this s' := by
  intro ops
  induction ops with
  | nil => intro s hinv _; exact ⟨s, rfl, hinv⟩
  | cons op ops ih =>
    intro s hinv hv
    simp only [validOps, Bool.and_eq_true] at hv
    obtain ⟨s1, he, hinv1⟩ := multi_step_inv this s hinv op hv.1
    have hv2 := hv.2
    rw [he] at hv2
    obtain ⟨s2, he2, hinv2⟩ := ih s1 hinv1 hv2
    exact ⟨s2, by simp only [runOps, he]; exact he2, hinv2⟩

end Multi

theorem land_mask16 (x : Nat) (hx : x < 2 ^ 64) : Nat.land x (2 ^ 64 - 16) = x / 16 * 16 := by
  show x &&& (2 ^ 64 - 16) = x / 16 * 16
  apply Nat.eq_of_testBit_eq
  intro i
  have h1 : (2:Nat) ^ 64 - 16 = 2 ^ 64 - (15 + 1) := rfl
  have h15 : (15 : Nat) = 2 ^ 4 - 1 := rfl
  have h2 : x / 16 * 16 = 2 ^ 4 * (x / 2 ^ 4) := by norm_num [Nat.mul_comm]
  rw [Nat.testBit_and, h1, Nat.testBit_two_pow_sub_succ (by norm_num), h15,
    Nat.testBit_two_pow_sub_one, h2, Nat.testBit_mul_pow_two, ← Nat.shiftRight_eq_div_pow,
    Nat.testBit_shiftRight]
  by_cases h4 : 4 ≤ i
  · have e : 4 + (i - 4) = i := by omega
    by_cases h64 : i < 64
    · simp [h4, h64, e, Nat.not_lt.mpr h4]
    · have : x.testBit i = false :=
        Nat.testBit_lt_two_pow (lt_of_lt_of_le hx (Nat.pow_le_pow_right (by norm_num) (by omega)))
      simp [h4, h64, e, this]
  · have : i < 4 := by omega
    simp [h4, this]

/-- The call `align_of(size, 16)` rounds `size + 15`, computed modulo `2^64`, down to a multiple of 16. -/
theorem align_of_16 (size : Nat) :
    align_of size 16 = size_t_sub ((size + 16) % SIZE_T_RANGE) 1 / 16 * 16 := by
  unfold align_of
  have hm : (SIZE_T_RANGE - 1) - size_t_sub 16 1 = 2 ^ 64 - 16 := by decide
  rw [hm]
  apply land_mask16
  have : (size + 16) % SIZE_T_RANGE < SIZE_T_RANGE := Nat.mod_lt _ (by decide)
  unfold size_t_sub
  unfold SIZE_T_RANGE at *
  split <;> omega

theorem align_of_16_small (size : Nat) (h : size + 16 < SIZE_T_RANGE) :
    align_of size 16 = (size + 15) / 16 * 16 := by
  rw [align_of_16, Nat.mod_eq_of_lt h]
  unfold size_t_sub
  rw [if_pos (by omega)]
  rfl

theorem sizeClass_le : ∀ i, i < 16 → sizeClass i ≤ 2048 := by decide

/-- The binary search returns the first class that fits, and the table length exactly above
the largest class. -/
theorem get_size_class_index_first_fit (s : Nat) :
    ∃ i, get_size_class_index s = some i ∧ i ≤ 16 ∧
      (i < 16 → SIZE_CALSSES[i]? = some (sizeClass i) ∧ s ≤ sizeClass i ∧
        ∀ j, j < i → sizeClass j < s) ∧
      (i = 16 ↔ 2048 < s) := by
  obtain ⟨i, he, hle, hlow, hup⟩ := get_size_class_index_spec s
  refine ⟨i, he, hle, fun hi => ⟨sizeClass_get i hi, hup hi, hlow⟩, ?_⟩
  constructor
  · intro h16
    subst h16
    have := hlow 15 (by omega)
    have h15 : sizeClass 15 = 2048 := by decide
    omega
  · intro hs
    by_contra hne
    have hi : i < 16 := by omega
    have := hup hi
    have := sizeClass_le i hi
    omega

/-- Claim C3.  For every size `s`, `get_size_class_index(s)` terminates with an index `i ≤ 16`;
when `i < 16` it is the smallest index of the table `SIZE_CALSSES` with `SIZE_CALSSES[i] >= s`,
and `i = 16` (the table length) exactly when `s > 2048`. -/
theorem get_size_class_index_smallest (s : Nat) :
    ∃ i, get_size_class_index s = some i ∧ i ≤ 16 ∧
      (i < 16 → SIZE_CALSSES[i]? = some (sizeClass i) ∧ s ≤ sizeClass i ∧
        ∀ j, j < i → sizeClass j < s) ∧
      (i = 16 ↔ 2048 < s) :=
  get_size_class_index_first_fit s

namespace Multi

theorem multi_cacheBlocks_eq {c : ClassCache} {C : List Block} (hH : Holds c.blocks C)
    (hc : c.count = (C.length : Int)) : cacheBlocks c = C.map some := by
  unfold cacheBlocks
  rw [hc]
  simp only [Int.toNat_ofNat]
  apply List.ext_getElem?
  intro i
  rcases Nat.lt_or_ge i C.length with h | h
  · simp only [List.getElem?_map, List.getElem?_range h, Option.map_some']
    rw [hH i h, List.getElem?_eq_getElem h]
    rfl
  · rw [List.getElem?_eq_none (by simpa using h), List.getElem?_eq_none (by simpa using h)]

theorem MInv.class_partition {this : Nat} {s : Run} (h : MInv this s) : Partition this s := by
  obtain ⟨pool, C, G, L, hrep⟩ := h
  refine ⟨pool, hrep.pool_eq, ?_⟩
  intro i hi
  have hcl := hrep.cls i hi
  have hmem : ∀ b, b ∈ carved s.world pool i ↔ (b ∈ C i ∨ b ∈ G i ∨ b ∈ L i) := by
    intro b
    rw [← hcl.perm.mem_iff]
    simp only [List.mem_append]
  refine ⟨C i, G i, L i, multi_cacheBlocks_eq hcl.holds hcl.count_eq, hcl.chain, hrep.live_eq i hi,
    ?_, hmem, ?_⟩
  · rw [List.append_assoc]; exact hrep.class_nodup hi
  · intro j hj hji b hb
    have hnot : b ∉ carved s.world pool i := hrep.carved_disj j i hj hi hji b hb
    rw [hmem] at hnot
    exact ⟨fun h => hnot (Or.inl h), fun h => hnot (Or.inr (Or.inl h)),
      fun h => hnot (Or.inr (Or.inr h))⟩

theorem multi_run_inv (this : Nat) (ops : List Op) (hv : valid this ops = true) :
    ∃ s, run this ops = some s ∧ MInv this s :=
  multi_runOps_inv this ops (start this) (multi_start_inv this) hv

/-- Claim C2.  Multi-size pool partition invariant: in a single-threaded run on one pool in
which every `deallocate(p, n)` receives the null pointer or a pointer currently handed out
with a size `n` of the class it was allocated from, every call is defined and, after the
construction and after every call, each block carved for class `i` is in exactly one of the
cache of class `i` (cells below `count`), the free list of class `i` and the blocks handed
out for class `i`; it occurs once, and in no list of another class. -/
theorem multi_pool_partition (this : Nat) (ops : List Op) (hv : valid this ops = true) :
    ∃ s, run this ops = some s ∧ Partition this s := by
  obtain ⟨s, hr, hinv⟩ := multi_run_inv this ops hv
  exact ⟨s, hr, hinv.class_partition⟩

theorem multi_pool_partition_witness :
    valid 0 [Op.allocate 2000, Op.allocate 3000, Op.deallocate (some (0, 47488)) 2000,
        Op.deallocate (some (1, 0)) 3000] = true ∧
      ∃ s, run 0 [Op.allocate 2000, Op.allocate 3000, Op.deallocate (some (0, 47488)) 2000,
        Op.deallocate (some (1, 0)) 3000] = some s ∧ Partition 0 s :=
  ⟨by decide, multi_pool_partition 0 _ (by decide)⟩

theorem classOf_small (n : Nat) (h1 : 1 ≤ n) (h2 : n ≤ 2048) :
    ∃ index, classOf n = some index ∧ index < 16 ∧ n ≤ sizeClass index := by
  have hal : align_of n ALIGNMENT = (n + 15) / 16 * 16 :=
    align_of_16_small n (by unfold SIZE_T_RANGE; omega)
  obtain ⟨i, he, hle, hlt, h16⟩ := get_size_class_index_first_fit (align_of n ALIGNMENT)
  have hi : i < 16 := by
    by_contra hne
    have : i = 16 := by omega
    have := h16.mp this
    rw [hal] at this
    omega
  refine ⟨i, he, hi, ?_⟩
  have := (hlt hi).2.1
  rw [hal] at this
  omega

/-- Claim C4.  For every request size `n` with `1 <= n <= 2048`, the class index computed by
`allocate(n)` is below 16 and the block size of that class is at least `n`; in every state
reached by a valid single-threaded run, `allocate(n)` is served on the size-class path: it
returns the payload of a block carved for that class and leaves the arrays obtained from the
system aligned allocator unchanged. -/
theorem multi_pool_capacity (this n : Nat) (ops : List Op) (h1 : 1 ≤ n) (h2 : n ≤ 2048)
    (hv : valid this ops = true) :
    ∃ index s w' b pool', classOf n = some index ∧ index < 16 ∧ n ≤ sizeClass index ∧
      run this ops = some s ∧ allocate this n s.world = some (w', some (data b)) ∧
      w'.pools this = some pool' ∧ b ∈ carved w' pool' index ∧
      (data b).2 + sizeClass index ≤ b.2 + total_block_size (sizeClass index) ∧
      w'.system = s.world.system := by
  obtain ⟨index, hcls, hi, hle⟩ := classOf_small n h1 h2
  obtain ⟨s, hr, pool, C, G, L, hrep⟩ := multi_run_inv this ops hv
  obtain ⟨w', b, pool', C', G', ha, hrep', -, hsys⟩ :=
    allocate_class_spec this n index s.world s.live pool C G L hrep (by omega) hcls hi
  refine ⟨index, s, w', b, pool', hcls, hi, hle, hr, ha, hrep'.pool_eq, ?_, ?_, hsys⟩
  · refine (hrep'.cls index hi).perm.mem_iff.mp ?_
    rw [upd_same]
    simp
  · have := (class_facts index hi).2.2.2.2
    simp only [data, SIZEOF_FREEBLOCK]
    omega

theorem multi_pool_capacity_witness :
    1 ≤ 526 ∧ 526 ≤ 2048 ∧ valid 0 [Op.allocate 2000] = true ∧
      ∃ index s w' b pool', classOf 526 = some index ∧ index < 16 ∧ 526 ≤ sizeClass index ∧
        run 0 [Op.allocate 2000] = some s ∧
        allocate 0 526 s.world = some (w', some (data b)) ∧
        w'.pools 0 = some pool' ∧ b ∈ carved w' pool' index ∧
        (data b).2 + sizeClass index ≤ b.2 + total_block_size (sizeClass index) ∧
        w'.system = s.world.system :=
  ⟨by decide, by decide, by decide,
    multi_pool_capacity 0 526 _ (by decide) (by decide) (by decide)⟩

/-- The requests routed to the system aligned allocator are those above 2048 bytes for which
`n + 15` does not wrap: for the sizes `n > 2^64 - 16` the rounded size is `0` and the class
index is `0`. -/
theorem classOf_big (n : Nat) (hn : n < SIZE_T_RANGE) :
    (classOf n = some 16 ↔ 2048 < n ∧ n + 16 ≤ SIZE_T_RANGE) ∧
    (SIZE_T_RANGE < n + 16 → classOf n = some 0) := by
  obtain ⟨i, he, hle, hlt, h16⟩ := get_size_class_index_first_fit (align_of n ALIGNMENT)
  have hcls : classOf n = some i := he
  rw [hcls]
  have hal := align_of_16 n
  unfold SIZE_T_RANGE at hn hal ⊢
  by_cases hw : n + 16 < 2 ^ 64
  · have hv : align_of n ALIGNMENT = (n + 15) / 16 * 16 := by
      rw [show ALIGNMENT = 16 from rfl, hal, Nat.mod_eq_of_lt hw]
      unfold size_t_sub
      rw [if_pos (by omega)]
      rfl
    rw [hv] at h16
    refine ⟨?_, fun h => absurd h (by omega)⟩
    constructor
    · intro h
      have := h16.mp (Option.some.inj h)
      omega
    · intro h
      rw [h16.mpr (by omega)]
  · by_cases he16 : n + 16 = 2 ^ 64
    · have hv : align_of n ALIGNMENT = (2 ^ 64 - 1) / 16 * 16 := by
        rw [show ALIGNMENT = 16 from rfl, hal, he16, Nat.mod_self]
        rfl
      rw [hv] at h16
      refine ⟨?_, fun h => absurd h (by omega)⟩
      constructor
      · intro _; omega
      · intro _
        rw [h16.mpr (by norm_num)]
    · have hmod : (n + 16) % 2 ^ 64 = n + 16 - 2 ^ 64 := by
        rw [Nat.mod_eq_sub_mod (by omega), Nat.mod_eq_of_lt (by omega)]
      have hv : align_of n ALIGNMENT = 0 := by
        rw [show ALIGNMENT = 16 from rfl, hal, hmod]
        unfold size_t_sub
        rw [if_pos (by omega)]
        have : n + 16 - 2 ^ 64 - 1 < 16 := by omega
        rw [Nat.div_eq_of_lt this]
      rw [hv] at hlt h16
      have hi0 : i = 0 := by
        by_contra hne
        by_cases hi : i < 16
        · have := (hlt hi).2.2 0 (by omega)
          have h0 : sizeClass 0 = 8 := by decide
          omega
        · have : i = 16 := by omega
          have := h16.mp this
          omega
      subst hi0
      refine ⟨?_, fun _ => rfl⟩
      constructor
      · intro h; cases h
      · intro h; omega

/-- Claim C5: what the code does at the request size `SIZE_MAX = 2^64 - 1`, which is above
2048: the rounded size wraps to `0`, the class index is `0`, and `allocate` on a freshly
constructed pool returns the payload of a block carved for the 8-byte class; nothing is
requested from the system aligned allocator. -/
theorem multi_pool_size_max :
    align_of (SIZE_T_RANGE - 1) ALIGNMENT = 0 ∧ classOf (SIZE_T_RANGE - 1) = some 0 ∧
      ∃ w' b pool', allocate 0 (SIZE_T_RANGE - 1) (start 0).world = some (w', some (data b)) ∧
        w'.pools 0 = some pool' ∧ b ∈ carved w' pool' 0 ∧ sizeClass 0 = 8 ∧
        w'.system = [] := by
  have hcls : classOf (SIZE_T_RANGE - 1) = some 0 := by decide
  obtain ⟨pool, C, G, L, hrep⟩ := multi_start_inv 0
  obtain ⟨w', b, pool', C', G', ha, hrep', -, hsys⟩ :=
    allocate_class_spec 0 (SIZE_T_RANGE - 1) 0 (start 0).world (start 0).live pool C G L hrep
      (by decide) hcls (by decide)
  refine ⟨by decide, hcls, w', b, pool', ha, hrep'.pool_eq, ?_, by decide, by rw [hsys]; rfl⟩
  refine (hrep'.cls 0 (by decide)).perm.mem_iff.mp ?_
  rw [upd_same]
  simp

/-- Claim C6.  For every class index `i < 16` and every block index `j` below the number of
blocks of a chunk of class `i`, the block carved at byte offset `j * S` (`S` the stride of the
class: 16 bytes of header plus the class size, rounded up to a multiple of 16) has its
payload at offset `j * S + 16`, a multiple of 16, and the payload of `SIZE_CALSSES[i]` bytes
ends before the next block and inside the chunk of `N * S` bytes. -/
theorem multi_pool_payload_layout (i j chunk : Nat) (hi : i < 16)
    (hj : j < block_count (sizeClass i)) :
    total_block_size (sizeClass i) = (16 + sizeClass i + 15) / 16 * 16 ∧
    block_count (sizeClass i) = max 1 (65536 / total_block_size (sizeClass i)) ∧
    (chunk_blocks i chunk)[j]? = some (chunk, j * total_block_size (sizeClass i)) ∧
    data (chunk, j * total_block_size (sizeClass i))
      = (chunk, j * total_block_size (sizeClass i) + 16) ∧
    (j * total_block_size (sizeClass i) + 16) % 16 = 0 ∧
    j * total_block_size (sizeClass i) + 16 + sizeClass i
      ≤ (j + 1) * total_block_size (sizeClass i) ∧
    (j + 1) * total_block_size (sizeClass i)
      ≤ block_count (sizeClass i) * total_block_size (sizeClass i) := by
  obtain ⟨hS, hN, hSN, hmod, hfit⟩ := class_facts i hi
  have hall : ∀ i, i < 16 →
      total_block_size (sizeClass i) = (16 + sizeClass i + 15) / 16 * 16 ∧
      block_count (sizeClass i) = max 1 (65536 / total_block_size (sizeClass i)) := by
    decide
  have hle : (j + 1) * total_block_size (sizeClass i)
      ≤ block_count (sizeClass i) * total_block_size (sizeClass i) :=
    Nat.mul_le_mul_right _ hj
  refine ⟨(hall i hi).1, (hall i hi).2, chunk_blocks_get i chunk j hj, rfl, ?_, ?_, hle⟩
  · rw [Nat.add_mod, Nat.mul_mod, hmod]
    simp
  · rw [Nat.add_mul, Nat.one_mul]
    omega

theorem multi_pool_payload_layout_witness :
    15 < 16 ∧ 30 < block_count (sizeClass 15) ∧
    (total_block_size (sizeClass 15) = (16 + sizeClass 15 + 15) / 16 * 16 ∧
    block_count (sizeClass 15) = max 1 (65536 / total_block_size (sizeClass 15)) ∧
    (chunk_blocks 15 0)[30]? = some (0, 30 * total_block_size (sizeClass 15)) ∧
    data (0, 30 * total_block_size (sizeClass 15))
      = (0, 30 * total_block_size (sizeClass 15) + 16) ∧
    (30 * total_block_size (sizeClass 15) + 16) % 16 = 0 ∧
    30 * total_block_size (sizeClass 15) + 16 + sizeClass 15
      ≤ (30 + 1) * total_block_size (sizeClass 15) ∧
    (30 + 1) * total_block_size (sizeClass 15)
      ≤ block_count (sizeClass 15) * total_block_size (sizeClass 15)) :=
  ⟨by decide, by decide, multi_pool_payload_layout 15 30 0 (by decide) (by decide)⟩

end Multi

namespace Fixed

set_option maxRecDepth 100000 in
/-- Claim C12: what the code does when a second pool of the same type follows a destroyed
one (`BLOCK_PER_CHUNK = 256`, as for `PoolAllocator<int>`).  The destruction of the first
pool frees its chunk (array 0) and leaves 16 of its blocks in the static cache; the first
`allocate` of the second pool, whose only chunk is array 1, returns the block 15 of the freed
array 0, and `pool_instance` still designates the destroyed pool. -/
theorem fixed_pool_cache_outlives_pool :
    second_pool_allocation 256 = some ([0], some (0, 15), [1], some 0) := by
  decide

end Fixed

set_option maxRecDepth 100000 in
/-- Claim C13: the pool pointer of the cache after a call on a pool `P` can designate another
pool.  Fixed-size pool: after `A.allocate()` the cache is not empty, so `B.allocate()` does
not go through `fill_local_cache` and leaves `pool_instance` equal to `A` (it returns a block
of the chunk of `A`).  Multi-size pool: `deallocate` never writes `pool_ptr`, so after
`A.deallocate(p, 2048)` it still designates the pool `B` constructed last. -/
theorem cache_pool_pointer_stale :
    Fixed.pool_instance_after_allocate 256 = some (some 0, some (0, 14), [1]) ∧
    Multi.pool_ptr_after_deallocate = some (some 1) := by
  constructor <;> decide

namespace Fixed

set_option maxRecDepth 100000 in
/-- Claim C20: threads do not have a cache of their own in the fixed-size pool.  Thread 1
calls `allocate()`: the cache is refilled with 16 blocks and `count` is left at 15.  Thread 2
then calls `allocate()`: it reads `count = 15`, does not refill (the head of the free list is
the same before and after its call), returns the block that thread 1 stored in `blocks[14]`
and writes `count = 14`. -/
theorem fixed_pool_cache_shared_by_threads :
    (two_threads 256).map (fun r => cache_view r.1) = some (15, some (0, 14), some (0, 16)) ∧
    (two_threads 256).map (fun r => (r.2.returned.head?.join, cache_view r.2))
      = some (some (0, 14), 14, some (0, 14), some (0, 16)) := by
  constructor <;> decide

end Fixed

namespace Multi

/-- Claim C16.  The call `allocate(0)` returns the null pointer and leaves the whole memory
as it is (free lists, caches, counters, chunk stack, `pool_ptr`), and `deallocate(nullptr, n)`
leaves the memory as it is for every `n`. -/
theorem multi_pool_zero_and_null (this : Nat) (w : World) :
    allocate this 0 w = some (w, none) ∧ ∀ n, deallocate this none n w = some w :=
  ⟨rfl, fun _ => rfl⟩

/-- Claim C15.  For every `n` with `2048 < n <= SIZE_MAX - 15` and every memory, `allocate(n)`
makes one request to the system aligned allocator, of `n` rounded up to the next multiple of
16 bytes, and returns what it gets: the start of the new array, or the null pointer when the
system cannot satisfy the request, in which case no array is recorded.  `deallocate(p, n)`
of a pointer obtained in this way frees that array.  Both calls leave every pool object (the
class free lists, the counters, the chunk stack), the `next` and `size` fields of every block
and every class cache as they are. -/
theorem multi_pool_oversized_frame (this n : Nat) (w : World) (h1 : 2048 < n)
    (h2 : n ≤ SIZE_T_RANGE - 1 - 15) :
    (n ≤ (n + 15) / 16 * 16 ∧ (n + 15) / 16 * 16 < n + 16 ∧ (n + 15) / 16 * 16 % 16 = 0) ∧
    (∃ w' ptr, allocate this n w = some (w', ptr) ∧
      (w', ptr) = aligned_alloc ((n + 15) / 16 * 16)
        { w with thread_cache := { w.thread_cache with pool_ptr := some this } } ∧
      (w.system_full ((n + 15) / 16 * 16) = false →
        ptr = some (w.arrays, 0) ∧
        w'.system = (w.arrays, (n + 15) / 16 * 16) :: w.system ∧ w'.arrays = w.arrays + 1) ∧
      (w.system_full ((n + 15) / 16 * 16) = true →
        ptr = none ∧ w'.system = w.system ∧ w'.arrays = w.arrays) ∧
      w'.pools = w.pools ∧ w'.next = w.next ∧ w'.size = w.size ∧
      w'.thread_cache.caches = w.thread_cache.caches) ∧
    ∀ p : Block, p.2 = 0 → p.1 ∈ w.system.map Prod.fst →
      ∃ w', deallocate this (some p) n w = some w' ∧
        w'.system = w.system.filter (fun a => a.1 ≠ p.1) ∧
        w'.pools = w.pools ∧ w'.next = w.next ∧ w'.size = w.size ∧
        w'.thread_cache = w.thread_cache := by
  unfold SIZE_T_RANGE at h2
  have hcls : classOf n = some 16 :=
    (classOf_big n (by unfold SIZE_T_RANGE; omega)).1.mpr ⟨h1, by unfold SIZE_T_RANGE; omega⟩
  unfold classOf at hcls
  have hal : align_of n ALIGNMENT = (n + 15) / 16 * 16 := by
    by_cases hlt : n + 16 < 2 ^ 64
    · exact align_of_16_small n hlt
    · have hn : n = 2 ^ 64 - 16 := by omega
      rw [hn]
      decide
  have hlen : (16 : Nat) ≥ SIZE_CALSSES.length := by
    simp only [SIZE_CALSSES, List.length]; omega
  have hn0 : n ≠ 0 := by omega
  refine ⟨⟨by omega, by omega, by omega⟩, ?_, ?_⟩
  · have he : allocate this n w = some (aligned_alloc ((n + 15) / 16 * 16)
        { w with thread_cache := { w.thread_cache with pool_ptr := some this } }) := by
      have hcls2 := hcls
      rw [hal] at hcls2
      simp only [allocate, if_neg hn0, hal, hcls2, if_pos hlen]
    cases hfull : w.system_full ((n + 15) / 16 * 16) with
    | false =>
      have hv : aligned_alloc ((n + 15) / 16 * 16)
          { w with thread_cache := { w.thread_cache with pool_ptr := some this } }
          = ({ w with
              arrays := w.arrays + 1
              system := (w.arrays, (n + 15) / 16 * 16) :: w.system
              thread_cache := { w.thread_cache with pool_ptr := some this } },
            some (w.arrays, 0)) := by
        simp [aligned_alloc, hfull]
      refine ⟨_, _, he.trans (by rw [hv]), hv.symm, fun _ => ⟨rfl, rfl, rfl⟩,
        fun hc => (by cases hc), rfl, rfl, rfl, rfl⟩
    | true =>
      have hv : aligned_alloc ((n + 15) / 16 * 16)
          { w with thread_cache := { w.thread_cache with pool_ptr := some this } }
          = ({ w with thread_cache := { w.thread_cache with pool_ptr := some this } },
            none) := by
        simp [aligned_alloc, hfull]
      refine ⟨_, _, he.trans (by rw [hv]), hv.symm, fun hc => (by cases hc),
        fun _ => ⟨rfl, rfl, rfl⟩, rfl, rfl, rfl, rfl⟩
  · intro p hp0 hp
    refine ⟨{ w with system := w.system.filter (fun a => a.1 ≠ p.1) }, ?_, rfl, rfl, rfl, rfl,
      rfl⟩
    simp only [deallocate, hcls, if_pos hlen, free_system]
    rw [if_pos ⟨hp0, hp⟩]

theorem multi_pool_oversized_frame_witness :
    2048 < 3000 ∧ 3000 ≤ SIZE_T_RANGE - 1 - 15 ∧
    ((3000 ≤ (3000 + 15) / 16 * 16 ∧ (3000 + 15) / 16 * 16 < 3000 + 16 ∧
      (3000 + 15) / 16 * 16 % 16 = 0) ∧
    (∃ w' ptr, allocate 0 3000 full_system = some (w', ptr) ∧
      (w', ptr) = aligned_alloc ((3000 + 15) / 16 * 16)
        { full_system with
          thread_cache := { full_system.thread_cache with pool_ptr := some 0 } } ∧
      (full_system.system_full ((3000 + 15) / 16 * 16) = false →
        ptr = some (full_system.arrays, 0) ∧
        w'.system = (full_system.arrays, (3000 + 15) / 16 * 16) :: full_system.system ∧
        w'.arrays = full_system.arrays + 1) ∧
      (full_system.system_full ((3000 + 15) / 16 * 16) = true →
        ptr = none ∧ w'.system = full_system.system ∧ w'.arrays = full_system.arrays) ∧
      w'.pools = full_system.pools ∧ w'.next = full_system.next ∧
      w'.size = full_system.size ∧
      w'.thread_cache.caches = full_system.thread_cache.caches) ∧
    ∀ p : Block, p.2 = 0 → p.1 ∈ full_system.system.map Prod.fst →
      ∃ w', deallocate 0 (some p) 3000 full_system = some w' ∧
        w'.system = full_system.system.filter (fun a => a.1 ≠ p.1) ∧
        w'.pools = full_system.pools ∧ w'.next = full_system.next ∧
        w'.size = full_system.size ∧
        w'.thread_cache = full_system.thread_cache) :=
  ⟨by decide, by decide, multi_pool_oversized_frame 0 3000 _ (by decide) (by decide)⟩

/-- With the system full, `allocate(3000)` returns the null pointer and records no array, and
`deallocate(p, 5000)` of the array obtained earlier frees it. -/
theorem full_system_calls :
    (allocate 0 3000 full_system).map (fun r => (r.2, r.1.system, r.1.arrays))
      = some (none, [(0, 5008)], 1) ∧
    (deallocate 0 (some (0, 0)) 5000 full_system).map (fun r => (r.system, r.arrays))
      = some ([], 1) := by
  constructor <;> decide

end Multi

namespace Fixed

/-- The chunks after `p = allocate(); deallocate(p);` in a state of a valid run. -/
theorem allocate_deallocate_chunks (B this : Nat) (hB : 0 < B) (s : Run) (pool : Pool)
    (C G : List Block) (hinv : Inv this s pool C G) :
    ∃ w2 pool2, allocate_deallocate B this s.world = some w2 ∧ w2.pools this = some pool2 ∧
      ((s.world.local_cache.count = 0 ∧ pool.free_list = none) →
        pool2.chunks = ⟨s.world.arrays, B⟩ :: pool.chunks) ∧
      (¬ (s.world.local_cache.count = 0 ∧ pool.free_list = none) →
        pool2.chunks = pool.chunks) := by
  have hle := hinv.count_le
  obtain ⟨w1, b, pool1, C1, G1, ha, hrep1, -, -, hcase, -, -⟩ :=
    allocate_spec B this s.world s.live pool C G hB (by omega) hinv.rep
  have hC1 : C1.length ≤ 32 := by
    rcases hcase with ⟨-, hC, -⟩ | ⟨-, hC, -⟩
    · have := congrArg List.length hC
      simp only [List.length_append, List.length_singleton] at this
      omega
    · omega
  obtain ⟨w2, pool2, C2, G2, hd, hrep2, -, -, -, hch, -, -⟩ :=
    deallocate_spec this w1 (b :: s.live) pool1 C1 G1 b hrep1 hC1 (List.mem_cons_self _ _)
  have hcount : s.world.local_cache.count = 0 ↔ C = [] := by
    rw [hinv.rep.count_eq]
    constructor
    · intro h; exact List.length_eq_zero.mp (by exact_mod_cast h)
    · intro h; rw [h]; rfl
  have hfl : pool.free_list = none ↔ G = [] := by
    constructor
    · intro h
      have := hinv.rep.chain
      rw [h] at this
      exact IsChain_none_eq_nil this
    · intro h
      cases hf : pool.free_list with
      | none => rfl
      | some x =>
        have := hinv.rep.chain
        rw [hf] at this
        exact absurd h (IsChain_some_ne_nil this)
  refine ⟨w2, pool2, by simp only [allocate_deallocate, ha, hd], hrep2.pool_eq, ?_, ?_⟩
  · rintro ⟨h1, h2⟩
    rw [hch]
    rcases hcase with ⟨hne, -⟩ | ⟨-, -, ⟨hne, -⟩ | ⟨-, h⟩⟩
    · exact absurd (hcount.mp h1) hne
    · exact absurd (hfl.mp h2) hne
    · exact h
  · intro hn
    rw [hch]
    rcases hcase with ⟨-, -, -, h⟩ | ⟨hC, -, ⟨-, h⟩ | ⟨hG, -⟩⟩
    · exact h
    · exact h
    · exact absurd ⟨hcount.mpr hC, hfl.mpr hG⟩ hn

end Fixed

namespace Multi

/-- The chunk stack after `allocate` on the size-class path. -/
theorem allocate_class_chunks (this size index : Nat) (w : World) (live : Nat → List Block)
    (pool : Pool) (C G L : Nat → List Block) (h : MRep this w live pool C G L)
    (hsize : size ≠ 0) (hcls : classOf size = some index) (hi : index < 16) :
    ∃ w' b pool' C' G', allocate this size w = some (w', some (data b)) ∧
      MRep this w' (upd live index (data b :: live index)) pool' C' G'
        (upd L index (b :: L index)) ∧
      ((C index ≠ [] ∨ G index ≠ []) → pool'.allocated_chunks = pool.allocated_chunks) ∧
      ((C index = [] ∧ G index = []) → pool'.allocated_chunks =
        (w.arrays, (total_block_size (sizeClass index) * block_count (sizeClass index))
          % SIZE_T_RANGE) :: pool.allocated_chunks) := by
  have h0 := h.set_pool_ptr (some this)
  have hlen : ¬ (index ≥ SIZE_CALSSES.length) := by
    simp only [SIZE_CALSSES, List.length]; omega
  unfold classOf at hcls
  rcases List.eq_nil_or_concat (C index) with hnil | ⟨C', b, hcc⟩
  · obtain ⟨w1, pool1, G0, hf, hrep1, hne, hcase, hptr1, hsys1, _⟩ :=
      fill_class_cache_spec this index _ live pool C G L hi h0 hnil
    rcases List.eq_nil_or_concat (G0.take 8) with hnil2 | ⟨C'', b, hcc2⟩
    · cases G0 with
      | nil => exact absurd rfl hne
      | cons x r => simp at hnil2
    · rw [List.concat_eq_append] at hcc2
      obtain ⟨w2, pool2, ht, hrep2, hptr2, hch2, _, hsys2⟩ :=
        take_from_cache_spec this index w1 live pool1 _ _ L hi hrep1 C'' b
          (by rw [upd_same]; exact hcc2)
      rw [upd_upd] at hrep2
      refine ⟨w2, b, pool2, _, _, ?_, hrep2, ?_, ?_⟩
      · have hcount : ¬ ((w.thread_cache.caches index).count > 0) := by
          rw [(h.cls index hi).count_eq, hnil]; simp
        simp only [allocate, if_neg hsize, hcls, if_neg hlen, h.pool_eq, if_neg hcount, hf]
        exact ht
      · rintro (hC | hG)
        · exact absurd hnil hC
        · rcases hcase with ⟨-, -, hch, -⟩ | ⟨hG0, -⟩
          · rw [hch2, hch]
          · exact absurd hG0 hG
      · rintro ⟨-, hG⟩
        rcases hcase with ⟨hG0, -⟩ | ⟨-, -, hch, -⟩
        · exact absurd hG hG0
        · rw [hch2, hch]
  · rw [List.concat_eq_append] at hcc
    obtain ⟨w2, pool2, ht, hrep2, hptr2, hch2, _, hsys2⟩ :=
      take_from_cache_spec this index _ live pool C G L hi h0 C' b hcc
    refine ⟨w2, b, pool2, _, _, ?_, hrep2, fun _ => hch2, ?_⟩
    · have hcount : (w.thread_cache.caches index).count > 0 := by
        rw [(h.cls index hi).count_eq, hcc]; simp
      simp only [allocate, if_neg hsize, hcls, if_neg hlen, h.pool_eq, if_pos hcount]
      exact ht
    · rintro ⟨hC, -⟩
      rw [hcc] at hC
      simp at hC

open Fixed (perm_cons_removeBlock)

/-- The chunk stack after `deallocate` on the size-class path. -/
theorem deallocate_class_chunks (this size index : Nat) (w : World) (live : Nat → List Block)
    (pool : Pool) (C G L : Nat → List Block) (p : Block) (h : MRep this w live pool C G L)
    (hcls : classOf size = some index) (hi : index < 16) (hp : p ∈ live index) :
    ∃ w' pool', deallocate this (some p) size w = some w' ∧ w'.pools this = some pool' ∧
      pool'.allocated_chunks = pool.allocated_chunks := by
  have hlen : ¬ (index ≥ SIZE_CALSSES.length) := by
    simp only [SIZE_CALSSES, List.length]; omega
  unfold classOf at hcls
  rw [h.live_eq index hi] at hp
  obtain ⟨b, hb, hbp⟩ := List.mem_map.mp hp
  subst hbp
  have hcl := h.cls index hi
  have hle := h.count_le index hi
  by_cases hfull : (C index).length < 16
  · have hcond : (w.thread_cache.caches index).count < CLASS_CACHE_CAPACITY := by
      rw [hcl.count_eq]; simp only [CLASS_CACHE_CAPACITY]; omega
    have hset : setSlot CLASS_CACHE_CAPACITY (w.thread_cache.caches index).blocks
        (w.thread_cache.caches index).count (some b)
        = some (upd (w.thread_cache.caches index).blocks ((C index).length : Int) (some b)) := by
      rw [hcl.count_eq]
      simp only [setSlot, CLASS_CACHE_CAPACITY]
      rw [if_pos (by omega)]
    obtain ⟨w1, hw1⟩ : ∃ x : World, x = { w with thread_cache := { w.thread_cache with
        caches := upd w.thread_cache.caches index
          ({ blocks := upd (w.thread_cache.caches index).blocks ((C index).length : Int) (some b),
             count := (w.thread_cache.caches index).count + 1 }) } } := ⟨_, rfl⟩
    have hrep1 := h.update_class hi w1 pool (C index ++ [b]) (G index) (removeBlock b (L index))
      (by rw [hw1]; exact h.pool_eq) (by rw [hw1]) rfl (by rw [hw1]) (by rw [hw1])
      (fun _ _ => rfl)
      (by intro j hj; rw [hw1]; exact upd_ne _ _ _ _ hj)
      (by intro x _; rw [hw1])
      (by rw [hw1]; exact hcl.chain)
      (by rw [hw1]; simp only [upd_same]; exact Fixed.Holds_snoc hcl.holds b)
      (by rw [hw1]; simp only [upd_same]; rw [hcl.count_eq]; simp)
      (by
        rw [List.perm_iff_count]; intro a
        have h2 := List.perm_iff_count.mp (perm_cons_removeBlock hb) a
        simp only [List.count_append, List.count_cons, List.count_nil] at h2 ⊢
        omega)
      (by simp only [List.length_append, List.length_singleton]; omega)
    obtain ⟨w2, pool2, hcd, hrep2, -, hch2, -⟩ :=
      count_deallocation_spec this index w1 _ pool _ _ _ hi hrep1
    refine ⟨w2, pool2, ?_, hrep2.pool_eq, hch2⟩
    rw [hw1] at hcd
    simp only [deallocate, hcls, if_neg hlen, from_data_data, store_freed, if_pos hcond, hset]
    exact hcd
  · have hcond : ¬ ((w.thread_cache.caches index).count < CLASS_CACHE_CAPACITY) := by
      rw [hcl.count_eq]; simp only [CLASS_CACHE_CAPACITY]; omega
    obtain ⟨w1, pool1, hr, hrep1, -, hch1, -⟩ :=
      multi_return_half_spec this index w live pool C G L hi h b hb (by omega)
    obtain ⟨w2, pool2, hcd, hrep2, -, hch2, -⟩ :=
      count_deallocation_spec this index w1 _ pool1 _ _ _ hi hrep1
    refine ⟨w2, pool2, ?_, hrep2.pool_eq, by rw [hch2, hch1]⟩
    simp only [deallocate, hcls, if_neg hlen, from_data_data, store_freed, if_neg hcond, hr]
    exact hcd

/-- The chunk stack after `p = allocate(n); deallocate(p, n);` in a state of a valid run. -/
theorem multi_allocate_deallocate_chunks (this n : Nat) (hn : n ≠ 0) (s : Run)
    (hinv : MInv this s) :
    ∃ pool index w2 pool2, s.world.pools this = some pool ∧ classOf n = some index ∧
      allocate_deallocate this n s.world = some w2 ∧ w2.pools this = some pool2 ∧
      ((index < 16 ∧ (s.world.thread_cache.caches index).count = 0 ∧
          (pool.chunk_classes index).free_list = none) →
        pool2.allocated_chunks =
          (s.world.arrays, (total_block_size (sizeClass index) * block_count (sizeClass index))
            % SIZE_T_RANGE) :: pool.allocated_chunks) ∧
      (¬ (index < 16 ∧ (s.world.thread_cache.caches index).count = 0 ∧
          (pool.chunk_classes index).free_list = none) →
        pool2.allocated_chunks = pool.allocated_chunks) := by
  obtain ⟨pool, C, G, L, hrep⟩ := hinv
  obtain ⟨index, hcls, hle⟩ := classOf_some n
  by_cases hi : index < 16
  · obtain ⟨w1, b, pool1, C1, G1, ha, hrep1, hsame, hnew⟩ :=
      allocate_class_chunks this n index s.world s.live pool C G L hrep hn hcls hi
    obtain ⟨w2, pool2, hd, hp2, hch2⟩ :=
      deallocate_class_chunks this n index w1 _ pool1 C1 G1 _ (data b) hrep1 hcls hi
        (by rw [upd_same]; exact List.mem_cons_self _ _)
    have hcl := hrep.cls index hi
    have hcount : (s.world.thread_cache.caches index).count = 0 ↔ C index = [] := by
      rw [hcl.count_eq]
      constructor
      · intro h; exact List.length_eq_zero.mp (by exact_mod_cast h)
      · intro h; rw [h]; rfl
    have hfl : (pool.chunk_classes index).free_list = none ↔ G index = [] := by
      constructor
      · intro h
        have := hcl.chain
        rw [h] at this
        exact Fixed.IsChain_none_eq_nil this
      · intro h
        cases hf : (pool.chunk_classes index).free_list with
        | none => rfl
        | some x =>
          have := hcl.chain
          rw [hf] at this
          exact absurd h (Fixed.IsChain_some_ne_nil this)
    refine ⟨pool, index, w2, pool2, hrep.pool_eq, hcls, by simp only [allocate_deallocate, ha, hd],
      hp2, ?_, ?_⟩
    · rintro ⟨-, h1, h2⟩
      rw [hch2]
      exact hnew ⟨hcount.mp h1, hfl.mp h2⟩
    · intro hneg
      rw [hch2]
      apply hsame
      by_contra hcon
      push_neg at hcon
      exact hneg ⟨hi, hcount.mpr hcon.1, hfl.mpr hcon.2⟩
  · have h16 : index = 16 := by omega
    subst h16
    obtain ⟨w1, ptr, ha, -, -, hcase⟩ :=
      allocate_big_spec this n s.world s.live pool C G L hrep hn hcls
    rcases hcase with ⟨-, hptr, hrep1⟩ | ⟨-, hptr, hrep1⟩
    · subst hptr
      obtain ⟨w2, hd, hrep2, -⟩ :=
        deallocate_big_spec this n w1 _ pool C G L (s.world.arrays, 0) hrep1 hcls
          (by rw [upd_same]; exact List.mem_cons_self _ _)
      exact ⟨pool, 16, w2, pool, hrep.pool_eq, hcls, by simp only [allocate_deallocate, ha, hd],
        hrep2.pool_eq, fun h => absurd h.1 (by omega), fun _ => rfl⟩
    · subst hptr
      exact ⟨pool, 16, w1, pool, hrep.pool_eq, hcls,
        by simp only [allocate_deallocate, ha, deallocate],
        hrep1.pool_eq, fun h => absurd h.1 (by omega), fun _ => rfl⟩

end Multi

set_option maxRecDepth 100000 in
/-- Claim C11, as stated, fails: in the state reached after 256 calls of `allocate` on a
fixed-size pool with `BLOCK_PER_CHUNK = 256` the cache and the free list are empty and the
pool owns the chunk of array 0; the calls `p = allocate(); deallocate(p);` made in that state
leave the pool with the two chunks of the arrays 1 and 0. -/
theorem allocate_deallocate_adds_chunk :
    (Fixed.run 256 0 (List.replicate 256 Fixed.Op.allocate)).bind
        (fun s => Fixed.chunk_arrays 0 s.world) = some [0] ∧
    (Fixed.run 256 0 (List.replicate 256 Fixed.Op.allocate)).bind
        (fun s => (Fixed.allocate_deallocate 256 0 s.world).bind (Fixed.chunk_arrays 0))
      = some [1, 0] := by
  constructor <;> decide

/-- Claim C11, amended.  In every state reached by a valid single-threaded run, the calls
`p = allocate(); deallocate(p);` (fixed-size pool, `BLOCK_PER_CHUNK ≥ 1`) and
`p = allocate(n); deallocate(p, n);` with `n > 0` (multi-size pool) are defined and remove no
chunk.  When, at the call of `allocate`, the cache (of the size class of the request) is empty
and the free list (of that class) is null, one chunk is pushed on the chunk stack, above the
chunks owned before; in every other state, and for every request of the multi-size pool that
is routed to the system allocator, the chunk stack is left as it is. -/
theorem allocate_deallocate_chunks_grow (B thisF : Nat) (opsF : List Fixed.Op) (hB : 0 < B)
    (hvF : Fixed.valid B thisF opsF = true) (thisM n : Nat) (opsM : List Multi.Op)
    (hn : n ≠ 0) (hvM : Multi.valid thisM opsM = true) :
    (∃ s pool w2 pool2, Fixed.run B thisF opsF = some s ∧ s.world.pools thisF = some pool ∧
      Fixed.allocate_deallocate B thisF s.world = some w2 ∧ w2.pools thisF = some pool2 ∧
      ((s.world.local_cache.count = 0 ∧ pool.free_list = none) →
        pool2.chunks = ⟨s.world.arrays, B⟩ :: pool.chunks) ∧
      (¬ (s.world.local_cache.count = 0 ∧ pool.free_list = none) →
        pool2.chunks = pool.chunks)) ∧
    (∃ s pool index w2 pool2, Multi.run thisM opsM = some s ∧
      s.world.pools thisM = some pool ∧ Multi.classOf n = some index ∧
      Multi.allocate_deallocate thisM n s.world = some w2 ∧ w2.pools thisM = some pool2 ∧
      ((index < 16 ∧ (s.world.thread_cache.caches index).count = 0 ∧
          (pool.chunk_classes index).free_list = none) →
        pool2.allocated_chunks =
          (s.world.arrays, (Multi.total_block_size (sizeClass index) *
            Multi.block_count (sizeClass index)) % SIZE_T_RANGE) :: pool.allocated_chunks) ∧
      (¬ (index < 16 ∧ (s.world.thread_cache.caches index).count = 0 ∧
          (pool.chunk_classes index).free_list = none) →
        pool2.allocated_chunks = pool.allocated_chunks)) := by
  constructor
  · obtain ⟨s, pool, C, G, hr, hinv⟩ := Fixed.run_inv B thisF hB opsF hvF
    obtain ⟨w2, pool2, h1, h2, h3, h4⟩ :=
      Fixed.allocate_deallocate_chunks B thisF hB s pool C G hinv
    exact ⟨s, pool, w2, pool2, hr, hinv.rep.pool_eq, h1, h2, h3, h4⟩
  · obtain ⟨s, hr, hinv⟩ := Multi.multi_run_inv thisM opsM hvM
    obtain ⟨pool, index, w2, pool2, h1, h2, h3, h4, h5, h6⟩ :=
      Multi.multi_allocate_deallocate_chunks thisM n hn s hinv
    exact ⟨s, pool, index, w2, pool2, hr, h1, h2, h3, h4, h5, h6⟩

theorem allocate_deallocate_chunks_grow_witness :
    0 < 2 ∧ Fixed.valid 2 0 [Fixed.Op.allocate, Fixed.Op.allocate] = true ∧ 2000 ≠ 0 ∧
    Multi.valid 0 [Multi.Op.allocate 2000] = true ∧
    ((∃ s pool w2 pool2, Fixed.run 2 0 [Fixed.Op.allocate, Fixed.Op.allocate] = some s ∧
      s.world.pools 0 = some pool ∧
      Fixed.allocate_deallocate 2 0 s.world = some w2 ∧ w2.pools 0 = some pool2 ∧
      ((s.world.local_cache.count = 0 ∧ pool.free_list = none) →
        pool2.chunks = ⟨s.world.arrays, 2⟩ :: pool.chunks) ∧
      (¬ (s.world.local_cache.count = 0 ∧ pool.free_list = none) →
        pool2.chunks = pool.chunks)) ∧
    (∃ s pool index w2 pool2, Multi.run 0 [Multi.Op.allocate 2000] = some s ∧
      s.world.pools 0 = some pool ∧ Multi.classOf 2000 = some index ∧
      Multi.allocate_deallocate 0 2000 s.world = some w2 ∧ w2.pools 0 = some pool2 ∧
      ((index < 16 ∧ (s.world.thread_cache.caches index).count = 0 ∧
          (pool.chunk_classes index).free_list = none) →
        pool2.allocated_chunks =
          (s.world.arrays, (Multi.total_block_size (sizeClass index) *
            Multi.block_count (sizeClass index)) % SIZE_T_RANGE) :: pool.allocated_chunks) ∧
      (¬ (index < 16 ∧ (s.world.thread_cache.caches index).count = 0 ∧
          (pool.chunk_classes index).free_list = none) →
        pool2.allocated_chunks = pool.allocated_chunks))) :=
  ⟨by decide, by decide, by decide, by decide,
    allocate_deallocate_chunks_grow 2 0 _ (by decide) (by decide) 0 2000 _ (by decide)
      (by decide)⟩

namespace LockFreeStack

end LockFreeStack

namespace Multi

/-- The effect of the flush of one class. -/
theorem flush_class_spec (this index : Nat) (w : World) (live : Nat → List Block)
    (pool : Pool) (C G L : Nat → List Block) (hi : index < 16)
    (h : MRep this w live pool C G L) :
    ∃ w' pool', flush_class this index w = some w' ∧
      MRep this w' live pool' (upd C index []) (upd G index (C index ++ G index)) L ∧
      w'.thread_cache.pool_ptr = w.thread_cache.pool_ptr ∧
      (∀ j, j ≠ index → pool'.chunk_classes j = pool.chunk_classes j ∧
        w'.thread_cache.caches j = w.thread_cache.caches j) ∧
      (C index = [] → w' = w ∧ pool' = pool) := by
  have hcl := h.cls index hi
  have hle := h.count_le index hi
  have hnd := h.class_nodup hi
  have hCnd : (C index).Nodup := (List.nodup_append.mp hnd).1
  have hCG : ∀ x, x ∈ C index → x ∉ G index := fun x hx hg =>
    (List.nodup_append.mp hnd).2.2 hx (List.mem_append_left _ hg)
  by_cases hnil : C index = []
  · have hcount : (w.thread_cache.caches index).count = 0 := by
      rw [hcl.count_eq, hnil]; rfl
    refine ⟨w, pool, by simp only [flush_class, hcount, if_true], ?_, rfl,
      fun _ _ => ⟨rfl, rfl⟩, fun _ => ⟨rfl, rfl⟩⟩
    have e1 : upd C index [] = C := by rw [← hnil]; exact upd_self C index
    have e2 : upd G index (C index ++ G index) = G := by
      rw [hnil, List.nil_append]; exact upd_self G index
    rw [e1, e2]
    exact h
  · have hpos : 1 ≤ (C index).length := by
      cases hc : C index with
      | nil => exact absurd hc hnil
      | cons x r => simp
    have hcount : ¬ ((w.thread_cache.caches index).count = 0) := by
      rw [hcl.count_eq]; omega
    have hcapI : ((C index).length : Int) ≤ CLASS_CACHE_CAPACITY := by
      simp only [CLASS_CACHE_CAPACITY]; omega
    obtain ⟨next1, hl, hseg, hframe⟩ := link_blocks_spec CLASS_CACHE_CAPACITY
      (w.thread_cache.caches index).blocks (C index) w.next (C index).length hcl.holds
      hcapI hCnd (le_refl _)
    have hm1lt : (C index).length - 1 < (C index).length := by omega
    have htail : (C index)[(C index).length - 1]? = some (C index)[(C index).length - 1] :=
      List.getElem?_eq_getElem hm1lt
    have hnot := not_mem_take_of_nodup hCnd htail
    have hseg2 := IsSeg_snoc_upd (pool.chunk_classes index).free_list hseg htail hnot
    have hmm : (C index).length - 1 + 1 = (C index).length := by omega
    rw [hmm, List.take_length] at hseg2
    have hs0 : slot CLASS_CACHE_CAPACITY (w.thread_cache.caches index).blocks 0
        = some ((C index)[0]?) := by
      simp only [slot, CLASS_CACHE_CAPACITY]
      rw [if_pos (by omega)]
      have := hcl.holds 0 (by omega)
      simp only [Nat.cast_zero] at this
      rw [this]
    have hst : slot CLASS_CACHE_CAPACITY (w.thread_cache.caches index).blocks
        (((C index).length : Int) - 1) = some (some (C index)[(C index).length - 1]) := by
      simp only [slot, CLASS_CACHE_CAPACITY]
      rw [if_pos (by omega)]
      have := hcl.holds ((C index).length - 1) hm1lt
      have hc : (((C index).length - 1 : Nat) : Int) = ((C index).length : Int) - 1 := by omega
      rw [hc] at this
      rw [this, htail]
    obtain ⟨next2, hnext2⟩ : ∃ n : NextMap, n =
        upd next1 (C index)[(C index).length - 1] (pool.chunk_classes index).free_list :=
      ⟨_, rfl⟩
    obtain ⟨pool', hpool'⟩ : ∃ p : Pool, p = { pool with
        chunk_classes := upd pool.chunk_classes index
          ({ pool.chunk_classes index with free_list := (C index)[0]? }) } := ⟨_, rfl⟩
    obtain ⟨w', hw'⟩ : ∃ x : World, x = { w with
        next := next2
        pools := (upd w.pools this (some pool'))
        thread_cache := { w.thread_cache with
          caches := upd w.thread_cache.caches index
            ({ w.thread_cache.caches index with count := 0 }) } } := ⟨_, rfl⟩
    have heq : flush_class this index w = some w' := by
      simp only [flush_class, if_neg hcount, h.pool_eq]
      rw [hcl.count_eq, hl]
      simp only [hs0, hst]
      rw [hw', hpool', hnext2]
    have hchain : IsChain next2 ((C index)[0]?) (C index ++ G index) := by
      refine IsSeg_append _ _ _ _ _ (by rw [hnext2]; exact hseg2) ?_
      refine IsSeg_congr _ _ _ ?_ hcl.chain
      intro x hx
      have hxC : x ∉ C index := fun hc' => hCG x hc' hx
      rw [hnext2, upd_ne _ _ _ _ (fun hxe => hxC (by rw [hxe]; exact List.getElem_mem _))]
      exact hframe x (fun hxt => hxC (List.mem_of_mem_take hxt))
    have hbcar : ∀ x, x ∈ C index → x ∈ carved w pool index := by
      intro x hx
      exact hcl.perm.mem_iff.mp (List.mem_append_left _ hx)
    have := h.update_class hi w' pool' [] (C index ++ G index) (L index)
      (by rw [hw']; simp) (by rw [hw']) (by rw [hpool']) (by rw [hw']) (by rw [hw'])
      (by intro j hj; rw [hpool']; exact upd_ne _ _ _ _ hj)
      (by intro j hj; rw [hw']; exact upd_ne _ _ _ _ hj)
      (by
        intro x hx
        rw [hw']
        show next2 x = w.next x
        rw [hnext2, upd_ne _ _ _ _ (fun hxe => hx (hbcar x (by rw [hxe]; exact List.getElem_mem _)))]
        exact hframe x (fun hxt => hx (hbcar x (List.mem_of_mem_take hxt))))
      (by rw [hw', hpool']; simpa using hchain)
      (by intro i hi'; exact absurd hi' (by simp))
      (by rw [hw']; simp only [upd_same]; rfl)
      (by simp)
      (by simp)
    rw [← h.live_eq index hi, upd_self, upd_self] at this
    refine ⟨w', pool', heq, this, by rw [hw'], ?_, fun hc => absurd hc hnil⟩
    intro j hj
    exact ⟨by rw [hpool']; exact upd_ne _ _ _ _ hj, by rw [hw']; exact upd_ne _ _ _ _ hj⟩

/-- The effect of `~MultiSizeThreadCache()` when `pool_ptr` designates the pool described. -/
theorem thread_cache_destructor_spec (this : Nat) (w : World) (live : Nat → List Block)
    (pool : Pool) (C G L : Nat → List Block) (h : MRep this w live pool C G L)
    (hptr : w.thread_cache.pool_ptr = some this) :
    ∃ w' pool', thread_cache_destructor w = some w' ∧
      MRep this w' live pool' (fun i => if i < 16 then [] else C i)
        (fun i => if i < 16 then C i ++ G i else G i) L ∧
      ∀ j, C j = [] → pool'.chunk_classes j = pool.chunk_classes j ∧
        w'.thread_cache.caches j = w.thread_cache.caches j := by
  have hlen : SIZE_CALSSES.length = 16 := rfl
  obtain ⟨w', hloop, pool', hrep, hsame⟩ := forLoop_induct
    (fun index st => flush_class this index st)
    (fun k st => ∃ pool', MRep this st live pool' (fun i => if i < k then [] else C i)
        (fun i => if i < k then C i ++ G i else G i) L ∧
      ∀ j, C j = [] → pool'.chunk_classes j = pool.chunk_classes j ∧
        st.thread_cache.caches j = w.thread_cache.caches j)
    16 0 w ⟨pool, by simpa using h, fun _ _ => ⟨rfl, rfl⟩⟩
    (by
      intro k st _ hk ⟨poolk, hrepk, hsamek⟩
      have hk16 : k < 16 := by omega
      obtain ⟨st', pool', hf, hrep', -, hfr, hnil⟩ :=
        flush_class_spec this k st live poolk _ _ L hk16 hrepk
      refine ⟨st', hf, pool', ?_, ?_⟩
      · have e1 : upd (fun i => if i < k then [] else C i) k []
            = fun i => if i < k + 1 then [] else C i := by
          funext i
          simp only [upd]
          by_cases hik : i = k
          · rw [if_pos hik, if_pos (by omega)]
          · rw [if_neg hik]
            by_cases hlt : i < k
            · rw [if_pos hlt, if_pos (by omega)]
            · rw [if_neg hlt, if_neg (by omega)]
        have e2 : upd (fun i => if i < k then C i ++ G i else G i) k
            ((fun i => if i < k then [] else C i) k
              ++ (fun i => if i < k then C i ++ G i else G i) k)
            = fun i => if i < k + 1 then C i ++ G i else G i := by
          funext i
          by_cases hik : i = k
          · subst hik; simp [upd]
          · by_cases hlt : i < k
            · simp [upd, hik, hlt, Nat.lt_succ_of_lt hlt]
            · have : ¬ i < k + 1 := by omega
              simp [upd, hik, hlt, this]
        rw [e1, e2] at hrep'
        exact hrep'
      · intro j hj
        by_cases hjk : j = k
        · have hCk : (fun i => if i < k then [] else C i) k = [] := by
            simp only [lt_irrefl, if_false]
            rw [← hjk]; exact hj
          obtain ⟨e1, e2⟩ := hnil hCk
          rw [e1, e2]
          exact hsamek j hj
        · obtain ⟨e1, e2⟩ := hfr j hjk
          rw [e1, e2]
          exact hsamek j hj)
  refine ⟨w', pool', ?_, by simpa using hrep, hsame⟩
  simp only [thread_cache_destructor, hptr, hlen]
  simpa using hloop

/-- A call keeps `pool_ptr` on the only pool of a run. -/
theorem multi_step_ptr (this : Nat) (s : Run) (hinv : MInv this s)
    (hptr : s.world.thread_cache.pool_ptr = some this) (op : Op)
    (hop : opValid s op = true) :
    ∃ s', step this s op = some s' ∧ MInv this s' ∧
      s'.world.thread_cache.pool_ptr = some this := by
  obtain ⟨pool, C, G, L, h⟩ := hinv
  cases op with
  | allocate size =>
    by_cases hsize : size = 0
    · refine ⟨⟨s.world, s.live⟩, ?_, ⟨pool, C, G, L, h⟩, hptr⟩
      simp only [step, allocate, if_pos hsize]
    · obtain ⟨index, hcls, hle⟩ := classOf_some size
      by_cases hi : index < 16
      · obtain ⟨w', b, pool', C', G', he, hrep, hp, -⟩ :=
          allocate_class_spec this size index s.world s.live pool C G L h hsize hcls hi
        exact ⟨⟨w', upd s.live index (data b :: s.live index)⟩,
          by simp only [step, he, hcls], ⟨pool', C', G', _, hrep⟩, hp⟩
      · have h16 : index = 16 := by omega
        subst h16
        obtain ⟨w', ptr, he, hp, -, hcase⟩ :=
          allocate_big_spec this size s.world s.live pool C G L h hsize hcls
        rcases hcase with ⟨-, hnull, hrep⟩ | ⟨-, hnull, hrep⟩
        · subst hnull
          exact ⟨⟨w', upd s.live 16 ((s.world.arrays, 0) :: s.live 16)⟩,
            by simp only [step, he, hcls], ⟨pool, C, G, L, hrep⟩, hp⟩
        · subst hnull
          exact ⟨⟨w', s.live⟩, by simp only [step, he, hcls], ⟨pool, C, G, L, hrep⟩, hp⟩
  | deallocate ptr size =>
    cases ptr with
    | none => exact ⟨s, by simp only [step, deallocate], ⟨pool, C, G, L, h⟩, hptr⟩
    | some p =>
      simp only [opValid] at hop
      cases hcls : classOf size with
      | none => rw [hcls] at hop; cases hop
      | some index =>
        rw [hcls] at hop
        have hp : p ∈ s.live index := by simpa using hop
        have hle := classOf_le size index hcls
        by_cases hi : index < 16
        · obtain ⟨w', pool', C', G', L', he, hrep, hp'⟩ :=
            deallocate_class_spec this size index s.world s.live pool C G L p h hcls hi hp
          exact ⟨⟨w', upd s.live index (removeBlock p (s.live index))⟩,
            by simp only [step, he, hcls], ⟨pool', C', G', L', hrep⟩, by rw [hp', hptr]⟩
        · have h16 : index = 16 := by omega
          subst h16
          obtain ⟨w', he, hrep, htc, -⟩ :=
            deallocate_big_spec this size s.world s.live pool C G L p h hcls hp
          exact ⟨⟨w', upd s.live 16 (removeBlock p (s.live 16))⟩,
            by simp only [step, he, hcls], ⟨pool, C, G, L, hrep⟩, by rw [htc, hptr]⟩

theorem multi_runOps_ptr (this : Nat) :
    ∀ (ops : List Op) (s : Run), MInv this s → s.world.thread_cache.pool_ptr = some this →
      validOps this s ops = true →
      ∃ s', runOps this s ops = some s' ∧ MInv this s' ∧
        s'.world.thread_cache.pool_ptr = some this := by
  intro ops
  induction ops with
  | nil => intro s hinv hp _; exact ⟨s, rfl, hinv, hp⟩
  | cons op ops ih =>
    intro s hinv hp hv
    simp only [validOps, Bool.and_eq_true] at hv
    obtain ⟨s1, he, hinv1, hp1⟩ := multi_step_ptr this s hinv hp op hv.1
    have hv2 := hv.2
    rw [he] at hv2
    obtain ⟨s2, he2, hinv2, hp2⟩ := ih s1 hinv1 hp1 hv2
    exact ⟨s2, by simp only [runOps, he]; exact he2, hinv2, hp2⟩

theorem multi_run_ptr (this : Nat) (ops : List Op) (hv : valid this ops = true) :
    ∃ s, run this ops = some s ∧ MInv this s ∧ s.world.thread_cache.pool_ptr = some this :=
  multi_runOps_ptr this ops (start this) (multi_start_inv this) rfl hv

end Multi

/-- Claim C14.  In every state reached by a valid single-threaded run, the flush of the
cache is defined and loses no block.  Fixed-size pool (`return_thread_cache`, and
`~ThreadCache`, which gives the same result): when the cache holds the blocks `C` (cells
below `count`), with `C` not empty, and `pool_instance` designates the pool, the free list
becomes `C` followed by its previous blocks `G` and `count` becomes 0; when the cache is
empty or `pool_instance` is null the memory is left as it is.  Multi-size pool
(`~MultiSizeThreadCache` with `pool_ptr` designating the pool): for every class `i` the free
list becomes the cached blocks `C i` followed by its previous blocks `G i` and `count`
becomes 0, and a class with an empty cache keeps its `ChunkClass` and its cache as they are;
with a null `pool_ptr` the memory is left as it is. -/
theorem termination_flush (B thisF : Nat) (opsF : List Fixed.Op) (hB : 0 < B)
    (hvF : Fixed.valid B thisF opsF = true) (thisM : Nat) (opsM : List Multi.Op)
    (hvM : Multi.valid thisM opsM = true) :
    (∃ s pool C G w' pool', Fixed.run B thisF opsF = some s ∧
      s.world.pools thisF = some pool ∧
      Fixed.cacheBlocks s.world.local_cache = C.map some ∧
      IsChain s.world.next pool.free_list G ∧
      Fixed.return_thread_cache s.world = some w' ∧
      Fixed.thread_cache_destructor s.world = some w' ∧ w'.pools thisF = some pool' ∧
      ((C ≠ [] ∧ s.world.local_cache.pool_instance = some thisF) →
        IsChain w'.next pool'.free_list (C ++ G) ∧ w'.local_cache.count = 0) ∧
      ((C = [] ∨ s.world.local_cache.pool_instance = none) → w' = s.world)) ∧
    (∃ (s : Multi.Run) (pool : Multi.Pool) (C G : Nat → List Block) (w' : Multi.World)
        (pool' : Multi.Pool), Multi.run thisM opsM = some s ∧
      s.world.pools thisM = some pool ∧ s.world.thread_cache.pool_ptr = some thisM ∧
      (∀ i, i < 16 → Multi.cacheBlocks (s.world.thread_cache.caches i) = (C i).map some ∧
        IsChain s.world.next (pool.chunk_classes i).free_list (G i)) ∧
      Multi.thread_cache_destructor s.world = some w' ∧ w'.pools thisM = some pool' ∧
      ∀ i, i < 16 →
        IsChain w'.next (pool'.chunk_classes i).free_list (C i ++ G i) ∧
        (w'.thread_cache.caches i).count = 0 ∧
        (C i = [] → pool'.chunk_classes i = pool.chunk_classes i ∧
          w'.thread_cache.caches i = s.world.thread_cache.caches i)) ∧
    (∀ w : Fixed.World, w.local_cache.pool_instance = none →
      Fixed.return_thread_cache w = some w ∧ Fixed.thread_cache_destructor w = some w) ∧
    (∀ w : Multi.World, w.thread_cache.pool_ptr = none →
      Multi.thread_cache_destructor w = some w) := by
  refine ⟨?_, ?_, ?_, ?_⟩
  · obtain ⟨s, pool, C, G, hr, hinv⟩ := Fixed.run_inv B thisF hB opsF hvF
    have hle := hinv.count_le
    obtain ⟨w', pool', C', G', hret, hrep', hcase, -⟩ :=
      Fixed.return_thread_cache_spec thisF s.world s.live pool C G hinv.rep (by omega) hinv.inst
    have hcount : s.world.local_cache.count > 0 ↔ C ≠ [] := by
      rw [hinv.rep.count_eq]
      constructor
      · intro h hc; rw [hc] at h; simp at h
      · intro h
        cases hc : C with
        | nil => exact absurd hc h
        | cons x r => simp
    refine ⟨s, pool, C, G, w', pool', hr, hinv.rep.pool_eq,
      Fixed.cacheBlocks_eq hinv.rep.holds hinv.rep.count_eq, hinv.rep.chain, hret, ?_,
      hrep'.pool_eq, ?_, ?_⟩
    · unfold Fixed.thread_cache_destructor
      by_cases hc : s.world.local_cache.count > 0 ∧ s.world.local_cache.pool_instance ≠ none
      · rw [if_pos hc]; exact hret
      · rw [if_neg hc]
        rcases hcase with ⟨hi, hne, -⟩ | ⟨-, hw, -⟩
        · exact absurd ⟨hcount.mpr hne, by rw [hi]; simp⟩ hc
        · rw [hw]
    · rintro ⟨hne, hi⟩
      rcases hcase with ⟨-, -, hC', hG'⟩ | ⟨hor, -⟩
      · have hch := hrep'.chain
        rw [hG'] at hch
        refine ⟨hch, ?_⟩
        rw [hrep'.count_eq, hC']; rfl
      · rcases hor with h | h
        · rw [hi] at h; cases h
        · exact absurd h hne
    · intro hor
      rcases hcase with ⟨hi, hne, -⟩ | ⟨-, hw, -⟩
      · rcases hor with h | h
        · exact absurd h hne
        · rw [hi] at h; cases h
      · exact hw
  · obtain ⟨s, hr, ⟨pool, C, G, L, hrep⟩, hptr⟩ := Multi.multi_run_ptr thisM opsM hvM
    obtain ⟨w', pool', hd, hrep', hsame⟩ :=
      Multi.thread_cache_destructor_spec thisM s.world s.live pool C G L hrep hptr
    refine ⟨s, pool, C, G, w', pool', hr, hrep.pool_eq, hptr, ?_, hd, hrep'.pool_eq, ?_⟩
    · intro i hi
      exact ⟨Multi.multi_cacheBlocks_eq (hrep.cls i hi).holds (hrep.cls i hi).count_eq,
        (hrep.cls i hi).chain⟩
    · intro i hi
      have hcl := hrep'.cls i hi
      have hch := hcl.chain
      have hcn := hcl.count_eq
      simp only [if_pos hi] at hch hcn
      exact ⟨hch, by rw [hcn]; rfl, hsame i⟩
  · intro w hw
    constructor
    · simp only [Fixed.return_thread_cache, hw]
    · unfold Fixed.thread_cache_destructor
      rw [if_neg (by rw [hw]; simp)]
  · intro w hw
    simp only [Multi.thread_cache_destructor, hw]

theorem termination_flush_witness :
    0 < 2 ∧ Fixed.valid 2 0 [Fixed.Op.allocate] = true ∧
    Multi.valid 0 [Multi.Op.allocate 2000] = true ∧
    ((∃ s pool C G w' pool', Fixed.run 2 0 [Fixed.Op.allocate] = some s ∧
      s.world.pools 0 = some pool ∧
      Fixed.cacheBlocks s.world.local_cache = C.map some ∧
      IsChain s.world.next pool.free_list G ∧
      Fixed.return_thread_cache s.world = some w' ∧
      Fixed.thread_cache_destructor s.world = some w' ∧ w'.pools 0 = some pool' ∧
      ((C ≠ [] ∧ s.world.local_cache.pool_instance = some 0) →
        IsChain w'.next pool'.free_list (C ++ G) ∧ w'.local_cache.count = 0) ∧
      ((C = [] ∨ s.world.local_cache.pool_instance = none) → w' = s.world)) ∧
    (∃ (s : Multi.Run) (pool : Multi.Pool) (C G : Nat → List Block) (w' : Multi.World)
        (pool' : Multi.Pool), Multi.run 0 [Multi.Op.allocate 2000] = some s ∧
      s.world.pools 0 = some pool ∧ s.world.thread_cache.pool_ptr = some 0 ∧
      (∀ i, i < 16 → Multi.cacheBlocks (s.world.thread_cache.caches i) = (C i).map some ∧
        IsChain s.world.next (pool.chunk_classes i).free_list (G i)) ∧
      Multi.thread_cache_destructor s.world = some w' ∧ w'.pools 0 = some pool' ∧
      ∀ i, i < 16 →
        IsChain w'.next (pool'.chunk_classes i).free_list (C i ++ G i) ∧
        (w'.thread_cache.caches i).count = 0 ∧
        (C i = [] → pool'.chunk_classes i = pool.chunk_classes i ∧
          w'.thread_cache.caches i = s.world.thread_cache.caches i)) ∧
    (∀ w : Fixed.World, w.local_cache.pool_instance = none →
      Fixed.return_thread_cache w = some w ∧ Fixed.thread_cache_destructor w = some w) ∧
    (∀ w : Multi.World, w.thread_cache.pool_ptr = none →
      Multi.thread_cache_destructor w = some w)) :=
  ⟨by decide, by decide, by decide,
    termination_flush 2 0 _ (by decide) (by decide) 0 _ (by decide)⟩

namespace Fixed

theorem run_snoc (B this : Nat) (ops : List Op) (op : Op) (r r' : Run)
    (hr : run B this ops = some r) (hs : step B this r op = some r') :
    run B this (ops ++ [op]) = some r' := by
  unfold run at hr ⊢
  cases hst : start B this with
  | none => rw [hst] at hr; cases hr
  | some s0 =>
    rw [hst] at hr
    simp only at hr
    show runOps B this s0 (ops ++ [op]) = some r'
    rw [runOps_append, hr]
    simp only [runOps, hs]

theorem valid_snoc (B this : Nat) (ops : List Op) (op : Op) (r : Run)
    (hv : valid B this ops = true) (hr : run B this ops = some r)
    (ho : opValid r op = true) : valid B this (ops ++ [op]) = true := by
  unfold valid at hv ⊢
  unfold run at hr
  cases hst : start B this with
  | none => rfl
  | some s0 =>
    rw [hst] at hr hv
    simp only at hr hv
    show validOps B this s0 (ops ++ [op]) = true
    rw [validOps_append, hv, hr]
    simp only [validOps, ho, Bool.true_and]
    cases step B this r op <;> rfl

theorem step_allocate_eq (B this : Nat) (r r' : Run) (b : Block)
    (h : step B this r Op.allocate = some r') (hret : r'.returned = some b :: r.returned) :
    allocate B this r.world = some (r'.world, some b) := by
  simp only [step] at h
  cases ha : allocate B this r.world with
  | none => rw [ha] at h; cases h
  | some res =>
    obtain ⟨w, p⟩ := res
    rw [ha] at h
    cases p with
    | none =>
      simp only [Option.some.injEq] at h
      rw [← h] at hret
      simp at hret
    | some x =>
      simp only [Option.some.injEq] at h
      rw [← h] at hret ⊢
      simp only [List.cons.injEq, Option.some.injEq] at hret
      rw [hret.1]

theorem step_deallocate_eq (B this : Nat) (r r' : Run) (p : Block)
    (h : step B this r (Op.deallocate (some p)) = some r') :
    deallocate this r.world (some p) = some r'.world := by
  simp only [step] at h
  cases hd : deallocate this r.world (some p) with
  | none => rw [hd] at h; cases h
  | some w =>
    rw [hd] at h
    simp only [Option.some.injEq] at h
    rw [← h]

theorem held_append (hs : List (Option PoolPtr)) (x : Option PoolPtr) :
    held (hs ++ [x]) = held hs ++ ptrOf x := by
  simp [held, List.flatMap_append]

theorem held_set_perm (x : Option PoolPtr) :
    ∀ (hs : List (Option PoolPtr)) (i : Nat) (y : Option PoolPtr), hs[i]? = some y →
      (ptrOf y ++ held (hs.set i x)).Perm (ptrOf x ++ held hs) := by
  intro hs
  induction hs with
  | nil => intro i y h; simp at h
  | cons z hs ih =>
    intro i y h
    cases i with
    | zero =>
      simp only [List.getElem?_cons_zero, Option.some.injEq] at h
      subst h
      simp only [List.set_cons_zero, held, List.flatMap_cons]
      rw [List.perm_iff_count]
      intro a
      simp only [List.count_append]
      omega
    | succ i =>
      simp only [List.getElem?_cons_succ] at h
      have := ih i y h
      simp only [List.set_cons_succ, held, List.flatMap_cons] at this ⊢
      rw [List.perm_iff_count]
      intro a
      have h2 := List.perm_iff_count.mp this a
      simp only [List.count_append] at h2 ⊢
      omega

theorem mem_held_of_getElem (hs : List (Option PoolPtr)) (i : Nat) (h : PoolPtr) (p : Block)
    (hi : hs[i]? = some (some h)) (hp : h.ptr_ = some p) : p ∈ held hs := by
  simp only [held, List.mem_flatMap]
  refine ⟨some h, List.getElem?_mem hi, ?_⟩
  obtain ⟨ptr, pool⟩ := h
  simp only at hp
  subst hp
  simp [ptrOf]

theorem ptrOf_null (q : Option Nat) : ptrOf (some { ptr_ := none, pool_ := q }) = [] := rfl

theorem ptrOf_some (p : Block) (q : Option Nat) :
    ptrOf (some { ptr_ := some p, pool_ := q }) = [p] := rfl

theorem HInv.mem_live {B this : Nat} {s : Handles} {r : Run} {pool : Pool}
    {C G : List Block} (h : HInv B this s r pool C G) {i : Nat} {hd : PoolPtr} {p : Block}
    (hi : s.handles[i]? = some (some hd)) (hp : hd.ptr_ = some p) :
    p ∈ r.live ∧ hd.pool_ = some this :=
  ⟨h.held_perm.mem_iff.mpr (mem_held_of_getElem _ i hd p hi hp),
    h.owner hd (List.getElem?_mem hi) (by rw [hp]; simp)⟩

/-- The effect of `reset()` on a handle alive. -/
theorem reset_inv (B this : Nat) (hB : 0 < B) (s : Handles) (r : Run) (pool : Pool)
    (C G : List Block) (h : HInv B this s r pool C G) (i : Nat) (hd : PoolPtr)
    (hi : s.handles[i]? = some (some hd)) :
    ∃ s' r' pool' C' G', reset i s = some s' ∧ HInv B this s' r' pool' C' G' ∧
      s'.handles[i]? = some (some { ptr_ := none, pool_ := hd.pool_ }) ∧
      s'.handles.length = s.handles.length ∧
      (∀ k, k ≠ i → s'.handles[k]? = s.handles[k]?) ∧
      (∀ p, hd.ptr_ = some p → deallocate this s.world (some p) = some s'.world ∧
        s'.calls = s.calls ++ [(this, Op.deallocate (some p))]) ∧
      (hd.ptr_ = none → s' = s) := by
  obtain ⟨ptr, q⟩ := hd
  cases ptr with
  | none =>
    refine ⟨s, r, pool, C, G, by simp only [reset, hi], h, hi, rfl, fun _ _ => rfl,
      fun p hp => (by cases hp), fun _ => rfl⟩
  | some p =>
    obtain ⟨hlive, hq⟩ := h.mem_live hi rfl
    simp only at hq
    subst hq
    obtain ⟨r', pool', C', G', hstep, hinv', -, -, hdl⟩ :=
      step_inv B this hB r pool C G h.inv (Op.deallocate (some p))
        (by simp only [opValid]; exact decide_eq_true hlive)
    have hd := step_deallocate_eq B this r r' p hstep
    rw [h.world_eq] at hd
    obtain ⟨hlive', -⟩ := hdl p rfl
    have hlt : i < s.handles.length := by
      by_contra hge
      rw [List.getElem?_eq_none (by omega)] at hi
      cases hi
    refine ⟨{ world := r'.world
              handles := s.handles.set i (some { ptr_ := none, pool_ := some this })
              calls := s.calls ++ [(this, Op.deallocate (some p))] }, r', pool', C', G',
      by simp only [reset, hi, hd], ?_, ?_, by simp, ?_, ?_, fun hc => (by cases hc)⟩
    · refine ⟨?_, ?_, rfl, hinv', ?_, ?_, ?_⟩
      · simp only [List.map_append, List.map_cons, List.map_nil]
        exact run_snoc B this _ _ r r' h.run_eq hstep
      · simp only [List.map_append, List.map_cons, List.map_nil]
        exact valid_snoc B this _ _ r h.valid_eq h.run_eq
          (by simp only [opValid]; exact decide_eq_true hlive)
      · intro c hc
        rcases List.mem_append.mp hc with hc | hc
        · exact h.on_pool c hc
        · simp only [List.mem_singleton] at hc
          rw [hc]
      · rw [hlive']
        show (removeBlock p r.live).Perm
          (held (s.handles.set i (some { ptr_ := none, pool_ := some this })))
        have h1 := held_set_perm (some { ptr_ := none, pool_ := some this }) s.handles i _ hi
        rw [List.perm_iff_count]
        intro a
        have c1 := List.perm_iff_count.mp h1 a
        have c2 := List.perm_iff_count.mp (perm_cons_removeBlock hlive) a
        have c3 := List.perm_iff_count.mp h.held_perm a
        simp only [ptrOf_null, ptrOf_some, List.count_append, List.count_cons,
          List.count_nil, List.nil_append] at c1 c2
        omega
      · intro x hx hne
        rcases List.mem_or_eq_of_mem_set hx with hx | hx
        · exact h.owner x hx hne
        · simp only [Option.some.injEq] at hx
          rw [hx]
    · show (s.handles.set i (some { ptr_ := none, pool_ := some this }))[i]? = _
      rw [List.getElem?_set_self hlt]
    · intro k hk
      show (s.handles.set i (some { ptr_ := none, pool_ := some this }))[k]? = _
      rw [List.getElem?_set_ne (Ne.symm hk)]
    · intro p' hp'
      simp only [Option.some.injEq] at hp'
      subst hp'
      exact ⟨hd, rfl⟩

theorem getElem?_lt {α : Type} {l : List α} {i : Nat} {x : α} (h : l[i]? = some x) :
    i < l.length := by
  by_contra hge
  rw [List.getElem?_eq_none (by omega)] at h
  cases h

/-- The effect of `make`. -/
theorem make_inv (B this : Nat) (hB : 0 < B) (s : Handles) (r : Run) (pool : Pool)
    (C G : List Block) (h : HInv B this s r pool C G) :
    ∃ s' r' pool' C' G', make B this s = some s' ∧ HInv B this s' r' pool' C' G' := by
  obtain ⟨r', pool', C', G', hstep, hinv', -, hal, -⟩ :=
    step_inv B this hB r pool C G h.inv Op.allocate rfl
  obtain ⟨b, hlive, hret⟩ := hal rfl
  have ha := step_allocate_eq B this r r' b hstep hret
  rw [h.world_eq] at ha
  refine ⟨{ world := r'.world
            handles := s.handles ++ [some { ptr_ := some b, pool_ := some this }]
            calls := s.calls ++ [(this, Op.allocate)] }, r', pool', C', G',
    by simp only [make, ha], ?_, ?_, rfl, hinv', ?_, ?_, ?_⟩
  · simp only [List.map_append, List.map_cons, List.map_nil]
    exact run_snoc B this _ _ r r' h.run_eq hstep
  · simp only [List.map_append, List.map_cons, List.map_nil]
    exact valid_snoc B this _ _ r h.valid_eq h.run_eq rfl
  · intro c hc
    rcases List.mem_append.mp hc with hc | hc
    · exact h.on_pool c hc
    · simp only [List.mem_singleton] at hc
      rw [hc]
  · rw [hlive]
    show (b :: r.live).Perm (held (s.handles ++ [some { ptr_ := some b, pool_ := some this }]))
    rw [held_append, ptrOf_some]
    rw [List.perm_iff_count]
    intro a
    have c3 := List.perm_iff_count.mp h.held_perm a
    simp only [List.count_append, List.count_cons, List.count_nil]
    omega
  · intro x hx hne
    rcases List.mem_append.mp hx with hx | hx
    · exact h.owner x hx hne
    · simp only [List.mem_singleton, Option.some.injEq] at hx
      rw [hx]

/-- The effect of the move constructor. -/
theorem move_construct_inv (B this : Nat) (s : Handles) (r : Run) (pool : Pool)
    (C G : List Block) (h : HInv B this s r pool C G) (i : Nat) (hd : PoolPtr)
    (hi : s.handles[i]? = some (some hd)) :
    ∃ s', move_construct i s = some s' ∧ HInv B this s' r pool C G ∧
      s'.world = s.world ∧ s'.calls = s.calls ∧
      s'.handles[i]? = some (some { ptr_ := none, pool_ := none }) ∧
      s'.handles[s.handles.length]? = some (some hd) := by
  have hlt := getElem?_lt hi
  refine ⟨{ s with handles := (s.handles.set i (some { ptr_ := none, pool_ := none })
      ++ [some { ptr_ := hd.ptr_, pool_ := hd.pool_ }]) }, by simp only [move_construct, hi],
    ⟨h.run_eq, h.valid_eq, h.world_eq, h.inv, h.on_pool, ?_, ?_⟩, rfl, rfl, ?_, ?_⟩
  · show r.live.Perm (held (s.handles.set i (some { ptr_ := none, pool_ := none })
      ++ [some hd]))
    rw [held_append]
    have h1 := held_set_perm (some { ptr_ := none, pool_ := none }) s.handles i _ hi
    rw [List.perm_iff_count]
    intro a
    have c1 := List.perm_iff_count.mp h1 a
    have c3 := List.perm_iff_count.mp h.held_perm a
    simp only [ptrOf_null, List.count_append, List.nil_append] at c1 ⊢
    omega
  · intro x hx hne
    rcases List.mem_append.mp hx with hx | hx
    · rcases List.mem_or_eq_of_mem_set hx with hx | hx
      · exact h.owner x hx hne
      · simp only [Option.some.injEq] at hx
        rw [hx] at hne
        exact absurd rfl hne
    · simp only [List.mem_singleton, Option.some.injEq] at hx
      rw [hx] at hne ⊢
      exact h.owner hd (List.getElem?_mem hi) hne
  · show (s.handles.set i (some { ptr_ := none, pool_ := none }) ++ [some hd])[i]? = _
    rw [List.getElem?_append_left (by simpa using hlt), List.getElem?_set_self hlt]
  · show (s.handles.set i (some { ptr_ := none, pool_ := none }) ++ [some hd])[s.handles.length]?
      = _
    rw [List.getElem?_append_right (by simp)]
    simp

/-- The effect of the destructor of a handle. -/
theorem handle_destructor_inv (B this : Nat) (hB : 0 < B) (s : Handles) (r : Run)
    (pool : Pool) (C G : List Block) (h : HInv B this s r pool C G) (i : Nat) (hd : PoolPtr)
    (hi : s.handles[i]? = some (some hd)) :
    ∃ s' r' pool' C' G', handle_destructor i s = some s' ∧ HInv B this s' r' pool' C' G' ∧
      s'.handles = (List.set s.handles i none) ∧
      (hd.ptr_ = none → s'.world = s.world ∧ s'.calls = s.calls) := by
  obtain ⟨s1, r1, pool1, C1, G1, hr, h1, h1i, h1len, h1k, -, h1n⟩ :=
    reset_inv B this hB s r pool C G h i hd hi
  have hlt := getElem?_lt hi
  have hset : s1.handles.set i none = s.handles.set i none := by
    apply List.ext_getElem?
    intro k
    by_cases hk : k = i
    · subst hk
      rw [List.getElem?_set_self (by omega), List.getElem?_set_self hlt]
    · rw [List.getElem?_set_ne (Ne.symm hk), List.getElem?_set_ne (Ne.symm hk), h1k k hk]
  refine ⟨{ s1 with handles := s1.handles.set i none }, r1, pool1, C1, G1,
    by simp only [handle_destructor, hr],
    ⟨h1.run_eq, h1.valid_eq, h1.world_eq, h1.inv, h1.on_pool, ?_, ?_⟩, hset, ?_⟩
  · show r1.live.Perm (held (s1.handles.set i none))
    have h2 := held_set_perm none s1.handles i _ h1i
    rw [List.perm_iff_count]
    intro a
    have c1 := List.perm_iff_count.mp h2 a
    have c3 := List.perm_iff_count.mp h1.held_perm a
    have e : ptrOf none = [] := rfl
    simp only [ptrOf_null, e, List.count_append, List.nil_append] at c1
    omega
  · intro x hx hne
    rcases List.mem_or_eq_of_mem_set hx with hx | hx
    · exact h1.owner x hx hne
    · cases hx
  · intro hn
    rw [h1n hn]
    exact ⟨rfl, rfl⟩

/-- The effect of the move assignment between two distinct handles. -/
theorem move_assign_inv (B this : Nat) (hB : 0 < B) (s : Handles) (r : Run) (pool : Pool)
    (C G : List Block) (h : HInv B this s r pool C G) (i j : Nat) (a b : PoolPtr)
    (hi : s.handles[i]? = some (some a)) (hj : s.handles[j]? = some (some b))
    (hij : i ≠ j) :
    ∃ s' r' pool' C' G', move_assign i j s = some s' ∧ HInv B this s' r' pool' C' G' ∧
      s'.handles[i]? = some (some b) ∧
      s'.handles[j]? = some (some { ptr_ := none, pool_ := none }) ∧
      (∀ k, k ≠ i → k ≠ j → s'.handles[k]? = s.handles[k]?) ∧
      (∀ p, a.ptr_ = some p → deallocate this s.world (some p) = some s'.world ∧
        s'.calls = s.calls ++ [(this, Op.deallocate (some p))]) ∧
      (a.ptr_ = none → s'.world = s.world ∧ s'.calls = s.calls) := by
  obtain ⟨s1, r1, pool1, C1, G1, hr, h1, h1i, h1len, h1k, h1p, h1n⟩ :=
    reset_inv B this hB s r pool C G h i a hi
  have hlti := getElem?_lt hi
  have hltj := getElem?_lt hj
  have h1j : s1.handles[j]? = some (some b) := by rw [h1k j (Ne.symm hij)]; exact hj
  have hmid : (s1.handles.set i (some { ptr_ := b.ptr_, pool_ := b.pool_ }))[j]?
      = some (some b) := by
    rw [List.getElem?_set_ne hij]; exact h1j
  refine ⟨{ s1 with handles :=
      (List.set (s1.handles.set i (some { ptr_ := b.ptr_, pool_ := b.pool_ })) j
        (some { ptr_ := none, pool_ := none })) }, r1, pool1, C1, G1,
    by simp only [move_assign, hi, hj, hij, ne_eq, not_false_eq_true, if_true, hr, h1j],
    ⟨h1.run_eq, h1.valid_eq, h1.world_eq, h1.inv, h1.on_pool, ?_, ?_⟩, ?_, ?_, ?_, h1p, ?_⟩
  · show r1.live.Perm (held (List.set (s1.handles.set i (some b)) j
      (some { ptr_ := none, pool_ := none })))
    have p1 := held_set_perm (some b) s1.handles i _ h1i
    have p2 := held_set_perm (some { ptr_ := none, pool_ := none })
      (s1.handles.set i (some b)) j _ hmid
    rw [List.perm_iff_count]
    intro x
    have c1 := List.perm_iff_count.mp p1 x
    have c2 := List.perm_iff_count.mp p2 x
    have c3 := List.perm_iff_count.mp h1.held_perm x
    simp only [ptrOf_null, List.count_append, List.nil_append] at c1 c2
    omega
  · intro x hx hne
    rcases List.mem_or_eq_of_mem_set hx with hx | hx
    · rcases List.mem_or_eq_of_mem_set hx with hx | hx
      · exact h1.owner x hx hne
      · simp only [Option.some.injEq] at hx
        rw [hx] at hne ⊢
        exact h.owner b (List.getElem?_mem hj) hne
    · simp only [Option.some.injEq] at hx
      rw [hx] at hne
      exact absurd rfl hne
  · show (List.set (s1.handles.set i (some b)) j (some { ptr_ := none, pool_ := none }))[i]? = _
    rw [List.getElem?_set_ne (Ne.symm hij), List.getElem?_set_self (by omega)]
  · show (List.set (s1.handles.set i (some b)) j (some { ptr_ := none, pool_ := none }))[j]? = _
    rw [List.getElem?_set_self (by rw [List.length_set]; omega)]
  · intro k hki hkj
    show (List.set (s1.handles.set i (some b)) j (some { ptr_ := none, pool_ := none }))[k]? = _
    rw [List.getElem?_set_ne (Ne.symm hkj), List.getElem?_set_ne (Ne.symm hki), h1k k hki]
  · intro hn
    rw [h1n hn]
    exact ⟨rfl, rfl⟩

theorem alive_iff (s : Handles) (i : Nat) (h : alive s i = true) :
    ∃ hd, s.handles[i]? = some (some hd) := by
  unfold alive at h
  cases hx : s.handles[i]? with
  | none => rw [hx] at h; cases h
  | some y =>
    cases y with
    | none => rw [hx] at h; cases h
    | some hd => exact ⟨hd, rfl⟩

theorem handle_step_inv (B this : Nat) (hB : 0 < B) (s : Handles) (r : Run) (pool : Pool)
    (C G : List Block) (h : HInv B this s r pool C G) (op : HandleOp)
    (hok : handle_ok s op = true) :
    ∃ s' r' pool' C' G', handle_step B this s op = some s' ∧
      HInv B this s' r' pool' C' G' := by
  cases op with
  | make => exact make_inv B this hB s r pool C G h
  | move_construct i =>
    obtain ⟨hd, hi⟩ := alive_iff s i hok
    obtain ⟨s', he, h', -⟩ := move_construct_inv B this s r pool C G h i hd hi
    exact ⟨s', r, pool, C, G, he, h'⟩
  | move_assign i j =>
    simp only [handle_ok, Bool.and_eq_true] at hok
    obtain ⟨a, hi⟩ := alive_iff s i hok.1
    obtain ⟨b, hj⟩ := alive_iff s j hok.2
    by_cases hij : i = j
    · exact ⟨s, r, pool, C, G, by simp only [handle_step, move_assign, hi, hj, hij,
        ne_eq, not_true_eq_false, if_false], h⟩
    · obtain ⟨s', r', pool', C', G', he, h', -⟩ :=
        move_assign_inv B this hB s r pool C G h i j a b hi hj hij
      exact ⟨s', r', pool', C', G', he, h'⟩
  | reset i =>
    obtain ⟨hd, hi⟩ := alive_iff s i hok
    obtain ⟨s', r', pool', C', G', he, h', -⟩ := reset_inv B this hB s r pool C G h i hd hi
    exact ⟨s', r', pool', C', G', he, h'⟩
  | destructor i =>
    obtain ⟨hd, hi⟩ := alive_iff s i hok
    obtain ⟨s', r', pool', C', G', he, h', -⟩ :=
      handle_destructor_inv B this hB s r pool C G h i hd hi
    exact ⟨s', r', pool', C', G', he, h'⟩

theorem handle_runOps_inv (B this : Nat) (hB : 0 < B) :
    ∀ (ops : List HandleOp) (s : Handles) (r : Run) (pool : Pool) (C G : List Block),
      HInv B this s r pool C G → handle_validOps B this s ops = true →
      ∃ s' r' pool' C' G', handle_runOps B this s ops = some s' ∧
        HInv B this s' r' pool' C' G' := by
  intro ops
  induction ops with
  | nil => intro s r pool C G h _; exact ⟨s, r, pool, C, G, rfl, h⟩
  | cons op ops ih =>
    intro s r pool C G h hv
    simp only [handle_validOps, Bool.and_eq_true] at hv
    obtain ⟨s1, r1, pool1, C1, G1, he, h1⟩ := handle_step_inv B this hB s r pool C G h op hv.1
    have hv2 := hv.2
    rw [he] at hv2
    obtain ⟨s2, r2, pool2, C2, G2, he2, h2⟩ := ih s1 r1 pool1 C1 G1 h1 hv2
    exact ⟨s2, r2, pool2, C2, G2, by simp only [handle_runOps, he]; exact he2, h2⟩

theorem handle_run_inv (B this : Nat) (hB : 0 < B) (ops : List HandleOp)
    (hv : handle_valid B this ops = true) :
    ∃ s r pool C G, handle_run B this ops = some s ∧ HInv B this s r pool C G := by
  obtain ⟨s0, pool, C, G, hs, hinv, hl, -⟩ := start_inv B this hB
  have hst : handle_start B this = some { world := s0.world, handles := [], calls := [] } := by
    unfold start at hs
    unfold handle_start
    cases hc : construct B this World.init with
    | none => rw [hc] at hs; cases hs
    | some w =>
      rw [hc] at hs
      simp only [Option.some.injEq] at hs
      rw [← hs]
  have h0 : HInv B this { world := s0.world, handles := [], calls := [] } s0 pool C G := by
    refine ⟨?_, ?_, rfl, hinv, fun c hc => absurd hc (by simp), ?_, fun x hx => absurd hx (by simp)⟩
    · simp only [List.map_nil, run, hs, runOps]
    · simp only [List.map_nil, valid, hs, validOps]
    · rw [hl]; exact List.Perm.refl _
  unfold handle_valid at hv
  rw [hst] at hv
  obtain ⟨s', r', pool', C', G', he, h'⟩ := handle_runOps_inv B this hB ops _ s0 pool C G h0 hv
  exact ⟨s', r', pool', C', G', by simp only [handle_run, hst]; exact he, h'⟩

theorem held_all_none :
    ∀ hs : List (Option PoolPtr), hs.all Option.isNone = true → held hs = [] := by
  intro hs
  induction hs with
  | nil => intro _; rfl
  | cons x hs ih =>
    intro h
    simp only [List.all_cons, Bool.and_eq_true] at h
    cases x with
    | none =>
      have := ih h.2
      simp only [held] at this
      simp [held, ptrOf, this]
    | some y => simp at h

/-- Claim C18.  In every state reached by a program that uses the handles of one allocator
(each statement naming only handles alive): the move assignment `a = std::move(b)` between two
distinct handles alive is defined, leaves `a` with the pointer and the pool of `b` and `b`
with a null pointer and a null pool, and leaves the other handles as they are; when `a` held
a pointer `p` its effect on the memory is that of the one call `deallocate(p)` on the pool,
and when `a` held a null pointer it makes no call and leaves the memory as it is.  The move
assignment of a handle to itself changes nothing.  After `reset()` a second `reset()` changes
nothing, so the two together make at most one call of `deallocate`. -/
theorem pool_ptr_move_assign (B this : Nat) (ops : List HandleOp) (hB : 0 < B)
    (hv : handle_valid B this ops = true) :
    ∃ s, handle_run B this ops = some s ∧
      (∀ i j a b, s.handles[i]? = some (some a) → s.handles[j]? = some (some b) → i ≠ j →
        ∃ s', move_assign i j s = some s' ∧
          s'.handles[i]? = some (some b) ∧
          s'.handles[j]? = some (some { ptr_ := none, pool_ := none }) ∧
          (∀ k, k ≠ i → k ≠ j → s'.handles[k]? = s.handles[k]?) ∧
          (∀ p, a.ptr_ = some p → deallocate this s.world (some p) = some s'.world ∧
            s'.calls = s.calls ++ [(this, Op.deallocate (some p))]) ∧
          (a.ptr_ = none → s'.world = s.world ∧ s'.calls = s.calls)) ∧
      (∀ i a, s.handles[i]? = some (some a) → move_assign i i s = some s) ∧
      (∀ i a, s.handles[i]? = some (some a) →
        ∃ s1, reset i s = some s1 ∧ reset i s1 = some s1 ∧
          s1.calls.length ≤ s.calls.length + 1) := by
  obtain ⟨s, r, pool, C, G, hr, h⟩ := handle_run_inv B this hB ops hv
  refine ⟨s, hr, ?_, ?_, ?_⟩
  · intro i j a b hi hj hij
    obtain ⟨s', r', pool', C', G', he, -, h1, h2, h3, h4, h5⟩ :=
      move_assign_inv B this hB s r pool C G h i j a b hi hj hij
    exact ⟨s', he, h1, h2, h3, h4, h5⟩
  · intro i a hi
    simp only [move_assign, hi, ne_eq, not_true_eq_false, if_false]
  · intro i a hi
    obtain ⟨s1, r1, pool1, C1, G1, he, -, h1i, -, -, hp, hn⟩ :=
      reset_inv B this hB s r pool C G h i a hi
    refine ⟨s1, he, by simp only [reset, h1i], ?_⟩
    cases hptr : a.ptr_ with
    | none => rw [hn hptr]; omega
    | some p => rw [(hp p hptr).2]; simp

set_option maxRecDepth 100000 in
theorem pool_ptr_move_assign_witness :
    0 < 85 ∧ handle_valid 85 0 [HandleOp.make, HandleOp.make] = true ∧
    ∃ s, handle_run 85 0 [HandleOp.make, HandleOp.make] = some s ∧
      (∀ i j a b, s.handles[i]? = some (some a) → s.handles[j]? = some (some b) → i ≠ j →
        ∃ s', move_assign i j s = some s' ∧
          s'.handles[i]? = some (some b) ∧
          s'.handles[j]? = some (some { ptr_ := none, pool_ := none }) ∧
          (∀ k, k ≠ i → k ≠ j → s'.handles[k]? = s.handles[k]?) ∧
          (∀ p, a.ptr_ = some p → deallocate 0 s.world (some p) = some s'.world ∧
            s'.calls = s.calls ++ [(0, Op.deallocate (some p))]) ∧
          (a.ptr_ = none → s'.world = s.world ∧ s'.calls = s.calls)) ∧
      (∀ i a, s.handles[i]? = some (some a) → move_assign i i s = some s) ∧
      (∀ i a, s.handles[i]? = some (some a) →
        ∃ s1, reset i s = some s1 ∧ reset i s1 = some s1 ∧
          s1.calls.length ≤ s.calls.length + 1) :=
  ⟨by decide, by decide, pool_ptr_move_assign 85 0 _ (by decide) (by decide)⟩

end Fixed

namespace Multi

/-- Claim C28, as stated, fails: for the largest class (2048 bytes) the stride is
`16 + 2048 = 2064` bytes and one chunk of 64 KiB is carved into `65536 / 2064 = 31` blocks,
fewer than 32. -/
theorem largest_class_block_count :
    sizeClass 15 = 2048 ∧ total_block_size (sizeClass 15) = 2064 ∧
    CHUNK_SIZE / total_block_size (sizeClass 15) = 31 ∧ block_count (sizeClass 15) = 31 ∧
    ¬ (32 ≤ block_count (sizeClass 15)) := by
  decide

/-- Claim C28, amended.  For every one of the 16 size classes the number of blocks carved from
one chunk is `65536 / stride`, with the stride the header size plus the class size rounded up
to the alignment; it is at least 31, and at least 32 for every class but the largest. -/
theorem block_count_bound (i : Nat) (hi : i < 16) :
    total_block_size (sizeClass i) = (SIZEOF_FREEBLOCK + sizeClass i + 15) / 16 * 16 ∧
    block_count (sizeClass i) = CHUNK_SIZE / total_block_size (sizeClass i) ∧
    31 ≤ block_count (sizeClass i) ∧ (i ≠ 15 → 32 ≤ block_count (sizeClass i)) := by
  have hall : ∀ i, i < 16 →
      total_block_size (sizeClass i) = (SIZEOF_FREEBLOCK + sizeClass i + 15) / 16 * 16 ∧
      block_count (sizeClass i) = CHUNK_SIZE / total_block_size (sizeClass i) ∧
      31 ≤ block_count (sizeClass i) ∧ (i ≠ 15 → 32 ≤ block_count (sizeClass i)) := by
    decide
  exact hall i hi

theorem block_count_bound_witness :
    14 < 16 ∧
    (total_block_size (sizeClass 14) = (SIZEOF_FREEBLOCK + sizeClass 14 + 15) / 16 * 16 ∧
    block_count (sizeClass 14) = CHUNK_SIZE / total_block_size (sizeClass 14) ∧
    31 ≤ block_count (sizeClass 14) ∧ (14 ≠ 15 → 32 ≤ block_count (sizeClass 14))) :=
  ⟨by decide, block_count_bound 14 (by decide)⟩

theorem align_of_small_facts (n : Nat) (h1 : 1 ≤ n) (h2 : n ≤ 2048) :
    align_of n ALIGNMENT = (n + 15) / 16 * 16 := by
  have : n + 16 < SIZE_T_RANGE := by unfold SIZE_T_RANGE; omega
  exact align_of_16_small n this

/-- Claim C29.  For every request size `n` with `1 <= n <= 2048` the class index computed by
`allocate(n)` and `deallocate(p, n)`, `get_size_class_index(align_of(n, 16))`, is neither 0
(the 8-byte class) nor 2 (the 24-byte class): it is 1 (the 16-byte class) for `n` in `1..16`
and 3 (the 32-byte class) for `n` in `17..32`. -/
theorem unreachable_classes (n : Nat) (h1 : 1 ≤ n) (h2 : n ≤ 2048) :
    ∃ index, get_size_class_index (align_of n ALIGNMENT) = some index ∧
      classOf n = some index ∧ index < 16 ∧ index ≠ 0 ∧ index ≠ 2 ∧
      (n ≤ 16 → index = 1 ∧ sizeClass index = 16) ∧
      (17 ≤ n → n ≤ 32 → index = 3 ∧ sizeClass index = 32) := by
  obtain ⟨i, he, hle, hlt, h16⟩ := get_size_class_index_first_fit (align_of n ALIGNMENT)
  have hal := align_of_small_facts n h1 h2
  rw [hal] at hlt h16
  have hi : i < 16 := by
    by_contra hge
    have : i = 16 := by omega
    have := h16.mp this
    omega
  obtain ⟨-, hfit, hmin⟩ := hlt hi
  have s0 : sizeClass 0 = 8 := by decide
  have s1 : sizeClass 1 = 16 := by decide
  have s2 : sizeClass 2 = 24 := by decide
  have s3 : sizeClass 3 = 32 := by decide
  have hne0 : i ≠ 0 := by
    intro h0
    rw [h0, s0] at hfit
    omega
  have hne2 : i ≠ 2 := by
    intro h2'
    rw [h2', s2] at hfit
    have := hmin 1 (by omega)
    rw [s1] at this
    omega
  refine ⟨i, he, he, hi, hne0, hne2, ?_, ?_⟩
  · intro hn
    have hi1 : i = 1 := by
      by_contra hne
      have := hmin 1 (by omega)
      rw [s1] at this
      omega
    exact ⟨hi1, by rw [hi1, s1]⟩
  · intro ha hb
    have hi3 : i = 3 := by
      by_contra hne
      by_cases hlt3 : i < 3
      · have hi1 : i = 1 := by omega
        rw [hi1, s1] at hfit
        omega
      · have := hmin 3 (by omega)
        rw [s3] at this
        omega
    exact ⟨hi3, by rw [hi3, s3]⟩

theorem unreachable_classes_witness :
    1 ≤ 8 ∧ 8 ≤ 2048 ∧
    ∃ index, get_size_class_index (align_of 8 ALIGNMENT) = some index ∧
      classOf 8 = some index ∧ index < 16 ∧ index ≠ 0 ∧ index ≠ 2 ∧
      (8 ≤ 16 → index = 1 ∧ sizeClass index = 16) ∧
      (17 ≤ 8 → 8 ≤ 32 → index = 3 ∧ sizeClass index = 32) :=
  ⟨by decide, by decide, unreachable_classes 8 (by decide) (by decide)⟩

end Multi

theorem IsChain_head {next : NextMap} {p : BlockPtr} {G : List Block}
    (h : IsChain next p G) : p = G.head? := by
  cases G with
  | nil => exact h
  | cons b G => exact h.1

namespace Fixed

theorem valid_take (B this : Nat) (ops : List Op) (k : Nat) (hv : valid B this ops = true) :
    valid B this (ops.take k) = true := by
  unfold valid at hv ⊢
  cases hst : start B this with
  | none => rfl
  | some s0 =>
    rw [hst] at hv
    simp only at hv ⊢
    have h := validOps_append B this (ops.take k) (ops.drop k) s0
    rw [List.take_append_drop, hv] at h
    have h2 := h.symm
    simp only [Bool.and_eq_true] at h2
    exact h2.1

/-- Claim C25.  In every state reached by a valid single-threaded run, with the cache holding
the blocks `C` (`m` of them) and the free list the blocks `G`, `deallocate(p)` of a pointer
handed out is defined and: if `m >= 26`, with `h = m / 2`, the free list becomes the first `h`
blocks of `C` followed by `G`, and the cache becomes the rest of `C` followed by `p`, with
`count = m - h + 1`; if `m < 26` the free list is left as it is and the cache becomes `C`
followed by `p`, with `count = m + 1`. -/
theorem fixed_pool_drain (B this : Nat) (ops : List Op) (hB : 0 < B)
    (hv : valid B this ops = true) :
    ∃ s pool C G, run B this ops = some s ∧ s.world.pools this = some pool ∧
      cacheBlocks s.world.local_cache = C.map some ∧
      s.world.local_cache.count = (C.length : Int) ∧
      IsChain s.world.next pool.free_list G ∧
      ∀ p, p ∈ s.live → ∃ w' pool', deallocate this s.world (some p) = some w' ∧
        w'.pools this = some pool' ∧
        (26 ≤ C.length →
          IsChain w'.next pool'.free_list (C.take (C.length / 2) ++ G) ∧
          cacheBlocks w'.local_cache = (C.drop (C.length / 2) ++ [p]).map some ∧
          w'.local_cache.count = ((C.length - C.length / 2 + 1 : Nat) : Int)) ∧
        (C.length < 26 →
          IsChain w'.next pool'.free_list G ∧ pool'.free_list = pool.free_list ∧
          cacheBlocks w'.local_cache = (C ++ [p]).map some ∧
          w'.local_cache.count = ((C.length + 1 : Nat) : Int)) := by
  obtain ⟨s, pool, C, G, hr, hinv⟩ := run_inv B this hB ops hv
  refine ⟨s, pool, C, G, hr, hinv.rep.pool_eq,
    cacheBlocks_eq hinv.rep.holds hinv.rep.count_eq, hinv.rep.count_eq, hinv.rep.chain, ?_⟩
  intro p hp
  have hle := hinv.count_le
  obtain ⟨w', pool', C', G', hd, hrep', hor, -⟩ :=
    deallocate_spec this s.world s.live pool C G p hinv.rep (by omega) hp
  refine ⟨w', pool', hd, hrep'.pool_eq, ?_, ?_⟩
  · intro hm
    rcases hor with ⟨h1, -⟩ | ⟨-, hC', hG'⟩
    · omega
    · subst hC' hG'
      refine ⟨hrep'.chain, cacheBlocks_eq hrep'.holds hrep'.count_eq, ?_⟩
      rw [hrep'.count_eq]
      simp only [List.length_append, List.length_drop, List.length_singleton]
  · intro hm
    rcases hor with ⟨-, hC', hG'⟩ | ⟨h1, -⟩
    · subst hC' hG'
      refine ⟨hrep'.chain, ?_, cacheBlocks_eq hrep'.holds hrep'.count_eq, ?_⟩
      · rw [IsChain_head hrep'.chain, IsChain_head hinv.rep.chain]
      · rw [hrep'.count_eq]
        simp only [List.length_append, List.length_singleton]
    · omega

/-- Claim C30.  In a valid single-threaded run of one pool (`BLOCK_PER_CHUNK ≥ 1`) every call
is defined, which in this model includes that every read and write of `local_cache.blocks`
made by `fill_local_cache`, `allocate`, `deallocate` and `return_thread_cache` has its index
in `0..31` (an access outside of the array is undefined); after the construction and after
every call `0 <= count <= 26`; and a refill of the empty cache leaves between 1 and 16 blocks
in it. -/
theorem fixed_pool_cache_bound (B this : Nat) (ops : List Op) (hB : 0 < B)
    (hv : valid B this ops = true) :
    (∀ k, ∃ s, run B this (ops.take k) = some s ∧
      0 ≤ s.world.local_cache.count ∧ s.world.local_cache.count ≤ 26) ∧
    ∃ s, run B this ops = some s ∧
      0 ≤ s.world.local_cache.count ∧ s.world.local_cache.count ≤ 26 ∧
      (s.world.local_cache.count = 0 →
        ∃ w', fill_local_cache B this s.world = some w' ∧
          1 ≤ w'.local_cache.count ∧ w'.local_cache.count ≤ 16) := by
  have hbound : ∀ ops', valid B this ops' = true →
      ∃ s pool C G, run B this ops' = some s ∧ Inv this s pool C G ∧
        0 ≤ s.world.local_cache.count ∧ s.world.local_cache.count ≤ 26 := by
    intro ops' hv'
    obtain ⟨s, pool, C, G, hr, hinv⟩ := run_inv B this hB ops' hv'
    have hle := hinv.count_le
    refine ⟨s, pool, C, G, hr, hinv, ?_, ?_⟩
    · rw [hinv.rep.count_eq]; omega
    · rw [hinv.rep.count_eq]; omega
  constructor
  · intro k
    obtain ⟨s, -, -, -, hr, -, h0, h26⟩ := hbound (ops.take k) (valid_take B this ops k hv)
    exact ⟨s, hr, h0, h26⟩
  · obtain ⟨s, pool, C, G, hr, hinv, h0, h26⟩ := hbound ops hv
    refine ⟨s, hr, h0, h26, ?_⟩
    intro hc
    have hC : C = [] := by
      rw [hinv.rep.count_eq] at hc
      exact List.length_eq_zero.mp (by exact_mod_cast hc)
    have hrep := hinv.rep
    rw [hC] at hrep
    obtain ⟨w', pool', G0, hf, hrep', hne, -⟩ :=
      fill_local_cache_spec B this s.world s.live pool G hB hrep
    refine ⟨w', hf, ?_, ?_⟩
    · rw [hrep'.count_eq]
      cases G0 with
      | nil => exact absurd rfl hne
      | cons x r => simp
    · rw [hrep'.count_eq]
      have : (G0.take 16).length ≤ 16 := by simp
      omega

theorem fixed_pool_cache_bound_witness :
    0 < 2 ∧ valid 2 0 [Op.allocate, Op.allocate, Op.deallocate (some (0, 0))] = true ∧
    ((∀ k, ∃ s, run 2 0 ([Op.allocate, Op.allocate, Op.deallocate (some (0, 0))].take k)
        = some s ∧
      0 ≤ s.world.local_cache.count ∧ s.world.local_cache.count ≤ 26) ∧
    ∃ s, run 2 0 [Op.allocate, Op.allocate, Op.deallocate (some (0, 0))] = some s ∧
      0 ≤ s.world.local_cache.count ∧ s.world.local_cache.count ≤ 26 ∧
      (s.world.local_cache.count = 0 →
        ∃ w', fill_local_cache 2 0 s.world = some w' ∧
          1 ≤ w'.local_cache.count ∧ w'.local_cache.count ≤ 16)) :=
  ⟨by decide, by decide, fixed_pool_cache_bound 2 0 _ (by decide) (by decide)⟩

end Fixed

namespace Multi

set_option maxRecDepth 100000 in
/-- Claim C24, as stated, fails for the multi-size pool: `deallocate(p, 2048)` made with a
full class cache (a valid call: the run is valid with that call added) leaves the freed
block out of the cache, whose `count` becomes 8, and links it into the free list, at
position 8, right behind the 8 blocks taken from the cache. -/
theorem multi_pool_freed_block_spliced :
    valid 0 (full_cache_ops ++ [Op.deallocate (some (0, 23 * 2064 + 16)) 2048]) = true ∧
    (run 0 full_cache_ops).map (fun s => (s.world.thread_cache.caches 15).count) = some 16 ∧
    full_cache_deallocate = some (false, some 8, 8) := by
  refine ⟨by decide, by decide, by decide⟩

open Fixed (perm_cons_removeBlock)

/-- The effect of `deallocate` on the size-class path when the class cache is full. -/
theorem deallocate_class_full_spec (this size index : Nat) (w : World)
    (live : Nat → List Block) (pool : Pool) (C G L : Nat → List Block) (b : Block)
    (h : MRep this w live pool C G L) (hcls : classOf size = some index) (hi : index < 16)
    (hb : b ∈ L index) (hfull : (C index).length = 16) :
    ∃ w' pool', deallocate this (some (data b)) size w = some w' ∧
      MRep this w' (upd live index (removeBlock (data b) (live index))) pool'
        (upd C index ((C index).drop 8)) (upd G index ((C index).take 8 ++ b :: G index))
        (upd L index (removeBlock b (L index))) := by
  have hlen : ¬ (index ≥ SIZE_CALSSES.length) := by
    simp only [SIZE_CALSSES, List.length]; omega
  unfold classOf at hcls
  have hcl := h.cls index hi
  have hcond : ¬ ((w.thread_cache.caches index).count < CLASS_CACHE_CAPACITY) := by
    rw [hcl.count_eq]; simp only [CLASS_CACHE_CAPACITY]; omega
  obtain ⟨w1, pool1, hr, hrep1, -⟩ :=
    multi_return_half_spec this index w live pool C G L hi h b hb (by omega)
  obtain ⟨w2, pool2, hcd, hrep2, -⟩ :=
    count_deallocation_spec this index w1 _ pool1 _ _ _ hi hrep1
  have h8 : (C index).length / 2 = 8 := by omega
  rw [h8] at hrep2
  refine ⟨w2, pool2, ?_, hrep2⟩
  simp only [deallocate, hcls, if_neg hlen, from_data_data, store_freed, if_neg hcond, hr]
  exact hcd

end Multi

/-- Claim C24, amended.  Fixed-size pool: in every state of a valid single-threaded run in
which `deallocate(p)` splices (the cache holds `m >= 26` blocks `C`), the free list becomes
the first `m / 2` blocks of `C` followed by its previous blocks, the freed block `p` is
stored in the last cell of the residual cache and is not a block of the spliced segment.
Multi-size pool: in every state of a valid single-threaded run in which `deallocate(p, n)`
splices (the cache of the class holds 16 blocks `C i`), the freed block is linked into the
free list as the last block of the spliced segment: the free list becomes the first 8 blocks
of `C i`, then the freed block, then its previous blocks, and the residual cache holds the
other 8 blocks of `C i`, among which the freed block is not. -/
theorem freed_block_after_splice (B thisF : Nat) (opsF : List Fixed.Op) (hB : 0 < B)
    (hvF : Fixed.valid B thisF opsF = true) (thisM : Nat) (opsM : List Multi.Op)
    (hvM : Multi.valid thisM opsM = true) :
    (∃ (s : Fixed.Run) (pool : Fixed.Pool) (C G : List Block),
      Fixed.run B thisF opsF = some s ∧ s.world.pools thisF = some pool ∧
      Fixed.cacheBlocks s.world.local_cache = C.map some ∧
      IsChain s.world.next pool.free_list G ∧
      ∀ p, p ∈ s.live → 26 ≤ C.length →
        ∃ w' pool', Fixed.deallocate thisF s.world (some p) = some w' ∧
          w'.pools thisF = some pool' ∧
          IsChain w'.next pool'.free_list (C.take (C.length / 2) ++ G) ∧
          Fixed.cacheBlocks w'.local_cache = (C.drop (C.length / 2) ++ [p]).map some ∧
          p ∉ C.take (C.length / 2) ∧ p ∉ G) ∧
    (∃ (s : Multi.Run) (pool : Multi.Pool) (C G : Nat → List Block),
      Multi.run thisM opsM = some s ∧ s.world.pools thisM = some pool ∧
      (∀ i, i < 16 → Multi.cacheBlocks (s.world.thread_cache.caches i) = (C i).map some ∧
        IsChain s.world.next (pool.chunk_classes i).free_list (G i)) ∧
      ∀ n index p, Multi.classOf n = some index → index < 16 → p ∈ s.live index →
        (s.world.thread_cache.caches index).count = 16 →
        ∃ b w' pool', Multi.from_data p = some b ∧
          Multi.deallocate thisM (some p) n s.world = some w' ∧
          w'.pools thisM = some pool' ∧
          IsChain w'.next (pool'.chunk_classes index).free_list
            ((C index).take 8 ++ b :: G index) ∧
          Multi.cacheBlocks (w'.thread_cache.caches index) = ((C index).drop 8).map some ∧
          (w'.thread_cache.caches index).count = 8 ∧
          b ∉ (C index).drop 8) := by
  constructor
  · obtain ⟨s, pool, C, G, hr, hinv⟩ := Fixed.run_inv B thisF hB opsF hvF
    refine ⟨s, pool, C, G, hr, hinv.rep.pool_eq,
      Fixed.cacheBlocks_eq hinv.rep.holds hinv.rep.count_eq, hinv.rep.chain, ?_⟩
    intro p hp hm
    have hle := hinv.count_le
    obtain ⟨w', pool', C', G', hd, hrep', hor, -⟩ :=
      Fixed.deallocate_spec thisF s.world s.live pool C G p hinv.rep (by omega) hp
    have hnd := hinv.rep.nodup_all
    have hpC : p ∉ C := fun hc =>
      (List.nodup_append.mp hnd).2.2 hc (List.mem_append_right _ hp)
    have hpG : p ∉ G := fun hg =>
      (List.nodup_append.mp (List.nodup_append.mp hnd).2.1).2.2 hg hp
    rcases hor with ⟨h1, -⟩ | ⟨-, hC', hG'⟩
    · omega
    · subst hC' hG'
      exact ⟨w', pool', hd, hrep'.pool_eq, hrep'.chain,
        Fixed.cacheBlocks_eq hrep'.holds hrep'.count_eq,
        fun hc => hpC (List.mem_of_mem_take hc), hpG⟩
  · obtain ⟨s, hr, ⟨pool, C, G, L, hrep⟩⟩ := Multi.multi_run_inv thisM opsM hvM
    refine ⟨s, pool, C, G, hr, hrep.pool_eq, ?_, ?_⟩
    · intro i hi
      exact ⟨Multi.multi_cacheBlocks_eq (hrep.cls i hi).holds (hrep.cls i hi).count_eq,
        (hrep.cls i hi).chain⟩
    · intro n index p hcls hi hp hcount
      rw [hrep.live_eq index hi] at hp
      obtain ⟨b, hb, hbp⟩ := List.mem_map.mp hp
      subst hbp
      have hfull : (C index).length = 16 := by
        have := (hrep.cls index hi).count_eq
        rw [hcount] at this
        exact_mod_cast this.symm
      obtain ⟨w', pool', hd, hrep'⟩ :=
        Multi.deallocate_class_full_spec thisM n index s.world s.live pool C G L b hrep hcls hi
          hb hfull
      have hcl' := hrep'.cls index hi
      have hch := hcl'.chain
      have hho := hcl'.holds
      have hcn := hcl'.count_eq
      simp only [upd_same] at hch hho hcn
      have hnd := hrep.class_nodup hi
      have hbC : b ∉ C index := fun hc =>
        (List.nodup_append.mp hnd).2.2 hc (List.mem_append_right _ hb)
      refine ⟨b, w', pool', Multi.from_data_data b, hd, hrep'.pool_eq, hch,
        Multi.multi_cacheBlocks_eq hho hcn, ?_, fun hc => hbC (List.mem_of_mem_drop hc)⟩
      rw [hcn, List.length_drop, hfull]
      rfl

set_option maxRecDepth 100000 in
theorem freed_block_after_splice_witness :
    0 < 2 ∧ Fixed.valid 2 0 [Fixed.Op.allocate] = true ∧
    Multi.valid 0 Multi.full_cache_ops = true ∧
    ((∃ (s : Fixed.Run) (pool : Fixed.Pool) (C G : List Block),
      Fixed.run 2 0 [Fixed.Op.allocate] = some s ∧
      s.world.pools 0 = some pool ∧
      Fixed.cacheBlocks s.world.local_cache = C.map some ∧
      IsChain s.world.next pool.free_list G ∧
      ∀ p, p ∈ s.live → 26 ≤ C.length →
        ∃ w' pool', Fixed.deallocate 0 s.world (some p) = some w' ∧
          w'.pools 0 = some pool' ∧
          IsChain w'.next pool'.free_list (C.take (C.length / 2) ++ G) ∧
          Fixed.cacheBlocks w'.local_cache = (C.drop (C.length / 2) ++ [p]).map some ∧
          p ∉ C.take (C.length / 2) ∧ p ∉ G) ∧
    (∃ (s : Multi.Run) (pool : Multi.Pool) (C G : Nat → List Block),
      Multi.run 0 Multi.full_cache_ops = some s ∧ s.world.pools 0 = some pool ∧
      (∀ i, i < 16 → Multi.cacheBlocks (s.world.thread_cache.caches i) = (C i).map some ∧
        IsChain s.world.next (pool.chunk_classes i).free_list (G i)) ∧
      ∀ n index p, Multi.classOf n = some index → index < 16 → p ∈ s.live index →
        (s.world.thread_cache.caches index).count = 16 →
        ∃ b w' pool', Multi.from_data p = some b ∧
          Multi.deallocate 0 (some p) n s.world = some w' ∧
          w'.pools 0 = some pool' ∧
          IsChain w'.next (pool'.chunk_classes index).free_list
            ((C index).take 8 ++ b :: G index) ∧
          Multi.cacheBlocks (w'.thread_cache.caches index) = ((C index).drop 8).map some ∧
          (w'.thread_cache.caches index).count = 8 ∧
          b ∉ (C index).drop 8)) :=
  ⟨by decide, by decide, by decide,
    freed_block_after_splice 2 0 _ (by decide) (by decide) 0 _ (by decide)⟩

namespace Multi

/-- Claim C26.  In every state reached by a valid single-threaded run, with `G i` the blocks
of the free list of class `i`: for every class index `i < 16` whose cache is empty,
`fill_class_cache(i)` is defined and returns `true`; with `L` the free list it works on
(`G i`, or the blocks of a newly carved chunk when `G i` is empty), the first `min(8, m)`
blocks of `L` are in the cache cells `0 ..`, in list order, `count` is `min(8, m)`, and the
free list holds the rest of `L`.  With a cache that is not empty it returns `true` and
leaves the memory as it is, and for `i >= 16` it returns `false` and leaves the memory as
it is. -/
theorem multi_pool_refill (this : Nat) (ops : List Op) (hv : valid this ops = true) :
    (∃ (s : Run) (pool : Pool) (G : Nat → List Block), run this ops = some s ∧
      s.world.pools this = some pool ∧
      (∀ i, i < 16 → IsChain s.world.next (pool.chunk_classes i).free_list (G i)) ∧
      (∀ i, i < 16 → (s.world.thread_cache.caches i).count = 0 →
        ∃ w' pool' L, fill_class_cache this i s.world = some (w', true) ∧
          w'.pools this = some pool' ∧
          ((G i ≠ [] ∧ L = G i) ∨
            (G i = [] ∧ L = (chunk_blocks i s.world.arrays).reverse)) ∧
          1 ≤ L.length ∧
          cacheBlocks (w'.thread_cache.caches i) = (L.take 8).map some ∧
          (w'.thread_cache.caches i).count = ((min 8 L.length : Nat) : Int) ∧
          IsChain w'.next (pool'.chunk_classes i).free_list (L.drop 8)) ∧
      (∀ i, i < 16 → (s.world.thread_cache.caches i).count ≠ 0 →
        fill_class_cache this i s.world = some (s.world, true))) ∧
    (∀ (w : World) (i : Nat), 16 ≤ i → fill_class_cache this i w = some (w, false)) := by
  constructor
  · obtain ⟨s, hr, ⟨pool, C, G, L, hrep⟩⟩ := multi_run_inv this ops hv
    refine ⟨s, pool, G, hr, hrep.pool_eq, fun i hi => (hrep.cls i hi).chain, ?_, ?_⟩
    · intro i hi hc
      have hC : C i = [] := by
        rw [(hrep.cls i hi).count_eq] at hc
        exact List.length_eq_zero.mp (by exact_mod_cast hc)
      obtain ⟨w', pool', G0, hf, hrep', hne, hcase, -⟩ :=
        fill_class_cache_spec this i s.world s.live pool C G L hi hrep hC
      have hcl' := hrep'.cls i hi
      have hch := hcl'.chain
      have hho := hcl'.holds
      have hcn := hcl'.count_eq
      simp only [upd_same] at hch hho hcn
      refine ⟨w', pool', G0, hf, hrep'.pool_eq, ?_, ?_, multi_cacheBlocks_eq hho hcn, ?_, hch⟩
      · rcases hcase with ⟨h1, h2, -⟩ | ⟨h1, h2, -⟩
        · exact Or.inl ⟨h1, h2⟩
        · exact Or.inr ⟨h1, h2⟩
      · cases G0 with
        | nil => exact absurd rfl hne
        | cons x r => simp
      · rw [hcn, List.length_take]
    · intro i hi hc
      have hlen : ¬ (i ≥ SIZE_CALSSES.length) := by
        simp only [SIZE_CALSSES, List.length]; omega
      have hpos : (s.world.thread_cache.caches i).count > 0 := by
        have := (hrep.cls i hi).count_eq
        omega
      simp only [fill_class_cache, if_neg hlen, hrep.pool_eq, if_pos hpos]
  · intro w i hi
    have hlen : i ≥ SIZE_CALSSES.length := by
      simp only [SIZE_CALSSES, List.length]; omega
    simp only [fill_class_cache, if_pos hlen]

theorem multi_pool_refill_witness :
    valid 0 [Op.allocate 2000] = true ∧
    ((∃ (s : Run) (pool : Pool) (G : Nat → List Block), run 0 [Op.allocate 2000] = some s ∧
      s.world.pools 0 = some pool ∧
      (∀ i, i < 16 → IsChain s.world.next (pool.chunk_classes i).free_list (G i)) ∧
      (∀ i, i < 16 → (s.world.thread_cache.caches i).count = 0 →
        ∃ w' pool' L, fill_class_cache 0 i s.world = some (w', true) ∧
          w'.pools 0 = some pool' ∧
          ((G i ≠ [] ∧ L = G i) ∨
            (G i = [] ∧ L = (chunk_blocks i s.world.arrays).reverse)) ∧
          1 ≤ L.length ∧
          cacheBlocks (w'.thread_cache.caches i) = (L.take 8).map some ∧
          (w'.thread_cache.caches i).count = ((min 8 L.length : Nat) : Int) ∧
          IsChain w'.next (pool'.chunk_classes i).free_list (L.drop 8)) ∧
      (∀ i, i < 16 → (s.world.thread_cache.caches i).count ≠ 0 →
        fill_class_cache 0 i s.world = some (s.world, true))) ∧
    (∀ (w : World) (i : Nat), 16 ≤ i → fill_class_cache 0 i w = some (w, false))) :=
  ⟨by decide, multi_pool_refill 0 _ (by decide)⟩

/-- Claim C27.  In every state reached by a valid single-threaded run, for every class index
`i < 16`, with the stride `S` (16 bytes of header plus the class size, rounded up to a
multiple of 16) and `N = max(1, 65536 / S)`: `allocate_chunk_for_size_class(i)` is defined,
obtains one array of `N * S <= 65536` bytes and pushes it on the chunk stack; the free list
of class `i` becomes the `N` blocks at the byte offsets `0, S, ..., (N - 1) * S` of the
array, each once (the block of the highest offset first), followed by its previous blocks;
the free list of every other class and the thread cache are left as they are.  For
`i >= 16` the call leaves the memory as it is. -/
theorem multi_pool_carve (this : Nat) (ops : List Op) (hv : valid this ops = true) :
    (∃ (s : Run) (pool : Pool) (G : Nat → List Block), run this ops = some s ∧
      s.world.pools this = some pool ∧
      (∀ i, i < 16 → IsChain s.world.next (pool.chunk_classes i).free_list (G i)) ∧
      ∀ i, i < 16 →
        ∃ w' pool', allocate_chunk_for_size_class this i s.world = some w' ∧
          w'.pools this = some pool' ∧
          total_block_size (sizeClass i) = (16 + sizeClass i + 15) / 16 * 16 ∧
          block_count (sizeClass i) = max 1 (65536 / total_block_size (sizeClass i)) ∧
          block_count (sizeClass i) * total_block_size (sizeClass i) ≤ 65536 ∧
          pool'.allocated_chunks =
            (s.world.arrays, block_count (sizeClass i) * total_block_size (sizeClass i))
              :: pool.allocated_chunks ∧
          chunk_blocks i s.world.arrays = (List.range (block_count (sizeClass i))).map
            (fun j => (s.world.arrays, j * total_block_size (sizeClass i))) ∧
          (chunk_blocks i s.world.arrays).Nodup ∧
          IsChain w'.next (pool'.chunk_classes i).free_list
            ((chunk_blocks i s.world.arrays).reverse ++ G i) ∧
          (∀ j, j < 16 → j ≠ i →
            (pool'.chunk_classes j).free_list = (pool.chunk_classes j).free_list ∧
            IsChain w'.next (pool'.chunk_classes j).free_list (G j)) ∧
          w'.thread_cache = s.world.thread_cache) ∧
    (∀ (w : World) (i : Nat), 16 ≤ i → allocate_chunk_for_size_class this i w = some w) := by
  constructor
  · obtain ⟨s, hr, ⟨pool, C, G, L, hrep⟩⟩ := multi_run_inv this ops hv
    refine ⟨s, pool, G, hr, hrep.pool_eq, fun i hi => (hrep.cls i hi).chain, ?_⟩
    intro i hi
    obtain ⟨w', pool', ha, hrep', htc, -, -, -, hch⟩ :=
      allocate_chunk_spec this i s.world s.live pool C G L hi hrep
    obtain ⟨hS16, hN1, hSN, -, -⟩ := class_facts i hi
    have hall : ∀ i, i < 16 →
        total_block_size (sizeClass i) = (16 + sizeClass i + 15) / 16 * 16 ∧
        block_count (sizeClass i) = max 1 (65536 / total_block_size (sizeClass i)) := by
      decide
    have hmod : (total_block_size (sizeClass i) * block_count (sizeClass i)) % SIZE_T_RANGE
        = block_count (sizeClass i) * total_block_size (sizeClass i) := by
      rw [Nat.mul_comm]
      apply Nat.mod_eq_of_lt
      rw [Nat.mul_comm]
      unfold SIZE_T_RANGE
      omega
    rw [hmod] at hch
    have hchain := (hrep'.cls i hi).chain
    simp only [upd_same] at hchain
    refine ⟨w', pool', ha, hrep'.pool_eq, (hall i hi).1, (hall i hi).2,
      by rw [Nat.mul_comm]; exact hSN, hch, rfl, chunk_blocks_nodup i s.world.arrays hi, hchain,
      ?_, htc⟩
    intro j hj hji
    have hcj := (hrep'.cls j hj).chain
    rw [upd_ne _ _ _ _ hji] at hcj
    refine ⟨?_, hcj⟩
    rw [IsChain_head hcj, IsChain_head (hrep.cls j hj).chain]

  · intro w i hi
    have hlen : i ≥ SIZE_CALSSES.length := by
      simp only [SIZE_CALSSES, List.length]; omega
    simp only [allocate_chunk_for_size_class, if_pos hlen]

theorem multi_pool_carve_witness :
    valid 0 [Op.allocate 2000] = true ∧
    ((∃ (s : Run) (pool : Pool) (G : Nat → List Block), run 0 [Op.allocate 2000] = some s ∧
      s.world.pools 0 = some pool ∧
      (∀ i, i < 16 → IsChain s.world.next (pool.chunk_classes i).free_list (G i)) ∧
      ∀ i, i < 16 →
        ∃ w' pool', allocate_chunk_for_size_class 0 i s.world = some w' ∧
          w'.pools 0 = some pool' ∧
          total_block_size (sizeClass i) = (16 + sizeClass i + 15) / 16 * 16 ∧
          block_count (sizeClass i) = max 1 (65536 / total_block_size (sizeClass i)) ∧
          block_count (sizeClass i) * total_block_size (sizeClass i) ≤ 65536 ∧
          pool'.allocated_chunks =
            (s.world.arrays, block_count (sizeClass i) * total_block_size (sizeClass i))
              :: pool.allocated_chunks ∧
          chunk_blocks i s.world.arrays = (List.range (block_count (sizeClass i))).map
            (fun j => (s.world.arrays, j * total_block_size (sizeClass i))) ∧
          (chunk_blocks i s.world.arrays).Nodup ∧
          IsChain w'.next (pool'.chunk_classes i).free_list
            ((chunk_blocks i s.world.arrays).reverse ++ G i) ∧
          (∀ j, j < 16 → j ≠ i →
            (pool'.chunk_classes j).free_list = (pool.chunk_classes j).free_list ∧
            IsChain w'.next (pool'.chunk_classes j).free_list (G j)) ∧
          w'.thread_cache = s.world.thread_cache) ∧
    (∀ (w : World) (i : Nat), 16 ≤ i → allocate_chunk_for_size_class 0 i w = some w)) :=
  ⟨by decide, multi_pool_carve 0 _ (by decide)⟩

end Multi

end MemoryPool

namespace ThreadPool

set_option maxRecDepth 100000 in
/-- Claim C22: what the code does on `TEST(ThreadPoolTest, BasicFunctionality)` when the
workers are scheduled late.  Every worker finds `mStart == false` at its first evaluation of
`while (mStart)` and returns, so `Stop()` returns (every thread is joined) while the 100
tasks are still in the queue and none has been run. -/
theorem stop_leaves_tasks :
    construct 4 = Except.ok pool4 ∧
    (schedule pool4 basic_functionality).map
        (fun p => (stop_returns p, p.mQueueTasks.length, p.executed.length))
      = some (true, 100, 0) :=
  ⟨rfl, by decide⟩

/-- Claim C23.  `ThreadPool(0)` throws `invalid_argument`, and `ThreadPool(n)` with `n > 0`
gives a pool that is not started; `enqueue` on a pool never started, and on a pool after the
first statement of `Stop()`, throws `runtime_error` and leaves the pool, and so its queue, as
it is; `enqueue` on a pool just started throws nothing and adds the one task at the back of
the queue, the rest of the pool being left as it is. -/
theorem enqueue_and_constructor_errors (numThreads task : Nat) (p : Pool)
    (hn : 0 < numThreads) :
    construct 0 = Except.error Error.invalid_argument ∧
    (∃ p0, construct numThreads = Except.ok p0 ∧ p0.mStart = false ∧ p0.mQueueTasks = [] ∧
      enqueue task p0 = (p0, Except.error Error.runtime_error)) ∧
    enqueue task (stop_flag p) = (stop_flag p, Except.error Error.runtime_error) ∧
    (p.mStart = false → enqueue task p = (p, Except.error Error.runtime_error)) ∧
    enqueue task (Start p)
      = ({ Start p with mQueueTasks := (Start p).mQueueTasks ++ [task] }, Except.ok ()) ∧
    (p.mStart = true → enqueue task p
      = ({ p with mQueueTasks := p.mQueueTasks ++ [task] }, Except.ok ())) := by
  refine ⟨rfl, ?_, ?_, ?_, rfl, ?_⟩
  · refine ⟨_, by simp only [construct]; rw [if_neg (by omega)], rfl, rfl, rfl⟩
  · have hs : (stop_flag p).mStart = false := by
      unfold stop_flag
      cases h : p.mStart with
      | true => simp
      | false => simp [h]
    simp only [enqueue, hs]
    rfl
  · intro h
    simp only [enqueue, h]
    rfl
  · intro h
    simp only [enqueue, h]
    rfl

theorem enqueue_and_constructor_errors_witness :
    0 < 2 ∧
    (construct 0 = Except.error Error.invalid_argument ∧
    (∃ p0, construct 2 = Except.ok p0 ∧ p0.mStart = false ∧ p0.mQueueTasks = [] ∧
      enqueue 7 p0 = (p0, Except.error Error.runtime_error)) ∧
    enqueue 7 (stop_flag pool4) = (stop_flag pool4, Except.error Error.runtime_error) ∧
    (pool4.mStart = false → enqueue 7 pool4 = (pool4, Except.error Error.runtime_error)) ∧
    enqueue 7 (Start pool4)
      = ({ Start pool4 with mQueueTasks := (Start pool4).mQueueTasks ++ [7] }, Except.ok ()) ∧
    (pool4.mStart = true → enqueue 7 pool4
      = ({ pool4 with mQueueTasks := pool4.mQueueTasks ++ [7] }, Except.ok ()))) :=
  ⟨by decide, enqueue_and_constructor_errors 2 7 pool4 (by decide)⟩

end ThreadPool

namespace MemoryPool

namespace Multi

/-- Run without interruption, the three parts are `fill_class_cache` on a free list that is
not empty. -/
theorem fill_class_parts_eq (this index : Nat) (w : World) (pool : Pool) (old_head : Block)
    (hp : w.pools this = some pool)
    (hh : (pool.chunk_classes index).free_list = some old_head) :
    fill_class_parts this index w = fill_class_from this index w pool old_head := by
  simp only [fill_class_parts, fill_class_read, hp, hh, fill_class_exchange, if_true,
    fill_class_store, fill_class_from]
  cases store_batch CLASS_CACHE_CAPACITY w.next
      (w.next (walk_batch w.next (BATCH_SIZE - 1) old_head)) (CLASS_CACHE_CAPACITY.toNat + 1)
      (some old_head) (w.thread_cache.caches index).count
      (w.thread_cache.caches index).blocks with
  | none => rfl
  | some r => rfl

set_option maxRecDepth 100000 in
/-- Claim C21: an interleaving in which the batch pop hands one block to two callers.  Thread
1 reads `old_head` = block 22 and `new_head` = block 14; thread 2 then takes the blocks 22 to
7 from the free list and gives blocks back so that block 22 is the head of the free list
again while block 14 sits in cell 0 of its cache; the exchange of thread 1 succeeds (the head
is the pointer it read) and makes block 14 the head of the free list, although that block and
the seven behind it are in the cache of thread 2.  The next `allocate(2048)` of thread 3 and
the next one of thread 2 return the same pointer, the payload of block 7; and the copy loop
of thread 1, started from block 22, never meets block 14 and is undefined (it runs past the
16 cells of the cache). -/
theorem batch_pop_aba :
    valid 0 (Op.allocate 2048 :: aba_thread2_ops) = true ∧
    aba_schedule = some
      { old_head := (0, 22 * 2064)
        new_head := some (0, 14 * 2064)
        exchanged := true
        free_list := some (0, 14 * 2064)
        cell0 := some (0, 14 * 2064)
        returned3 := some (0, 7 * 2064 + 16)
        returned2 := some (0, 7 * 2064 + 16)
        copy_defined := false } := by
  constructor <;> decide

theorem multi_runOps_append (this : Nat) :
    ∀ (a b : List Op) (s : Run),
      runOps this s (a ++ b) =
        match runOps this s a with
        | none => none
        | some s' => runOps this s' b := by
  intro a
  induction a with
  | nil => intro b s; rfl
  | cons op a ih =>
    intro b s
    simp only [List.cons_append, runOps]
    cases step this s op with
    | none => rfl
    | some s1 => exact ih b s1

theorem multi_validOps_append (this : Nat) :
    ∀ (a b : List Op) (s : Run),
      validOps this s (a ++ b) =
        (validOps this s a &&
          match runOps this s a with
          | none => true
          | some s' => validOps this s' b) := by
  intro a
  induction a with
  | nil => intro b s; simp [validOps, runOps]
  | cons op a ih =>
    intro b s
    show validOps this s (op :: (a ++ b)) = _
    simp only [validOps, runOps]
    cases step this s op with
    | none => simp
    | some s1 => simp only [ih b s1, Bool.and_assoc]

theorem multi_valid_take (this : Nat) (ops : List Op) (k : Nat) (hv : valid this ops = true) :
    valid this (ops.take k) = true := by
  unfold valid at hv ⊢
  have h := multi_validOps_append this (ops.take k) (ops.drop k) (start this)
  rw [List.take_append_drop, hv] at h
  have h2 := h.symm
  simp only [Bool.and_eq_true] at h2
  exact h2.1

theorem multi_count_bound (this : Nat) (ops : List Op) (hv : valid this ops = true) :
    ∃ s pool C G L, run this ops = some s ∧ MRep this s.world s.live pool C G L ∧
      ∀ i, i < 16 → 0 ≤ (s.world.thread_cache.caches i).count ∧
        (s.world.thread_cache.caches i).count ≤ 16 := by
  obtain ⟨s, hr, ⟨pool, C, G, L, hrep⟩⟩ := multi_run_inv this ops hv
  refine ⟨s, pool, C, G, L, hr, hrep, ?_⟩
  intro i hi
  have h1 := (hrep.cls i hi).count_eq
  have h2 := hrep.count_le i hi
  rw [h1]
  omega

/-- Claim C31.  In a valid single-threaded run of one multi-size pool every call is defined,
which in this model includes that every read and write of a class cache array `blocks` made
by `fill_class_cache`, `allocate` and `deallocate` has its index in `0..15` (an access
outside of the array is undefined); after the construction and after every call every class
cache has `0 <= count <= 16`; `fill_class_cache` returns true having stored at most 8 blocks,
and leaves the class cache non-empty; and a `deallocate` entered with `count = 16` leaves
`count = 8`. -/
theorem multi_pool_cache_bound (this : Nat) (ops : List Op) (hv : valid this ops = true) :
    (∀ k, ∃ s, run this (ops.take k) = some s ∧
      ∀ i, i < 16 → 0 ≤ (s.world.thread_cache.caches i).count ∧
        (s.world.thread_cache.caches i).count ≤ 16) ∧
    ∃ s, run this ops = some s ∧
      (∀ i, i < 16 → 0 ≤ (s.world.thread_cache.caches i).count ∧
        (s.world.thread_cache.caches i).count ≤ 16) ∧
      (∀ i, i < 16 → ∃ w', fill_class_cache this i s.world = some (w', true) ∧
        1 ≤ (w'.thread_cache.caches i).count ∧
        (s.world.thread_cache.caches i).count ≤ (w'.thread_cache.caches i).count ∧
        (w'.thread_cache.caches i).count - (s.world.thread_cache.caches i).count ≤ 8) ∧
      (∀ n index p, classOf n = some index → index < 16 → p ∈ s.live index →
        (s.world.thread_cache.caches index).count = 16 →
        ∃ w', deallocate this (some p) n s.world = some w' ∧
          (w'.thread_cache.caches index).count = 8) := by
  constructor
  · intro k
    obtain ⟨s, -, -, -, -, hr, -, hb⟩ :=
      multi_count_bound this (ops.take k) (multi_valid_take this ops k hv)
    exact ⟨s, hr, hb⟩
  · obtain ⟨s, pool, C, G, L, hr, hrep, hb⟩ := multi_count_bound this ops hv
    refine ⟨s, hr, hb, ?_, ?_⟩
    · intro i hi
      by_cases hc : (s.world.thread_cache.caches i).count = 0
      swap
      · have hpos : (s.world.thread_cache.caches i).count > 0 := by
          have := (hb i hi).1
          omega
        refine ⟨s.world, ?_, by omega, le_refl _, by omega⟩
        unfold fill_class_cache
        rw [if_neg (by simp only [SIZE_CALSSES, List.length]; omega), hrep.pool_eq]
        simp only [if_pos hpos]
      have hC : C i = [] := by
        rw [(hrep.cls i hi).count_eq] at hc
        exact List.length_eq_zero.mp (by exact_mod_cast hc)
      obtain ⟨w', pool', G0, hf, hrep', hne, -⟩ :=
        fill_class_cache_spec this i s.world s.live pool C G L hi hrep hC
      have hcn := (hrep'.cls i hi).count_eq
      simp only [upd_same] at hcn
      have h1 : 1 ≤ (G0.take 8).length := by
        cases G0 with
        | nil => exact absurd rfl hne
        | cons x r => simp
      have h8 : (G0.take 8).length ≤ 8 := by simp
      refine ⟨w', hf, ?_, ?_, ?_⟩ <;> rw [hcn] <;> omega
    · intro n index p hcls hi hp hcount
      rw [hrep.live_eq index hi] at hp
      obtain ⟨b, hb', hbp⟩ := List.mem_map.mp hp
      subst hbp
      have hfull : (C index).length = 16 := by
        have := (hrep.cls index hi).count_eq
        rw [hcount] at this
        exact_mod_cast this.symm
      obtain ⟨w', pool', hd, hrep'⟩ :=
        deallocate_class_full_spec this n index s.world s.live pool C G L b hrep hcls hi
          hb' hfull
      have hcn := (hrep'.cls index hi).count_eq
      simp only [upd_same] at hcn
      refine ⟨w', hd, ?_⟩
      rw [hcn, List.length_drop, hfull]
      rfl

set_option maxRecDepth 100000 in
theorem multi_pool_cache_bound_witness :
    valid 0 full_cache_ops = true ∧
    ((∀ k, ∃ s, run 0 (full_cache_ops.take k) = some s ∧
      ∀ i, i < 16 → 0 ≤ (s.world.thread_cache.caches i).count ∧
        (s.world.thread_cache.caches i).count ≤ 16) ∧
    ∃ s, run 0 full_cache_ops = some s ∧
      (∀ i, i < 16 → 0 ≤ (s.world.thread_cache.caches i).count ∧
        (s.world.thread_cache.caches i).count ≤ 16) ∧
      (∀ i, i < 16 → ∃ w', fill_class_cache 0 i s.world = some (w', true) ∧
        1 ≤ (w'.thread_cache.caches i).count ∧
        (s.world.thread_cache.caches i).count ≤ (w'.thread_cache.caches i).count ∧
        (w'.thread_cache.caches i).count - (s.world.thread_cache.caches i).count ≤ 8) ∧
      (∀ n index p, classOf n = some index → index < 16 → p ∈ s.live index →
        (s.world.thread_cache.caches index).count = 16 →
        ∃ w', deallocate 0 (some p) n s.world = some w' ∧
          (w'.thread_cache.caches index).count = 8)) :=
  ⟨by decide, multi_pool_cache_bound 0 _ (by decide)⟩

end Multi

namespace Fixed

/-- Claim C32.  For `BLOCK_PER_CHUNK = B >= 1`, at the construction and in every state reached
by a valid single-threaded run, `allocate_new_chunk` is defined, which in this model includes
that the block array is indexed at `0..B-1` only (an access outside of the array is
undefined): the new chunk is pushed on the chunk stack, and the free list becomes the blocks
`b0, ..., b(B-1)` of the new array, in address order, followed by its previous blocks.  For
`B = 0` the unsigned `count - 1` is `SIZE_MAX`, the first iteration of the loop indexes the
empty array, and `allocate_new_chunk`, and with it the constructor, is undefined. -/
theorem allocate_new_chunk_safe (B this : Nat) (ops : List Op)
    (hv : valid B this ops = true) :
    (0 < B →
      (∃ w, construct B this World.init = some w ∧
        ∃ pool, w.pools this = some pool ∧
          IsChain w.next pool.free_list (chunkBlocks ⟨0, B⟩)) ∧
      ∃ s pool G, run B this ops = some s ∧ s.world.pools this = some pool ∧
        IsChain s.world.next pool.free_list G ∧
        ∃ w' pool', allocate_new_chunk B this s.world = some w' ∧
          w'.pools this = some pool' ∧
          pool'.chunks = ⟨s.world.arrays, B⟩ :: pool.chunks ∧
          pool'.free_list = some (s.world.arrays, 0) ∧
          chunkBlocks ⟨s.world.arrays, B⟩
            = (List.range B).map (fun i => (s.world.arrays, i)) ∧
          IsChain w'.next pool'.free_list (chunkBlocks ⟨s.world.arrays, B⟩ ++ G)) ∧
    (B = 0 → size_t_sub B 1 = SIZE_T_RANGE - 1 ∧
      (∀ w, allocate_new_chunk B this w = none) ∧
      (∀ w, construct B this w = none) ∧ run B this ops = none) := by
  constructor
  · intro hB
    constructor
    · obtain ⟨w, pool, hc, hrep, -⟩ := construct_spec B this hB
      exact ⟨w, hc, pool, hrep.pool_eq, hrep.chain⟩
    · obtain ⟨s, pool, C, G, hr, hinv⟩ := run_inv B this hB ops hv
      have hfresh : ∀ b, b ∈ G → b.1 < s.world.arrays := by
        intro b hb
        apply hinv.rep.fresh
        exact hinv.rep.perm.mem_iff.mp
          (List.mem_append_right _ (List.mem_append_left _ hb))
      obtain ⟨w', ha, hpools, hchain, -⟩ :=
        allocate_new_chunk_spec B this s.world pool G hB hinv.rep.pool_eq hinv.rep.chain hfresh
      refine ⟨s, pool, G, hr, hinv.rep.pool_eq, hinv.rep.chain, w', _, ha,
        by rw [hpools, upd_same], rfl, rfl, rfl, hchain⟩
  · intro h0
    subst h0
    refine ⟨by decide, fun w => allocate_new_chunk_zero this w, ?_, run_zero this ops⟩
    intro w
    simp only [construct, allocate_new_chunk_zero]

theorem allocate_new_chunk_safe_witness :
    valid 4 0 [Op.allocate] = true ∧
    ((0 < 4 →
      (∃ w, construct 4 0 World.init = some w ∧
        ∃ pool, w.pools 0 = some pool ∧
          IsChain w.next pool.free_list (chunkBlocks ⟨0, 4⟩)) ∧
      ∃ s pool G, run 4 0 [Op.allocate] = some s ∧ s.world.pools 0 = some pool ∧
        IsChain s.world.next pool.free_list G ∧
        ∃ w' pool', allocate_new_chunk 4 0 s.world = some w' ∧
          w'.pools 0 = some pool' ∧
          pool'.chunks = ⟨s.world.arrays, 4⟩ :: pool.chunks ∧
          pool'.free_list = some (s.world.arrays, 0) ∧
          chunkBlocks ⟨s.world.arrays, 4⟩
            = (List.range 4).map (fun i => (s.world.arrays, i)) ∧
          IsChain w'.next pool'.free_list (chunkBlocks ⟨s.world.arrays, 4⟩ ++ G)) ∧
    (4 = 0 → size_t_sub 4 1 = SIZE_T_RANGE - 1 ∧
      (∀ w, allocate_new_chunk 4 0 w = none) ∧
      (∀ w, construct 4 0 w = none) ∧ run 4 0 [Op.allocate] = none)) :=
  ⟨by decide, allocate_new_chunk_safe 4 0 _ (by decide)⟩

theorem handle_runOps_append (B this : Nat) :
    ∀ (a b : List HandleOp) (s : Handles),
      handle_runOps B this s (a ++ b) =
        match handle_runOps B this s a with
        | none => none
        | some s' => handle_runOps B this s' b := by
  intro a
  induction a with
  | nil => intro b s; rfl
  | cons op a ih =>
    intro b s
    simp only [List.cons_append, handle_runOps]
    cases handle_step B this s op with
    | none => rfl
    | some s1 => exact ih b s1

theorem handle_validOps_append (B this : Nat) :
    ∀ (a b : List HandleOp) (s : Handles),
      handle_validOps B this s (a ++ b) =
        (handle_validOps B this s a &&
          match handle_runOps B this s a with
          | none => true
          | some s' => handle_validOps B this s' b) := by
  intro a
  induction a with
  | nil => intro b s; simp [handle_validOps, handle_runOps]
  | cons op a ih =>
    intro b s
    show handle_validOps B this s (op :: (a ++ b)) = _
    simp only [handle_validOps, handle_runOps]
    cases handle_step B this s op with
    | none => simp
    | some s1 => simp only [ih b s1, Bool.and_assoc]

/-- The calls of a valid run: every non-null `deallocate` takes one pointer out of the pointers
handed out, every `allocate` adds one. -/
theorem runOps_live_length (B this : Nat) (hB : 0 < B) :
    ∀ (ops : List Op) (s : Run) (pool : Pool) (C G : List Block), Inv this s pool C G →
      validOps B this s ops = true →
      ∃ s', runOps B this s ops = some s' ∧
        s'.live.length + deallocations ops = s.live.length + allocations ops := by
  intro ops
  induction ops with
  | nil => intro s pool C G _ _; exact ⟨s, rfl, rfl⟩
  | cons op ops ih =>
    intro s pool C G hinv hv
    simp only [validOps, Bool.and_eq_true] at hv
    obtain ⟨s1, pool1, C1, G1, hstep, hinv1, -, hal, hde⟩ :=
      step_inv B this hB s pool C G hinv op hv.1
    have hv2 := hv.2
    rw [hstep] at hv2
    obtain ⟨s2, hr2, hlen⟩ := ih s1 pool1 C1 G1 hinv1 hv2
    refine ⟨s2, by simp only [runOps, hstep]; exact hr2, ?_⟩
    cases op with
    | allocate =>
      obtain ⟨b, hb, -⟩ := hal rfl
      rw [hb] at hlen
      simp only [allocations, deallocations, List.length_cons] at hlen ⊢
      omega
    | deallocate ptr =>
      cases ptr with
      | none =>
        have hl : s1.live = s.live := by
          simp only [step] at hstep
          cases hd : deallocate this s.world none with
          | none => rw [hd] at hstep; cases hstep
          | some w =>
            rw [hd] at hstep
            simp only [Option.some.injEq] at hstep
            rw [← hstep]
        rw [hl] at hlen
        simp only [allocations, deallocations] at hlen ⊢
        omega
      | some p =>
        have hp : p ∈ s.live := by
          have := hv.1
          simp only [opValid] at this
          exact of_decide_eq_true this
        obtain ⟨hl, -⟩ := hde p rfl
        have := length_removeBlock hp
        rw [hl] at hlen
        simp only [allocations, deallocations] at hlen ⊢
        omega
    | return_thread_cache =>
      have hl : s1.live = s.live := by
        simp only [step] at hstep
        cases hd : return_thread_cache s.world with
        | none => rw [hd] at hstep; cases hstep
        | some w =>
          rw [hd] at hstep
          simp only [Option.some.injEq] at hstep
          rw [← hstep]
      rw [hl] at hlen
      simp only [allocations, deallocations] at hlen ⊢
      omega

theorem run_live_length (B this : Nat) (hB : 0 < B) (ops : List Op)
    (hv : valid B this ops = true) (r : Run) (hr : run B this ops = some r) :
    r.live.length + deallocations ops = allocations ops := by
  obtain ⟨s0, pool, C, G, hs, hinv, hl, -⟩ := start_inv B this hB
  unfold valid at hv
  unfold run at hr
  rw [hs] at hv hr
  simp only at hv hr
  obtain ⟨s', hr', hlen⟩ := runOps_live_length B this hB ops s0 pool C G hinv hv
  rw [hr] at hr'
  simp only [Option.some.injEq] at hr'
  subst hr'
  rw [hl] at hlen
  simpa using hlen

/-- The effect of the destructor of a handle, with the call it makes. -/
theorem handle_destructor_call (B this : Nat) (hB : 0 < B) (s : Handles) (r : Run)
    (pool : Pool) (C G : List Block) (h : HInv B this s r pool C G) (i : Nat) (hd : PoolPtr)
    (hi : s.handles[i]? = some (some hd)) :
    ∃ s' r' pool' C' G', handle_destructor i s = some s' ∧ HInv B this s' r' pool' C' G' ∧
      s'.handles = (List.set s.handles i none) ∧
      (∀ p, hd.ptr_ = some p → hd.pool_ = some this ∧
        deallocate this s.world (some p) = some s'.world ∧
        s'.calls = s.calls ++ [(this, Op.deallocate (some p))]) ∧
      (hd.ptr_ = none → s'.world = s.world ∧ s'.calls = s.calls) := by
  obtain ⟨s', r', pool', C', G', hde, h', hset, hnone⟩ :=
    handle_destructor_inv B this hB s r pool C G h i hd hi
  refine ⟨s', r', pool', C', G', hde, h', hset, ?_, hnone⟩
  intro p hp
  obtain ⟨s1, -, -, -, -, hr, -, -, -, -, hcall, -⟩ := reset_inv B this hB s r pool C G h i hd hi
  obtain ⟨hd1, hc1⟩ := hcall p hp
  simp only [handle_destructor, hr, Option.some.injEq] at hde
  rw [← hde]
  exact ⟨(h.mem_live hi hp).2, hd1, hc1⟩

/-- The destructors of the handles alive at the addresses from `pre.length` on, the handles
below being destroyed already. -/
theorem destructors_inv (B this : Nat) (hB : 0 < B) :
    ∀ (rest pre : List (Option PoolPtr)) (s : Handles) (r : Run) (pool : Pool)
      (C G : List Block), HInv B this s r pool C G → s.handles = pre ++ rest →
      pre.all Option.isNone = true →
      ∃ s' r' pool' C' G', handle_runOps B this s (destructors pre.length rest) = some s' ∧
        handle_validOps B this s (destructors pre.length rest) = true ∧
        HInv B this s' r' pool' C' G' ∧ all_destroyed s' = true := by
  intro rest
  induction rest with
  | nil =>
    intro pre s r pool C G h hs hpre
    refine ⟨s, r, pool, C, G, rfl, rfl, h, ?_⟩
    rw [List.append_nil] at hs
    unfold all_destroyed
    rw [hs]
    exact hpre
  | cons x rest ih =>
    intro pre s r pool C G h hs hpre
    have hlen : (pre ++ [none]).length = pre.length + 1 := by simp
    have hpre' : (pre ++ [(none : Option PoolPtr)]).all Option.isNone = true := by
      simp only [List.all_append, hpre, List.all_cons, List.all_nil, Option.isNone_none,
        Bool.and_self]
    cases x with
    | none =>
      have := ih (pre ++ [none]) s r pool C G h (by rw [hs]; simp) hpre'
      rw [hlen] at this
      exact this
    | some hd =>
      have hi : s.handles[pre.length]? = some (some hd) := by
        rw [hs, List.getElem?_append_right (le_refl _)]; simp
      obtain ⟨s1, r1, pool1, C1, G1, hde, h1, hset, -⟩ :=
        handle_destructor_inv B this hB s r pool C G h pre.length hd hi
      have hs1 : s1.handles = (pre ++ [none]) ++ rest := by
        rw [hset, hs]; simp
      obtain ⟨s2, r2, pool2, C2, G2, hr2, hv2, h2, hall⟩ :=
        ih (pre ++ [none]) s1 r1 pool1 C1 G1 h1 hs1 hpre'
      rw [hlen] at hr2 hv2
      have hal : alive s pre.length = true := by
        simp only [alive, hi]
      refine ⟨s2, r2, pool2, C2, G2, ?_, ?_, h2, hall⟩
      · simp only [destructors, handle_runOps, handle_step, hde]
        exact hr2
      · simp only [destructors, handle_validOps, handle_ok, hal, handle_step, hde,
          Bool.true_and]
        exact hv2

theorem handle_run_append (B this : Nat) (a b : List HandleOp) (s : Handles)
    (hv : handle_valid B this a = true) (hr : handle_run B this a = some s) :
    handle_run B this (a ++ b) = handle_runOps B this s b ∧
    handle_valid B this (a ++ b) = handle_validOps B this s b := by
  unfold handle_run at hr ⊢
  unfold handle_valid at hv ⊢
  cases hst : handle_start B this with
  | none => rw [hst] at hr; cases hr
  | some s0 =>
    rw [hst] at hr hv
    simp only at hr hv ⊢
    rw [handle_runOps_append, handle_validOps_append, hr, hv]
    exact ⟨rfl, by simp⟩

set_option maxRecDepth 100000 in
/-- The program of `basic_test`: the four handles are destroyed at the end of the scope, the
pool has counted 3 allocations and 3 deallocations, and `get_active_objects()` is 0; before
the end of the scope 4 handles are alive and `get_active_objects()` is 3. -/
theorem basic_test_active :
    (handle_run 85 0 basic_test_ops).map (fun s => (all_destroyed s,
      (s.world.pools 0).map (fun p =>
        (get_allocated_count p, get_deallocated_count p, get_active_objects p))))
      = some (true, some (3, 3, 0)) ∧
    (handle_run 85 0 (basic_test_ops.take 4)).map (fun s => ((destroy_all s).length,
      (s.world.pools 0).map get_active_objects)) = some (4, some 3) := by
  constructor <;> decide

/-- Claim C17.  For every program that obtains handles from `PoolAllocator::make`, moves them
(by move construction, and also by move assignment or `reset`) and destroys them, each
statement naming only handles alive: the program is defined; every call it makes on the pool
is a call on the pool of the allocator, and every `deallocate` receives a pointer that is
handed out and not yet given back at that time, so no object is deallocated twice; the
pointers handed out and not given back are, at every time, the pointers held by the handles
alive.  The destructor of a handle that holds a pointer `p` makes the one call
`deallocate(p)` on the pool and ends the handle; the destructor of a handle that holds the
null pointer makes no call; a moved-from handle holds a null pointer and a null pool.  When
the program goes on with the destructor of every handle alive, it is defined, no handle is
left, no pointer is handed out any more, the calls made hold as many `deallocate` as
`allocate`, `get_active_objects()` is 0 and the two counters are equal. -/
theorem pool_ptr_raii (B this : Nat) (ops : List HandleOp) (hB : 0 < B)
    (hv : handle_valid B this ops = true) :
    ∃ s r pool, handle_run B this ops = some s ∧
      (∀ c, c ∈ s.calls → c.1 = this) ∧
      valid B this (s.calls.map Prod.snd) = true ∧
      run B this (s.calls.map Prod.snd) = some r ∧ r.world = s.world ∧
      r.live.Perm (held s.handles) ∧ r.live.Nodup ∧
      s.world.pools this = some pool ∧
      get_active_objects pool = r.live.length % SIZE_T_RANGE ∧
      (all_destroyed s = true → r.live = [] ∧ get_active_objects pool = 0 ∧
        get_deallocated_count pool = get_allocated_count pool) ∧
      (∀ i hd, s.handles[i]? = some (some hd) →
        ∃ s1 s2, move_construct i s = some s1 ∧
          s1.handles[i]? = some (some { ptr_ := none, pool_ := none }) ∧
          s1.handles[s.handles.length]? = some (some hd) ∧
          s1.world = s.world ∧ s1.calls = s.calls ∧
          handle_destructor i s1 = some s2 ∧ s2.world = s.world ∧ s2.calls = s.calls) ∧
      (∀ i hd, s.handles[i]? = some (some hd) →
        ∃ s2, handle_destructor i s = some s2 ∧ s2.handles = s.handles.set i none ∧
          (∀ p, hd.ptr_ = some p → hd.pool_ = some this ∧
            deallocate this s.world (some p) = some s2.world ∧
            s2.calls = s.calls ++ [(this, Op.deallocate (some p))]) ∧
          (hd.ptr_ = none → s2.world = s.world ∧ s2.calls = s.calls)) ∧
      ∃ s' r' pool', handle_valid B this (ops ++ destroy_all s) = true ∧
        handle_run B this (ops ++ destroy_all s) = some s' ∧ all_destroyed s' = true ∧
        valid B this (s'.calls.map Prod.snd) = true ∧
        run B this (s'.calls.map Prod.snd) = some r' ∧ r'.world = s'.world ∧
        r'.live = [] ∧
        deallocations (s'.calls.map Prod.snd) = allocations (s'.calls.map Prod.snd) ∧
        s'.world.pools this = some pool' ∧ get_active_objects pool' = 0 ∧
        get_deallocated_count pool' = get_allocated_count pool' := by
  obtain ⟨s, r, pool, C, G, hr, h⟩ := handle_run_inv B this hB ops hv
  have hpool : s.world.pools this = some pool := by rw [← h.world_eq]; exact h.inv.rep.pool_eq
  have hnd : r.live.Nodup := by
    have := h.inv.rep.nodup_all
    exact (List.nodup_append.mp (List.nodup_append.mp this).2.1).2.1
  have hfinal : ∀ (s' : Handles) (r' : Run) (pool' : Pool) (C' G' : List Block),
      HInv B this s' r' pool' C' G' → all_destroyed s' = true →
      r'.live = [] ∧ get_active_objects pool' = 0 ∧
        get_deallocated_count pool' = get_allocated_count pool' := by
    intro s' r' pool' C' G' h' hall
    have hheld := held_all_none s'.handles hall
    have hlive : r'.live = [] := by
      have := h'.held_perm
      rw [hheld] at this
      exact List.Perm.eq_nil this
    refine ⟨hlive, ?_, ?_⟩
    · rw [h'.inv.active, hlive]; rfl
    · unfold get_deallocated_count get_allocated_count
      rw [h'.inv.alloc_eq, h'.inv.dealloc_eq, hlive]
      simp
  refine ⟨s, r, pool, hr, h.on_pool, h.valid_eq, h.run_eq, h.world_eq, h.held_perm, hnd, hpool,
    h.inv.active, hfinal s r pool C G h, ?_, ?_, ?_⟩
  · intro i hd hi
    obtain ⟨s1, hm, h1, hw1, hc1, hi1, hn1⟩ := move_construct_inv B this s r pool C G h i hd hi
    obtain ⟨s2, r2, pool2, C2, G2, hde, -, -, hnone⟩ :=
      handle_destructor_inv B this hB s1 r pool C G h1 i _ hi1
    obtain ⟨hw2, hc2⟩ := hnone rfl
    exact ⟨s1, s2, hm, hi1, hn1, hw1, hc1, hde, by rw [hw2, hw1], by rw [hc2, hc1]⟩
  · intro i hd hi
    obtain ⟨s2, -, -, -, -, hde, -, hset, hcall, hnone⟩ :=
      handle_destructor_call B this hB s r pool C G h i hd hi
    exact ⟨s2, hde, hset, hcall, hnone⟩
  · obtain ⟨s', r', pool', C', G', hr', hv', h', hall⟩ :=
      destructors_inv B this hB s.handles [] s r pool C G h rfl rfl
    obtain ⟨hra, hva⟩ := handle_run_append B this ops (destroy_all s) s hv hr
    obtain ⟨hlive, hact, hcnt⟩ := hfinal s' r' pool' C' G' h' hall
    have hlen := run_live_length B this hB _ h'.valid_eq r' h'.run_eq
    rw [hlive] at hlen
    refine ⟨s', r', pool', by rw [hva]; exact hv', by rw [hra]; exact hr', hall, h'.valid_eq,
      h'.run_eq, h'.world_eq, hlive, by simpa using hlen, ?_, hact, hcnt⟩
    rw [← h'.world_eq]; exact h'.inv.rep.pool_eq

set_option maxRecDepth 100000 in
theorem pool_ptr_raii_witness :
    0 < 85 ∧
    handle_valid 85 0 (basic_test_ops.take 4) = true ∧
    ∃ s r pool, handle_run 85 0 (basic_test_ops.take 4) = some s ∧
      (∀ c, c ∈ s.calls → c.1 = 0) ∧
      valid 85 0 (s.calls.map Prod.snd) = true ∧
      run 85 0 (s.calls.map Prod.snd) = some r ∧ r.world = s.world ∧
      r.live.Perm (held s.handles) ∧ r.live.Nodup ∧
      s.world.pools 0 = some pool ∧
      get_active_objects pool = r.live.length % SIZE_T_RANGE ∧
      (all_destroyed s = true → r.live = [] ∧ get_active_objects pool = 0 ∧
        get_deallocated_count pool = get_allocated_count pool) ∧
      (∀ i hd, s.handles[i]? = some (some hd) →
        ∃ s1 s2, move_construct i s = some s1 ∧
          s1.handles[i]? = some (some { ptr_ := none, pool_ := none }) ∧
          s1.handles[s.handles.length]? = some (some hd) ∧
          s1.world = s.world ∧ s1.calls = s.calls ∧
          handle_destructor i s1 = some s2 ∧ s2.world = s.world ∧ s2.calls = s.calls) ∧
      (∀ i hd, s.handles[i]? = some (some hd) →
        ∃ s2, handle_destructor i s = some s2 ∧ s2.handles = s.handles.set i none ∧
          (∀ p, hd.ptr_ = some p → hd.pool_ = some 0 ∧
            deallocate 0 s.world (some p) = some s2.world ∧
            s2.calls = s.calls ++ [(0, Op.deallocate (some p))]) ∧
          (hd.ptr_ = none → s2.world = s.world ∧ s2.calls = s.calls)) ∧
      ∃ s' r' pool', handle_valid 85 0 (basic_test_ops.take 4 ++ destroy_all s) = true ∧
        handle_run 85 0 (basic_test_ops.take 4 ++ destroy_all s) = some s' ∧
        all_destroyed s' = true ∧
        valid 85 0 (s'.calls.map Prod.snd) = true ∧
        run 85 0 (s'.calls.map Prod.snd) = some r' ∧ r'.world = s'.world ∧
        r'.live = [] ∧
        deallocations (s'.calls.map Prod.snd) = allocations (s'.calls.map Prod.snd) ∧
        s'.world.pools 0 = some pool' ∧ get_active_objects pool' = 0 ∧
        get_deallocated_count pool' = get_allocated_count pool' :=
  ⟨by decide, by decide, pool_ptr_raii 85 0 _ (by decide) (by decide)⟩

set_option maxRecDepth 1000000 in
/-- The cache at the high-water mark: `drain_ops` leaves `count = 26` with the blocks of the
chunks 0 to 12 in the cache, and the next `deallocate` moves the 13 oldest blocks of the
cache to the free list, which was empty, and keeps the other 13, followed by the freed block,
with `count = 14`. -/
theorem drain_deallocate_eq :
    drain_deallocate = some
      { count_before := 26
        cache_before := (List.range 26).map (fun k => some (k / 2, k % 2))
        count_after := 14
        cache_after :=
          (List.range 13).map (fun k => some ((k + 13) / 2, (k + 13) % 2)) ++ [some (13, 0)]
        free_list_after := (List.range 13).map (fun k => (k / 2, k % 2)) } := by
  decide

set_option maxRecDepth 1000000 in
theorem fixed_pool_drain_witness :
    0 < 2 ∧ valid 2 0 drain_ops = true ∧
    ∃ s pool C G, run 2 0 drain_ops = some s ∧ s.world.pools 0 = some pool ∧
      cacheBlocks s.world.local_cache = C.map some ∧
      s.world.local_cache.count = (C.length : Int) ∧
      IsChain s.world.next pool.free_list G ∧
      ∀ p, p ∈ s.live → ∃ w' pool', deallocate 0 s.world (some p) = some w' ∧
        w'.pools 0 = some pool' ∧
        (26 ≤ C.length →
          IsChain w'.next pool'.free_list (C.take (C.length / 2) ++ G) ∧
          cacheBlocks w'.local_cache = (C.drop (C.length / 2) ++ [p]).map some ∧
          w'.local_cache.count = ((C.length - C.length / 2 + 1 : Nat) : Int)) ∧
        (C.length < 26 →
          IsChain w'.next pool'.free_list G ∧ pool'.free_list = pool.free_list ∧
          cacheBlocks w'.local_cache = (C ++ [p]).map some ∧
          w'.local_cache.count = ((C.length + 1 : Nat) : Int)) :=
  ⟨by decide, by decide, fixed_pool_drain 2 0 _ (by decide) (by decide)⟩

end Fixed

end MemoryPool
